import Mathlib

/-!
Verification of the MiSub aggregation pipeline (`src/functions/[[path]].js`).

JavaScript strings are modelled as `List Char` (Unicode scalar values; the
handful of JS corner cases involving lone UTF-16 surrogates are outside the
model and noted where relevant).  `String.prototype.toLowerCase` is modelled
on the Basic Latin range (the rule texts and scheme names the code compares
are ASCII).  Machine-level collaborators that the code calls are modelled
faithfully from their specifications: `atob`/`btoa` (WHATWG forgiving
base64), `TextDecoder('utf-8')` (replacement decoding, BOM stripping),
`encodeURIComponent`/`decodeURIComponent` (strict UTF-8 percent coding,
failure as `Option.none` standing for a thrown `URIError`), and
`JSON.parse`/`JSON.stringify` (full grammar; the double-precision
token-to-canonical-token conversion performed by number parsing followed by
number printing is abstracted as a parameter `cn`, and object fields keep
insertion order — JS additionally fronts integer-like keys, a deterministic
reordering that does not affect the idempotence results proved here).
Thrown exceptions are modelled as `Option.none` throughout; `try`/`catch`
blocks in the source become explicit `Option` eliminations at the same
places.
-/

set_option maxRecDepth 4000

namespace MiSub

/-- JavaScript string, as its list of Unicode scalar values. -/
abbrev JStr := List Char

/-- Shorthand turning a Lean string literal into the `JStr` model. -/
def js (s : String) : JStr := s.toList

/-- Character class of the JS regexp `\s`, which is also the character set
trimmed by `String.prototype.trim` (ECMAScript WhiteSpace ∪ LineTerminator). -/
def isJsWs (c : Char) : Bool :=
  c.toNat = 9 || c.toNat = 10 || c.toNat = 11 || c.toNat = 12 || c.toNat = 13 ||
  c.toNat = 32 || c.toNat = 0xa0 || c.toNat = 0x1680 ||
  (0x2000 ≤ c.toNat && c.toNat ≤ 0x200a) ||
  c.toNat = 0x2028 || c.toNat = 0x2029 || c.toNat = 0x202f ||
  c.toNat = 0x205f || c.toNat = 0x3000 || c.toNat = 0xfeff

/-- Model of `String.prototype.trim`. -/
def jsTrim (s : JStr) : JStr :=
  List.rdropWhile isJsWs (s.dropWhile isJsWs)

/-- Model of `String.prototype.toLowerCase` on the Basic Latin range
(`Char.toLower` lowers exactly `'A'`–`'Z'`). -/
def lowerAscii (s : JStr) : JStr := s.map Char.toLower

/-- Model of `String.prototype.split` with a single-character separator. -/
def splitOnC (d : Char) : JStr → List JStr
  | [] => [[]]
  | c :: rest =>
    if c = d then [] :: splitOnC d rest
    else
      match splitOnC d rest with
      | [] => [[c]]
      | h :: t => (c :: h) :: t

/-- Model of `Array.prototype.join` with a single-character separator. -/
def joinWithC (d : Char) : List JStr → JStr
  | [] => []
  | [x] => x
  | x :: y :: rest => x ++ d :: joinWithC d (y :: rest)

/-- Model of `str.split('\n')`. -/
def splitNl (s : JStr) : List JStr := splitOnC '\n' s

/-- Model of `arr.join('\n')`. -/
def joinNl (l : List JStr) : JStr := joinWithC '\n' l

/-- Splitter at the LAST occurrence of `d` (model of `lastIndexOf` plus the
two `substring` calls around it): `some (before, after)` when `d` occurs. -/
def lastSplit (d : Char) : JStr → Option (JStr × JStr)
  | [] => none
  | c :: rest =>
    match lastSplit d rest with
    | some (a, b) => some (c :: a, b)
    | none => if c = d then some ([], rest) else none

/-- Splitter at the FIRST occurrence of the three-character sequence `://`
(model of the lazy regexp `^(.*?):\/\/`): `some (scheme, rest)` when present. -/
def schemeSplit : JStr → Option (JStr × JStr)
  | ':' :: '/' :: '/' :: rest => some ([], rest)
  | c :: rest => (schemeSplit rest).map (fun p => (c :: p.1, p.2))
  | [] => none

/-- Order-preserving first-occurrence deduplication (model of
`[...new Set(array)]`), with an accumulator of already-seen elements. -/
def dedupFirstAux (seen : List JStr) : List JStr → List JStr
  | [] => []
  | x :: rest =>
    if x ∈ seen then dedupFirstAux seen rest
    else x :: dedupFirstAux (x :: seen) rest

/-- First-occurrence deduplication of a list of strings. -/
def dedupFirst (l : List JStr) : List JStr := dedupFirstAux [] l

/-- Lines of a produced output string: the empty output has no lines, any
other output is split at newlines. -/
def outputLines (s : JStr) : List JStr := if s = [] then [] else splitNl s

/-- Model of `text.replace(/\r\n/g, '\n')` (left-to-right, non-overlapping). -/
def replaceCrLf : JStr → JStr
  | '\r' :: '\n' :: rest => '\n' :: replaceCrLf rest
  | c :: rest => c :: replaceCrLf rest
  | [] => []

/-! ### Basic lemmas about the string model -/

theorem dropWhile_fixed_of_prefix {p : Char → Bool} {l t : JStr}
    (hpre : t <+: l) (hl : l.dropWhile p = l) : t.dropWhile p = t := by
  rw [List.dropWhile_eq_self_iff] at hl ⊢
  intro hlt
  have hlen : 0 < l.length := lt_of_lt_of_le hlt hpre.length_le
  have hset := hl hlen
  have hget : t.get ⟨0, hlt⟩ = l.get ⟨0, hlen⟩ := by
    obtain ⟨u, hu⟩ := hpre
    subst hu
    simp [List.get_eq_getElem, List.getElem_append_left hlt]
  rwa [hget]

theorem jsTrim_idem (s : JStr) : jsTrim (jsTrim s) = jsTrim s := by
  unfold jsTrim
  have h1 : (List.rdropWhile isJsWs (s.dropWhile isJsWs)).dropWhile isJsWs
      = List.rdropWhile isJsWs (s.dropWhile isJsWs) :=
    dropWhile_fixed_of_prefix (List.rdropWhile_prefix _ _)
      (List.dropWhile_idempotent _ _)
  rw [h1, List.rdropWhile_idempotent]

theorem jsTrim_mem {s : JStr} {c : Char} (h : c ∈ jsTrim s) : c ∈ s := by
  unfold jsTrim at h
  have h1 := (List.rdropWhile_prefix isJsWs (s.dropWhile isJsWs)).sublist.mem h
  exact (List.dropWhile_sublist _).mem h1

theorem splitOnC_ne_nil (d : Char) (s : JStr) : splitOnC d s ≠ [] := by
  cases s with
  | nil => simp [splitOnC]
  | cons c rest =>
    simp only [splitOnC]
    by_cases hc : c = d
    · simp [hc]
    · rcases h : splitOnC d rest with _ | ⟨h0, t0⟩ <;> simp [hc]

theorem splitOnC_append (d : Char) (x y : JStr) :
    splitOnC d (x ++ d :: y) = splitOnC d x ++ splitOnC d y := by
  induction x with
  | nil => simp [splitOnC]
  | cons c rest ih =>
    by_cases hc : c = d
    · simp [splitOnC, hc, ih]
    · simp only [List.cons_append, splitOnC, if_neg hc, List.append_eq]
      rw [ih]
      rcases h : splitOnC d rest with _ | ⟨h0, t0⟩
      · exact absurd h (splitOnC_ne_nil d rest)
      · simp

theorem splitOnC_not_mem {d : Char} {s : JStr} (h : d ∉ s) : splitOnC d s = [s] := by
  induction s with
  | nil => rfl
  | cons c rest ih =>
    have hc : ¬ c = d := fun hcd => h (by simp [hcd])
    have hrest : d ∉ rest := fun hm => h (by simp [hm])
    simp [splitOnC, ih hrest, hc]

theorem splitOnC_pieces_not_mem (d : Char) (s : JStr) :
    ∀ piece ∈ splitOnC d s, d ∉ piece := by
  induction s with
  | nil => intro piece hp; simp [splitOnC] at hp; simp [hp]
  | cons c rest ih =>
    intro piece hp
    simp only [splitOnC] at hp
    by_cases hc : c = d
    · rw [if_pos hc] at hp
      rcases List.mem_cons.mp hp with h1 | h1
      · simp [h1]
      · exact ih piece h1
    · rw [if_neg hc] at hp
      rcases h : splitOnC d rest with _ | ⟨h0, t0⟩
      · exact absurd h (splitOnC_ne_nil d rest)
      · rw [h] at hp
        rcases List.mem_cons.mp hp with h1 | h1
        · subst h1
          intro hmem
          rcases List.mem_cons.mp hmem with h2 | h2
          · exact hc h2.symm
          · exact ih h0 (h ▸ List.mem_cons_self _ _) h2
        · exact ih piece (h ▸ List.mem_cons_of_mem _ h1)

theorem dedupFirstAux_nodup (l : List JStr) :
    ∀ seen, (dedupFirstAux seen l).Nodup ∧ ∀ x ∈ dedupFirstAux seen l, x ∉ seen := by
  induction l with
  | nil => intro seen; simp [dedupFirstAux]
  | cons x rest ih =>
    intro seen
    by_cases hx : x ∈ seen
    · simp only [dedupFirstAux, if_pos hx]
      exact ⟨(ih seen).1, fun y hy => (ih seen).2 y hy⟩
    · simp only [dedupFirstAux, if_neg hx]
      obtain ⟨hnd, hns⟩ := ih (x :: seen)
      constructor
      · refine List.nodup_cons.mpr ⟨fun hmem => ?_, hnd⟩
        exact hns x hmem (List.mem_cons_self _ _)
      · intro y hy
        rcases List.mem_cons.mp hy with h1 | h1
        · exact h1 ▸ hx
        · intro hys
          exact hns y h1 (List.mem_cons_of_mem _ hys)

theorem dedupFirst_nodup (l : List JStr) : (dedupFirst l).Nodup :=
  (dedupFirstAux_nodup l []).1

/-! ### Base64: models of `btoa` and `atob` (WHATWG forgiving base64) -/

/-- The base64 alphabet character of a six-bit value. -/
def b64Char (n : Nat) : Char :=
  if n < 26 then Char.ofNat (65 + n)
  else if n < 52 then Char.ofNat (97 + (n - 26))
  else if n < 62 then Char.ofNat (48 + (n - 52))
  else if n = 62 then '+' else '/'

/-- The six-bit value of a base64 alphabet character (unspecified elsewhere). -/
def b64CharVal (c : Char) : Nat :=
  if 65 ≤ c.toNat ∧ c.toNat ≤ 90 then c.toNat - 65
  else if 97 ≤ c.toNat ∧ c.toNat ≤ 122 then c.toNat - 97 + 26
  else if 48 ≤ c.toNat ∧ c.toNat ≤ 57 then c.toNat - 48 + 52
  else if c = '+' then 62 else 63

/-- Membership in the base64 alphabet proper (`A`–`Z`, `a`–`z`, `0`–`9`, `+`, `/`). -/
def isB64AlphaChar (c : Char) : Bool :=
  (65 ≤ c.toNat && c.toNat ≤ 90) || (97 ≤ c.toNat && c.toNat ≤ 122) ||
  (48 ≤ c.toNat && c.toNat ≤ 57) || c = '+' || c = '/'

/-- Character class of the regexp `[A-Za-z0-9+/=]` used by the payload decoder. -/
def isB64TestChar (c : Char) : Bool := isB64AlphaChar c || c = '='

/-- WHATWG ASCII whitespace, removed by forgiving-base64 decoding. -/
def isAsciiWsHtml (c : Char) : Bool :=
  c.toNat = 9 || c.toNat = 10 || c.toNat = 12 || c.toNat = 13 || c.toNat = 32

/-- Model of `btoa` applied to a binary string, given as its byte values
(the call sites produce the binary string as `unescape(encodeURIComponent(s))`,
i.e. the UTF-8 bytes of `s`). -/
def btoaBytes : List Nat → JStr
  | a :: b :: c :: rest =>
      b64Char (a / 4) :: b64Char (a % 4 * 16 + b / 16) ::
      b64Char (b % 16 * 4 + c / 64) :: b64Char (c % 64) :: btoaBytes rest
  | [a, b] => [b64Char (a / 4), b64Char (a % 4 * 16 + b / 16), b64Char (b % 16 * 4), '=']
  | [a] => [b64Char (a / 4), b64Char (a % 4 * 16), '=', '=']
  | [] => []

/-- The same encoding without the `=` padding (the form left after the
forgiving-base64 decoder strips padding). -/
def b64NoPad : List Nat → JStr
  | a :: b :: c :: rest =>
      b64Char (a / 4) :: b64Char (a % 4 * 16 + b / 16) ::
      b64Char (b % 16 * 4 + c / 64) :: b64Char (c % 64) :: b64NoPad rest
  | [a, b] => [b64Char (a / 4), b64Char (a % 4 * 16 + b / 16), b64Char (b % 16 * 4)]
  | [a] => [b64Char (a / 4), b64Char (a % 4 * 16)]
  | [] => []

/-- Removal of up to two trailing `=` characters (forgiving-base64 step 2). -/
def stripPad2 (l : JStr) : JStr :=
  if l.getLast? = some '=' then
    if l.dropLast.getLast? = some '=' then l.dropLast.dropLast else l.dropLast
  else l

/-- Six-bit groups to bytes (forgiving-base64 main loop; leftover bits of a
final two- or three-character group are discarded, as the spec directs). -/
def b64Groups : JStr → List Nat
  | a :: b :: c :: d :: rest =>
      (b64CharVal a * 4 + b64CharVal b / 16) ::
      (b64CharVal b % 16 * 16 + b64CharVal c / 4) ::
      (b64CharVal c % 4 * 64 + b64CharVal d) :: b64Groups rest
  | [a, b] => [b64CharVal a * 4 + b64CharVal b / 16]
  | [a, b, c] =>
      [b64CharVal a * 4 + b64CharVal b / 16, b64CharVal b % 16 * 16 + b64CharVal c / 4]
  | _ => []

/-- Padding removal applies only when the whitespace-stripped input length is a
multiple of four (forgiving-base64 step 2). -/
def atobStrip (t1 : JStr) : JStr :=
  if t1.length % 4 = 0 then stripPad2 t1 else t1

/-- Validation and decoding after whitespace and padding removal
(forgiving-base64 steps 3–5). -/
def atobCore (t2 : JStr) : Option (List Nat) :=
  if t2.length % 4 = 1 then none
  else if t2.all isB64AlphaChar then some (b64Groups t2) else none

/-- Model of `atob`, returning the byte values of the resulting binary string,
or `none` where `atob` throws (WHATWG forgiving-base64 decode). -/
def atobBytes (s : JStr) : Option (List Nat) :=
  atobCore (atobStrip (s.filter (fun c => !(isAsciiWsHtml c))))

/-! ### Base64 roundtrip lemmas -/

theorem b64Char_spec : ∀ n : Fin 64,
    b64CharVal (b64Char n.val) = n.val ∧ isB64AlphaChar (b64Char n.val) = true ∧
    isAsciiWsHtml (b64Char n.val) = false ∧ b64Char n.val ≠ '=' ∧
    b64Char n.val ≠ '\n' := by decide

theorem b64Char_val (n : Nat) (h : n < 64) : b64CharVal (b64Char n) = n :=
  (b64Char_spec ⟨n, h⟩).1

theorem b64Char_alpha (n : Nat) (h : n < 64) : isB64AlphaChar (b64Char n) = true :=
  (b64Char_spec ⟨n, h⟩).2.1

theorem b64Char_not_ws (n : Nat) (h : n < 64) : isAsciiWsHtml (b64Char n) = false :=
  (b64Char_spec ⟨n, h⟩).2.2.1

theorem b64Char_ne_eq (n : Nat) (h : n < 64) : b64Char n ≠ '=' :=
  (b64Char_spec ⟨n, h⟩).2.2.2.1

theorem b64Test_not_ws {c : Char} (h : isB64TestChar c = true) : isAsciiWsHtml c = false := by
  unfold isB64TestChar isB64AlphaChar at h
  unfold isAsciiWsHtml
  simp only [Bool.or_eq_true, Bool.and_eq_true, decide_eq_true_eq] at h
  simp only [Bool.or_eq_false_iff, decide_eq_false_iff_not]
  have hbound : 43 ≤ c.toNat ∧ c.toNat ≤ 122 := by
    rcases h with ((((h | h) | h) | h) | h) | h
    · omega
    · omega
    · omega
    · subst h; decide
    · subst h; decide
    · subst h; decide
  omega

theorem btoaBytes_mem (bs : List Nat) (hb : ∀ x ∈ bs, x < 256) :
    ∀ c ∈ btoaBytes bs, isB64AlphaChar c = true ∨ c = '=' := by
  match bs with
  | a :: b :: c :: rest =>
    have ha : a < 256 := hb a (by simp)
    have hbb : b < 256 := hb b (by simp)
    have hc : c < 256 := hb c (by simp)
    intro ch hch
    simp only [btoaBytes, List.mem_cons] at hch
    rcases hch with h | h | h | h | h
    · exact Or.inl (h ▸ b64Char_alpha _ (by omega))
    · exact Or.inl (h ▸ b64Char_alpha _ (by omega))
    · exact Or.inl (h ▸ b64Char_alpha _ (by omega))
    · exact Or.inl (h ▸ b64Char_alpha _ (by omega))
    · exact btoaBytes_mem rest (fun x hx => hb x (by simp [hx])) ch h
  | [a, b] =>
    have ha : a < 256 := hb a (by simp)
    have hbb : b < 256 := hb b (by simp)
    intro ch hch
    simp only [btoaBytes, List.mem_cons] at hch
    rcases hch with h | h | h | h | h
    · exact Or.inl (h ▸ b64Char_alpha _ (by omega))
    · exact Or.inl (h ▸ b64Char_alpha _ (by omega))
    · exact Or.inl (h ▸ b64Char_alpha _ (by omega))
    · exact Or.inr h
    · simp at h
  | [a] =>
    have ha : a < 256 := hb a (by simp)
    intro ch hch
    simp only [btoaBytes, List.mem_cons] at hch
    rcases hch with h | h | h | h | h
    · exact Or.inl (h ▸ b64Char_alpha _ (by omega))
    · exact Or.inl (h ▸ b64Char_alpha _ (by omega))
    · exact Or.inr h
    · exact Or.inr h
    · simp at h
  | [] => intro ch hch; simp [btoaBytes] at hch

theorem btoaBytes_not_ws (bs : List Nat) (hb : ∀ x ∈ bs, x < 256) :
    ∀ c ∈ btoaBytes bs, isAsciiWsHtml c = false := by
  intro c hc
  rcases btoaBytes_mem bs hb c hc with h | h
  · exact b64Test_not_ws (by simp [isB64TestChar, h])
  · subst h; decide

theorem btoaBytes_len (bs : List Nat) : (btoaBytes bs).length % 4 = 0 := by
  match bs with
  | a :: b :: c :: rest =>
    have ih := btoaBytes_len rest
    simp only [btoaBytes, List.length_cons]
    omega
  | [a, b] => simp [btoaBytes]
  | [a] => simp [btoaBytes]
  | [] => simp [btoaBytes]

theorem stripPad2_append (pre l : JStr) (h2 : 2 ≤ l.length) :
    stripPad2 (pre ++ l) = pre ++ stripPad2 l := by
  match l, h2 with
  | x :: y :: r, _ =>
    unfold stripPad2
    rw [List.getLast?_append_of_ne_nil pre (by simp), List.dropLast_append_cons]
    by_cases hlast : (x :: y :: r).getLast? = some '='
    · rw [if_pos hlast, if_pos hlast]
      have hdne : (x :: y :: r).dropLast ≠ [] := by
        simp [List.dropLast_cons₂]
      rw [List.getLast?_append_of_ne_nil pre hdne]
      by_cases hlast2 : (x :: y :: r).dropLast.getLast? = some '='
      · rw [if_pos hlast2, if_pos hlast2]
        obtain ⟨z, r2, hzr⟩ : ∃ z r2, (x :: y :: r).dropLast = z :: r2 := by
          rcases hd : (x :: y :: r).dropLast with _ | ⟨z, r2⟩
          · exact absurd hd hdne
          · exact ⟨z, r2, rfl⟩
        rw [hzr, List.dropLast_append_cons]
      · rw [if_neg hlast2, if_neg hlast2]
    · rw [if_neg hlast, if_neg hlast]

theorem stripPad2_btoa (bs : List Nat) (hb : ∀ x ∈ bs, x < 256) :
    stripPad2 (btoaBytes bs) = b64NoPad bs := by
  match bs with
  | a :: b :: c :: rest =>
    have hrest : ∀ x ∈ rest, x < 256 := fun x hx => hb x (by simp [hx])
    rcases rest with _ | ⟨r0, rrest⟩
    · have ha : a < 256 := hb a (by simp)
      have hbb : b < 256 := hb b (by simp)
      have hc : c < 256 := hb c (by simp)
      show stripPad2 [b64Char (a / 4), b64Char (a % 4 * 16 + b / 16),
        b64Char (b % 16 * 4 + c / 64), b64Char (c % 64)] = _
      unfold stripPad2
      rw [if_neg (by
        simp only [List.getLast?]
        intro hx
        exact b64Char_ne_eq (c % 64) (by omega) (by simpa using hx))]
      rfl
    · have hlen : 2 ≤ (btoaBytes (r0 :: rrest)).length := by
        have h4 := btoaBytes_len (r0 :: rrest)
        have hne : btoaBytes (r0 :: rrest) ≠ [] := by
          rcases rrest with _ | ⟨r1, rr2⟩
          · simp [btoaBytes]
          · rcases rr2 with _ | ⟨r2, rr3⟩ <;> simp [btoaBytes]
        have := List.length_pos.mpr hne
        omega
      show stripPad2 ([b64Char (a / 4), b64Char (a % 4 * 16 + b / 16),
        b64Char (b % 16 * 4 + c / 64), b64Char (c % 64)] ++ btoaBytes (r0 :: rrest)) = _
      rw [stripPad2_append _ _ hlen, stripPad2_btoa (r0 :: rrest) hrest]
      rfl
  | [a, b] =>
    have ha : a < 256 := hb a (by simp)
    have hbb : b < 256 := hb b (by simp)
    show stripPad2 [b64Char (a / 4), b64Char (a % 4 * 16 + b / 16),
      b64Char (b % 16 * 4), '='] = _
    unfold stripPad2
    rw [if_pos (by simp [List.getLast?])]
    rw [if_neg (by
      simp only [List.dropLast, List.getLast?]
      intro hx
      exact b64Char_ne_eq (b % 16 * 4) (by omega) (by simpa using hx))]
    rfl
  | [a] =>
    show stripPad2 [b64Char (a / 4), b64Char (a % 4 * 16), '=', '='] = _
    unfold stripPad2
    rw [if_pos (by simp [List.getLast?])]
    rw [if_pos (by simp [List.dropLast, List.getLast?])]
    rfl
  | [] => rfl

theorem b64NoPad_len (bs : List Nat) : (b64NoPad bs).length % 4 ≠ 1 := by
  match bs with
  | a :: b :: c :: rest =>
    have ih := b64NoPad_len rest
    simp only [b64NoPad, List.length_cons]
    omega
  | [a, b] => simp [b64NoPad]
  | [a] => simp [b64NoPad]
  | [] => simp [b64NoPad]

theorem b64NoPad_alpha (bs : List Nat) (hb : ∀ x ∈ bs, x < 256) :
    ∀ c ∈ b64NoPad bs, isB64AlphaChar c = true := by
  match bs with
  | a :: b :: c :: rest =>
    have ha : a < 256 := hb a (by simp)
    have hbb : b < 256 := hb b (by simp)
    have hc : c < 256 := hb c (by simp)
    intro ch hch
    simp only [b64NoPad, List.mem_cons] at hch
    rcases hch with h | h | h | h | h
    · exact h ▸ b64Char_alpha _ (by omega)
    · exact h ▸ b64Char_alpha _ (by omega)
    · exact h ▸ b64Char_alpha _ (by omega)
    · exact h ▸ b64Char_alpha _ (by omega)
    · exact b64NoPad_alpha rest (fun x hx => hb x (by simp [hx])) ch h
  | [a, b] =>
    have ha : a < 256 := hb a (by simp)
    have hbb : b < 256 := hb b (by simp)
    intro ch hch
    simp only [b64NoPad, List.mem_cons] at hch
    rcases hch with h | h | h | h
    · exact h ▸ b64Char_alpha _ (by omega)
    · exact h ▸ b64Char_alpha _ (by omega)
    · exact h ▸ b64Char_alpha _ (by omega)
    · simp at h
  | [a] =>
    have ha : a < 256 := hb a (by simp)
    intro ch hch
    simp only [b64NoPad, List.mem_cons] at hch
    rcases hch with h | h | h
    · exact h ▸ b64Char_alpha _ (by omega)
    · exact h ▸ b64Char_alpha _ (by omega)
    · simp at h
  | [] => intro ch hch; simp [b64NoPad] at hch

theorem b64Groups_noPad (bs : List Nat) (hb : ∀ x ∈ bs, x < 256) :
    b64Groups (b64NoPad bs) = bs := by
  match bs with
  | a :: b :: c :: rest =>
    have ha : a < 256 := hb a (by simp)
    have hbb : b < 256 := hb b (by simp)
    have hc : c < 256 := hb c (by simp)
    have ih := b64Groups_noPad rest (fun x hx => hb x (by simp [hx]))
    simp only [b64NoPad, b64Groups, ih]
    rw [b64Char_val (a / 4) (by omega), b64Char_val (a % 4 * 16 + b / 16) (by omega),
        b64Char_val (b % 16 * 4 + c / 64) (by omega), b64Char_val (c % 64) (by omega)]
    simp only [List.cons.injEq]
    refine ⟨by omega, by omega, by omega, trivial⟩
  | [a, b] =>
    have ha : a < 256 := hb a (by simp)
    have hbb : b < 256 := hb b (by simp)
    simp only [b64NoPad, b64Groups]
    rw [b64Char_val (a / 4) (by omega), b64Char_val (a % 4 * 16 + b / 16) (by omega),
        b64Char_val (b % 16 * 4) (by omega)]
    simp only [List.cons.injEq]
    refine ⟨by omega, by omega, trivial⟩
  | [a] =>
    have ha : a < 256 := hb a (by simp)
    simp only [b64NoPad, b64Groups]
    rw [b64Char_val (a / 4) (by omega), b64Char_val (a % 4 * 16) (by omega)]
    simp only [List.cons.injEq]
    refine ⟨by omega, trivial⟩
  | [] => rfl

theorem atobBytes_btoaBytes (bs : List Nat) (hb : ∀ x ∈ bs, x < 256) :
    atobBytes (btoaBytes bs) = some bs := by
  unfold atobBytes atobStrip atobCore
  have hfil : (btoaBytes bs).filter (fun c => !(isAsciiWsHtml c)) = btoaBytes bs :=
    List.filter_eq_self.mpr (fun c hc => by simp [btoaBytes_not_ws bs hb c hc])
  rw [hfil, if_pos (btoaBytes_len bs), stripPad2_btoa bs hb]
  rw [if_neg (b64NoPad_len bs)]
  rw [if_pos (by
    rw [List.all_eq_true]
    exact fun c hc => b64NoPad_alpha bs hb c hc)]
  rw [b64Groups_noPad bs hb]

theorem atobBytes_none_of_bad {s : JStr} {c : Char} (hc : c ∈ s)
    (hws : isAsciiWsHtml c = false) (halpha : isB64AlphaChar c = false)
    (heq : c ≠ '=') : atobBytes s = none := by
  have h1 : c ∈ s.filter (fun x => !(isAsciiWsHtml x)) :=
    List.mem_filter.mpr ⟨hc, by simp [hws]⟩
  have hdrop : ∀ l : JStr, c ∈ l → l.getLast? = some '=' → c ∈ l.dropLast := by
    intro l hl hlast
    have hsplit := List.dropLast_append_getLast? '=' hlast
    rw [← hsplit] at hl
    rcases List.mem_append.mp hl with h | h
    · exact h
    · exact absurd (List.mem_singleton.mp h) heq
  have h2 : c ∈ atobStrip (s.filter (fun x => !(isAsciiWsHtml x))) := by
    unfold atobStrip
    split
    · unfold stripPad2
      split
      · rename_i hl1
        split
        · rename_i hl2
          exact hdrop _ (hdrop _ h1 hl1) hl2
        · exact hdrop _ h1 hl1
      · exact h1
    · exact h1
  unfold atobBytes atobCore
  split
  · rfl
  · rw [if_neg]
    rw [List.all_eq_true]
    intro hall
    have hx := hall c h2
    rw [halpha] at hx
    exact absurd hx (by simp)

/-! ### UTF-8: encoding, and the replacement decoder of `TextDecoder('utf-8')` -/

/-- UTF-8 encoding of one Unicode scalar value. -/
def utf8EncodeChar (c : Char) : List Nat :=
  if c.toNat < 0x80 then [c.toNat]
  else if c.toNat < 0x800 then [0xc0 + c.toNat / 64, 0x80 + c.toNat % 64]
  else if c.toNat < 0x10000 then
    [0xe0 + c.toNat / 4096, 0x80 + c.toNat / 64 % 64, 0x80 + c.toNat % 64]
  else
    [0xf0 + c.toNat / 262144, 0x80 + c.toNat / 4096 % 64,
     0x80 + c.toNat / 64 % 64, 0x80 + c.toNat % 64]

/-- UTF-8 encoding of a string (this is also the byte content of the binary
string `unescape(encodeURIComponent(s))` the source feeds to `btoa`). -/
def utf8Encode (s : JStr) : List Nat := s.flatMap utf8EncodeChar

/-- Lower bound of the second byte given the lead byte (WHATWG UTF-8 decoder). -/
def utf8Lo (b : Nat) : Nat := if b = 0xe0 then 0xa0 else if b = 0xf0 then 0x90 else 0x80

/-- Upper bound of the second byte given the lead byte (WHATWG UTF-8 decoder). -/
def utf8Hi (b : Nat) : Nat := if b = 0xed then 0x9f else if b = 0xf4 then 0x8f else 0xbf

/-- The replacement character U+FFFD. -/
def uFFFD : Char := Char.ofNat 0xfffd

/-- Decoding step at a lead byte `b` (WHATWG UTF-8 decoder): the scalar value
produced (U+FFFD on an invalid sequence) and the number of continuation bytes
consumed, so that on error decoding resumes at the offending byte
(maximal-subpart policy). -/
def utf8Step (b : Nat) (rest : List Nat) : Char × Nat :=
  if b < 0x80 then (Char.ofNat b, 0)
  else if 0xc2 ≤ b ∧ b ≤ 0xdf then
    match rest with
    | b2 :: _ =>
      if 0x80 ≤ b2 ∧ b2 ≤ 0xbf then (Char.ofNat ((b - 0xc0) * 64 + (b2 - 0x80)), 1)
      else (uFFFD, 0)
    | [] => (uFFFD, 0)
  else if 0xe0 ≤ b ∧ b ≤ 0xef then
    match rest with
    | b2 :: rest2 =>
      if utf8Lo b ≤ b2 ∧ b2 ≤ utf8Hi b then
        match rest2 with
        | b3 :: _ =>
          if 0x80 ≤ b3 ∧ b3 ≤ 0xbf then
            (Char.ofNat ((b - 0xe0) * 4096 + (b2 - 0x80) * 64 + (b3 - 0x80)), 2)
          else (uFFFD, 1)
        | [] => (uFFFD, 1)
      else (uFFFD, 0)
    | [] => (uFFFD, 0)
  else if 0xf0 ≤ b ∧ b ≤ 0xf4 then
    match rest with
    | b2 :: rest2 =>
      if utf8Lo b ≤ b2 ∧ b2 ≤ utf8Hi b then
        match rest2 with
        | b3 :: rest3 =>
          if 0x80 ≤ b3 ∧ b3 ≤ 0xbf then
            match rest3 with
            | b4 :: _ =>
              if 0x80 ≤ b4 ∧ b4 ≤ 0xbf then
                (Char.ofNat ((b - 0xf0) * 262144 + (b2 - 0x80) * 4096 +
                  (b3 - 0x80) * 64 + (b4 - 0x80)), 3)
              else (uFFFD, 2)
            | [] => (uFFFD, 2)
          else (uFFFD, 1)
        | [] => (uFFFD, 1)
      else (uFFFD, 0)
    | [] => (uFFFD, 0)
  else (uFFFD, 0)

/-- WHATWG UTF-8 decoder with replacement. -/
def utf8DecodeReplace : List Nat → JStr
  | [] => []
  | b :: rest =>
    (utf8Step b rest).1 :: utf8DecodeReplace (rest.drop (utf8Step b rest).2)
termination_by bs => bs.length
decreasing_by
  simp only [List.length_drop, List.length_cons]
  omega

/-- Model of `new TextDecoder('utf-8').decode` on a byte sequence: replacement
decoding plus removal of one leading byte-order mark. -/
def textDecodeUtf8 (bs : List Nat) : JStr :=
  match utf8DecodeReplace bs with
  | c :: rest => if c = '\ufeff' then rest else c :: rest
  | [] => []

theorem char_toNat_valid (c : Char) :
    c.toNat < 0xd800 ∨ (0xdfff < c.toNat ∧ c.toNat < 0x110000) := by
  have h := c.valid
  rcases h with h | h
  · exact Or.inl h
  · exact Or.inr ⟨h.1, h.2⟩

theorem utf8EncodeChar_lt (c : Char) : ∀ x ∈ utf8EncodeChar c, x < 256 := by
  have hv := char_toNat_valid c
  unfold utf8EncodeChar
  split
  · intro x hx; simp at hx; omega
  · split
    · intro x hx; simp at hx; rcases hx with h | h <;> omega
    · split
      · intro x hx; simp at hx
        rcases hx with h | h | h <;> omega
      · intro x hx; simp at hx
        rcases hx with h | h | h | h <;> omega

theorem utf8Encode_lt (s : JStr) : ∀ x ∈ utf8Encode s, x < 256 := by
  intro x hx
  obtain ⟨c, _, hc2⟩ := List.mem_flatMap.mp hx
  exact utf8EncodeChar_lt c x hc2

theorem utf8Step_enc2 (c : Char) (tail : List Nat) (h1 : ¬ c.toNat < 0x80)
    (h2 : c.toNat < 0x800) :
    utf8Step (0xc0 + c.toNat / 64) ((0x80 + c.toNat % 64) :: tail) = (c, 1) := by
  unfold utf8Step
  rw [if_neg (by omega), if_pos (by constructor <;> omega)]
  simp only
  rw [if_pos (by constructor <;> omega)]
  have harith : (0xc0 + c.toNat / 64 - 0xc0) * 64 + (0x80 + c.toNat % 64 - 0x80)
      = c.toNat := by omega
  rw [harith, Char.ofNat_toNat]

theorem utf8Step_enc3 (c : Char) (tail : List Nat) (h2 : ¬ c.toNat < 0x800)
    (h3 : c.toNat < 0x10000) :
    utf8Step (0xe0 + c.toNat / 4096)
      ((0x80 + c.toNat / 64 % 64) :: (0x80 + c.toNat % 64) :: tail) = (c, 2) := by
  have hv := char_toNat_valid c
  have c1 : ¬ (0xe0 + c.toNat / 4096 < 0x80) := by omega
  have c2 : ¬ (0xc2 ≤ 0xe0 + c.toNat / 4096 ∧ 0xe0 + c.toNat / 4096 ≤ 0xdf) := by omega
  have c3 : 0xe0 ≤ 0xe0 + c.toNat / 4096 ∧ 0xe0 + c.toNat / 4096 ≤ 0xef := by
    constructor <;> omega
  have c4 : utf8Lo (0xe0 + c.toNat / 4096) ≤ 0x80 + c.toNat / 64 % 64 ∧
      0x80 + c.toNat / 64 % 64 ≤ utf8Hi (0xe0 + c.toNat / 4096) := by
    unfold utf8Lo utf8Hi
    constructor <;> (split_ifs <;> omega)
  have c5 : 0x80 ≤ 0x80 + c.toNat % 64 ∧ 0x80 + c.toNat % 64 ≤ 0xbf := by
    constructor <;> omega
  simp only [utf8Step, c1, c2, c3, c4, c5, if_true, if_false, if_neg, if_pos,
    ite_true, ite_false, and_self, not_false_eq_true]
  simp [c1, c2, c3, c4, c5]
  have h' : c.toNat / 4096 * 4096 + c.toNat / 64 % 64 * 64 + c.toNat % 64
      = c.toNat := by omega
  rw [h', Char.ofNat_toNat]

theorem utf8Step_enc4 (c : Char) (tail : List Nat) (h3 : ¬ c.toNat < 0x10000) :
    utf8Step (0xf0 + c.toNat / 262144)
      ((0x80 + c.toNat / 4096 % 64) :: (0x80 + c.toNat / 64 % 64) ::
        (0x80 + c.toNat % 64) :: tail) = (c, 3) := by
  have hv := char_toNat_valid c
  have c1 : ¬ (0xf0 + c.toNat / 262144 < 0x80) := by omega
  have c2 : ¬ (0xc2 ≤ 0xf0 + c.toNat / 262144 ∧ 0xf0 + c.toNat / 262144 ≤ 0xdf) := by
    omega
  have c3 : ¬ (0xe0 ≤ 0xf0 + c.toNat / 262144 ∧ 0xf0 + c.toNat / 262144 ≤ 0xef) := by
    omega
  have c4 : 0xf0 ≤ 0xf0 + c.toNat / 262144 ∧ 0xf0 + c.toNat / 262144 ≤ 0xf4 := by
    constructor <;> omega
  have c5 : utf8Lo (0xf0 + c.toNat / 262144) ≤ 0x80 + c.toNat / 4096 % 64 ∧
      0x80 + c.toNat / 4096 % 64 ≤ utf8Hi (0xf0 + c.toNat / 262144) := by
    unfold utf8Lo utf8Hi
    constructor <;> (split_ifs <;> omega)
  have c6 : 0x80 ≤ 0x80 + c.toNat / 64 % 64 ∧ 0x80 + c.toNat / 64 % 64 ≤ 0xbf := by
    constructor <;> omega
  have c7 : 0x80 ≤ 0x80 + c.toNat % 64 ∧ 0x80 + c.toNat % 64 ≤ 0xbf := by
    constructor <;> omega
  simp [utf8Step, c1, c2, c3, c4, c5, c6, c7]
  have h' : c.toNat / 262144 * 262144 + c.toNat / 4096 % 64 * 4096 +
      c.toNat / 64 % 64 * 64 + c.toNat % 64 = c.toNat := by omega
  rw [h', Char.ofNat_toNat]

theorem utf8_roundtrip_char (c : Char) (rest : List Nat) :
    utf8DecodeReplace (utf8EncodeChar c ++ rest) = c :: utf8DecodeReplace rest := by
  by_cases h1 : c.toNat < 0x80
  · rw [show utf8EncodeChar c = [c.toNat] from by unfold utf8EncodeChar; rw [if_pos h1]]
    rw [List.singleton_append, utf8DecodeReplace]
    rw [show utf8Step c.toNat rest = (c, 0) from by
      unfold utf8Step; rw [if_pos h1, Char.ofNat_toNat]]
    rfl
  · by_cases h2 : c.toNat < 0x800
    · rw [show utf8EncodeChar c = [0xc0 + c.toNat / 64, 0x80 + c.toNat % 64] from by
        unfold utf8EncodeChar; rw [if_neg h1, if_pos h2]]
      rw [List.cons_append, List.cons_append, List.nil_append, utf8DecodeReplace]
      rw [utf8Step_enc2 c _ h1 h2]
      rfl
    · by_cases h3 : c.toNat < 0x10000
      · rw [show utf8EncodeChar c = [0xe0 + c.toNat / 4096, 0x80 + c.toNat / 64 % 64,
            0x80 + c.toNat % 64] from by
          unfold utf8EncodeChar; rw [if_neg h1, if_neg h2, if_pos h3]]
        rw [List.cons_append, List.cons_append, List.cons_append, List.nil_append,
            utf8DecodeReplace]
        rw [utf8Step_enc3 c _ h2 h3]
        rfl
      · rw [show utf8EncodeChar c = [0xf0 + c.toNat / 262144, 0x80 + c.toNat / 4096 % 64,
            0x80 + c.toNat / 64 % 64, 0x80 + c.toNat % 64] from by
          unfold utf8EncodeChar; rw [if_neg h1, if_neg h2, if_neg h3]]
        rw [List.cons_append, List.cons_append, List.cons_append, List.cons_append,
            List.nil_append, utf8DecodeReplace]
        rw [utf8Step_enc4 c _ h3]
        rfl

theorem utf8_roundtrip (s : JStr) : utf8DecodeReplace (utf8Encode s) = s := by
  induction s with
  | nil => simp [utf8Encode, utf8DecodeReplace]
  | cons c rest ih =>
    show utf8DecodeReplace (utf8EncodeChar c ++ utf8Encode rest) = c :: rest
    rw [utf8_roundtrip_char, ih]

theorem textDecode_utf8Encode (s : JStr) (hbom : ∀ c0, s.head? = some c0 → c0 ≠ '\ufeff') :
    textDecodeUtf8 (utf8Encode s) = s := by
  unfold textDecodeUtf8
  rw [utf8_roundtrip]
  cases s with
  | nil => rfl
  | cons c rest =>
    have := hbom c rfl
    simp [this]

/-! ### Percent coding: `encodeURIComponent` and `decodeURIComponent` -/

/-- Hexadecimal digit value, both cases accepted. -/
def hexDigitVal (c : Char) : Option Nat :=
  if 48 ≤ c.toNat ∧ c.toNat ≤ 57 then some (c.toNat - 48)
  else if 97 ≤ c.toNat ∧ c.toNat ≤ 102 then some (c.toNat - 97 + 10)
  else if 65 ≤ c.toNat ∧ c.toNat ≤ 70 then some (c.toNat - 65 + 10)
  else none

/-- Upper-case hexadecimal digit of a value below sixteen
(`encodeURIComponent` emits upper-case hex). -/
def hexUpper (n : Nat) : Char :=
  if n < 10 then Char.ofNat (48 + n) else Char.ofNat (65 + (n - 10))

/-- The characters `encodeURIComponent` leaves unescaped:
`A`–`Z`, `a`–`z`, `0`–`9`, `-`, `_`, `.`, `!`, `~`, `*`, apostrophe, `(`, `)`. -/
def isUriUnreserved (c : Char) : Bool :=
  (65 ≤ c.toNat && c.toNat ≤ 90) || (97 ≤ c.toNat && c.toNat ≤ 122) ||
  (48 ≤ c.toNat && c.toNat ≤ 57) ||
  c.toNat = 45 || c.toNat = 95 || c.toNat = 46 || c.toNat = 33 ||
  c.toNat = 126 || c.toNat = 42 || c.toNat = 39 || c.toNat = 40 || c.toNat = 41

/-- Percent escape of one byte. -/
def pctByte (b : Nat) : JStr := ['%', hexUpper (b / 16), hexUpper (b % 16)]

/-- Encoding of one character for `encodeURIComponent`. -/
def encURIChar (c : Char) : JStr :=
  if isUriUnreserved c then [c] else (utf8EncodeChar c).flatMap pctByte

/-- Model of `encodeURIComponent` (total on scalar-value strings; the JS
function throws only on lone surrogates, which the model excludes). -/
def encodeURIComponent (s : JStr) : JStr := s.flatMap encURIChar

/-- Decoding of one percent-escaped code point after its lead byte `b` has
been read: the scalar value and the number of characters of the continuation
`%HH` sequences, which must follow strict UTF-8 (the byte-bound table of
`utf8Lo`/`utf8Hi`); `none` where `decodeURIComponent` throws `URIError`. -/
def decURIStep (b : Nat) (rest1 : JStr) : Option (Char × Nat) :=
  if b < 0x80 then some (Char.ofNat b, 0)
  else if 0xc2 ≤ b ∧ b ≤ 0xdf then
    match rest1 with
    | '%' :: h3 :: h4 :: _ =>
      match hexDigitVal h3, hexDigitVal h4 with
      | some x3, some x4 =>
        if 0x80 ≤ x3 * 16 + x4 ∧ x3 * 16 + x4 ≤ 0xbf then
          some (Char.ofNat ((b - 0xc0) * 64 + (x3 * 16 + x4 - 0x80)), 3)
        else none
      | _, _ => none
    | _ => none
  else if 0xe0 ≤ b ∧ b ≤ 0xef then
    match rest1 with
    | '%' :: h3 :: h4 :: '%' :: h5 :: h6 :: _ =>
      match hexDigitVal h3, hexDigitVal h4, hexDigitVal h5, hexDigitVal h6 with
      | some x3, some x4, some x5, some x6 =>
        if (utf8Lo b ≤ x3 * 16 + x4 ∧ x3 * 16 + x4 ≤ utf8Hi b) ∧
            (0x80 ≤ x5 * 16 + x6 ∧ x5 * 16 + x6 ≤ 0xbf) then
          some (Char.ofNat ((b - 0xe0) * 4096 + (x3 * 16 + x4 - 0x80) * 64 +
            (x5 * 16 + x6 - 0x80)), 6)
        else none
      | _, _, _, _ => none
    | _ => none
  else if 0xf0 ≤ b ∧ b ≤ 0xf4 then
    match rest1 with
    | '%' :: h3 :: h4 :: '%' :: h5 :: h6 :: '%' :: h7 :: h8 :: _ =>
      match hexDigitVal h3, hexDigitVal h4, hexDigitVal h5, hexDigitVal h6,
          hexDigitVal h7, hexDigitVal h8 with
      | some x3, some x4, some x5, some x6, some x7, some x8 =>
        if (utf8Lo b ≤ x3 * 16 + x4 ∧ x3 * 16 + x4 ≤ utf8Hi b) ∧
            (0x80 ≤ x5 * 16 + x6 ∧ x5 * 16 + x6 ≤ 0xbf) ∧
            (0x80 ≤ x7 * 16 + x8 ∧ x7 * 16 + x8 ≤ 0xbf) then
          some (Char.ofNat ((b - 0xf0) * 262144 + (x3 * 16 + x4 - 0x80) * 4096 +
            (x5 * 16 + x6 - 0x80) * 64 + (x7 * 16 + x8 - 0x80)), 9)
        else none
      | _, _, _, _, _, _ => none
    | _ => none
  else none

/-- Model of `decodeURIComponent`: literal characters pass through, percent
sequences decode via `decURIStep`; any malformed sequence means the JS
function throws `URIError`, modelled as `none`. -/
def decodeURIComponentOpt : JStr → Option JStr
  | [] => some []
  | c :: rest =>
    if c = '%' then
      match rest with
      | h1 :: h2 :: rest1 =>
        match hexDigitVal h1, hexDigitVal h2 with
        | some x1, some x2 =>
          match decURIStep (x1 * 16 + x2) rest1 with
          | some (ch, k) => (decodeURIComponentOpt (rest1.drop k)).map (fun t => ch :: t)
          | none => none
        | _, _ => none
      | _ => none
    else (decodeURIComponentOpt rest).map (fun t => c :: t)
termination_by l => l.length
decreasing_by
  all_goals
    simp only [List.length_drop, List.length_cons]
    omega

/-! ### Percent-coding roundtrip -/

theorem hexDigitVal_hexUpper_fin : ∀ n : Fin 16,
    hexDigitVal (hexUpper n.val) = some n.val ∧ hexUpper n.val ≠ '%' := by decide

theorem hexDigitVal_hexUpper (n : Nat) (h : n < 16) : hexDigitVal (hexUpper n) = some n :=
  (hexDigitVal_hexUpper_fin ⟨n, h⟩).1

theorem decURIStep_enc1 (b1 : Nat) (h1 : b1 < 0x80) (rest : JStr) :
    decURIStep b1 rest = some (Char.ofNat b1, 0) := by
  unfold decURIStep
  rw [if_pos h1]

theorem decURIStep_enc2 (b1 b2 : Nat) (h1 : 0xc2 ≤ b1 ∧ b1 ≤ 0xdf)
    (h2 : 0x80 ≤ b2 ∧ b2 ≤ 0xbf) (rest : JStr) :
    decURIStep b1 (pctByte b2 ++ rest)
      = some (Char.ofNat ((b1 - 0xc0) * 64 + (b2 - 0x80)), 3) := by
  show decURIStep b1 ('%' :: hexUpper (b2 / 16) :: hexUpper (b2 % 16) :: rest) = _
  unfold decURIStep
  rw [if_neg (by omega), if_pos h1]
  simp only [hexDigitVal_hexUpper (b2 / 16) (by omega),
    hexDigitVal_hexUpper (b2 % 16) (by omega)]
  have e2 : b2 / 16 * 16 + b2 % 16 = b2 := by omega
  rw [e2, if_pos h2]

theorem decURIStep_enc3 (b1 b2 b3 : Nat) (h1 : 0xe0 ≤ b1 ∧ b1 ≤ 0xef)
    (h2 : utf8Lo b1 ≤ b2 ∧ b2 ≤ utf8Hi b1) (h2b : b2 < 256)
    (h3 : 0x80 ≤ b3 ∧ b3 ≤ 0xbf) (rest : JStr) :
    decURIStep b1 (pctByte b2 ++ pctByte b3 ++ rest)
      = some (Char.ofNat ((b1 - 0xe0) * 4096 + (b2 - 0x80) * 64 + (b3 - 0x80)), 6) := by
  show decURIStep b1 ('%' :: hexUpper (b2 / 16) :: hexUpper (b2 % 16) ::
    ('%' :: hexUpper (b3 / 16) :: hexUpper (b3 % 16) :: rest)) = _
  unfold decURIStep
  rw [if_neg (by omega), if_neg (by omega), if_pos h1]
  simp only [hexDigitVal_hexUpper (b2 / 16) (by omega),
    hexDigitVal_hexUpper (b2 % 16) (by omega),
    hexDigitVal_hexUpper (b3 / 16) (by omega),
    hexDigitVal_hexUpper (b3 % 16) (by omega)]
  have e2 : b2 / 16 * 16 + b2 % 16 = b2 := by omega
  have e3 : b3 / 16 * 16 + b3 % 16 = b3 := by omega
  rw [e2, e3, if_pos ⟨h2, h3⟩]

theorem decURIStep_enc4 (b1 b2 b3 b4 : Nat) (h1 : 0xf0 ≤ b1 ∧ b1 ≤ 0xf4)
    (h2 : utf8Lo b1 ≤ b2 ∧ b2 ≤ utf8Hi b1) (h2b : b2 < 256)
    (h3 : 0x80 ≤ b3 ∧ b3 ≤ 0xbf) (h4 : 0x80 ≤ b4 ∧ b4 ≤ 0xbf) (rest : JStr) :
    decURIStep b1 (pctByte b2 ++ pctByte b3 ++ pctByte b4 ++ rest)
      = some (Char.ofNat ((b1 - 0xf0) * 262144 + (b2 - 0x80) * 4096 +
          (b3 - 0x80) * 64 + (b4 - 0x80)), 9) := by
  show decURIStep b1 ('%' :: hexUpper (b2 / 16) :: hexUpper (b2 % 16) ::
    ('%' :: hexUpper (b3 / 16) :: hexUpper (b3 % 16) ::
      ('%' :: hexUpper (b4 / 16) :: hexUpper (b4 % 16) :: rest))) = _
  unfold decURIStep
  rw [if_neg (by omega), if_neg (by omega), if_neg (by omega), if_pos h1]
  simp only [hexDigitVal_hexUpper (b2 / 16) (by omega),
    hexDigitVal_hexUpper (b2 % 16) (by omega),
    hexDigitVal_hexUpper (b3 / 16) (by omega),
    hexDigitVal_hexUpper (b3 % 16) (by omega),
    hexDigitVal_hexUpper (b4 / 16) (by omega),
    hexDigitVal_hexUpper (b4 % 16) (by omega)]
  have e2 : b2 / 16 * 16 + b2 % 16 = b2 := by omega
  have e3 : b3 / 16 * 16 + b3 % 16 = b3 := by omega
  have e4 : b4 / 16 * 16 + b4 % 16 = b4 := by omega
  rw [e2, e3, e4, if_pos ⟨h2, h3, h4⟩]

theorem decURI_cons_pct (b1 : Nat) (hb : b1 < 256) (ch : Char) (k : Nat) (tail : JStr)
    (hstep : decURIStep b1 tail = some (ch, k)) :
    decodeURIComponentOpt ('%' :: hexUpper (b1 / 16) :: hexUpper (b1 % 16) :: tail)
      = (decodeURIComponentOpt (tail.drop k)).map (fun t => ch :: t) := by
  simp only [decodeURIComponentOpt, if_pos rfl,
    hexDigitVal_hexUpper (b1 / 16) (by omega), hexDigitVal_hexUpper (b1 % 16) (by omega)]
  have e1 : b1 / 16 * 16 + b1 % 16 = b1 := by omega
  rw [e1, hstep]
  simp

theorem decURI_encChar (c : Char) (rest : JStr) :
    decodeURIComponentOpt (encURIChar c ++ rest)
      = (decodeURIComponentOpt rest).map (fun t => c :: t) := by
  have hv := char_toNat_valid c
  by_cases hu : isUriUnreserved c
  · have hc : ¬ c = '%' := by
      intro he
      rw [he] at hu
      exact absurd hu (by decide)
    rw [show encURIChar c = [c] from by unfold encURIChar; rw [if_pos hu]]
    rw [List.singleton_append, decodeURIComponentOpt.eq_def]
    simp only [if_neg hc]
  · rw [show encURIChar c = (utf8EncodeChar c).flatMap pctByte from by
      unfold encURIChar; rw [if_neg hu]]
    by_cases h1 : c.toNat < 0x80
    · rw [show ((utf8EncodeChar c).flatMap pctByte : JStr) ++ rest
          = '%' :: hexUpper (c.toNat / 16) :: hexUpper (c.toNat % 16) :: rest from by
        unfold utf8EncodeChar; rw [if_pos h1]; simp [pctByte]]
      rw [decURI_cons_pct c.toNat (by omega) (Char.ofNat c.toNat) 0 rest
        (decURIStep_enc1 c.toNat h1 rest)]
      rw [List.drop_zero, Char.ofNat_toNat]
    · by_cases h2 : c.toNat < 0x800
      · rw [show ((utf8EncodeChar c).flatMap pctByte : JStr) ++ rest
            = '%' :: hexUpper ((0xc0 + c.toNat / 64) / 16) ::
              hexUpper ((0xc0 + c.toNat / 64) % 16) ::
              (pctByte (0x80 + c.toNat % 64) ++ rest) from by
          unfold utf8EncodeChar; rw [if_neg h1, if_pos h2]; simp [pctByte]]
        rw [decURI_cons_pct (0xc0 + c.toNat / 64) (by omega)
          (Char.ofNat ((0xc0 + c.toNat / 64 - 0xc0) * 64 + (0x80 + c.toNat % 64 - 0x80)))
          3 (pctByte (0x80 + c.toNat % 64) ++ rest)
          (decURIStep_enc2 (0xc0 + c.toNat / 64) (0x80 + c.toNat % 64)
            (by constructor <;> omega) (by constructor <;> omega) rest)]
        rw [show ((pctByte (0x80 + c.toNat % 64) ++ rest : JStr)).drop 3 = rest from by
          simp [pctByte]]
        have e : (0xc0 + c.toNat / 64 - 0xc0) * 64 + (0x80 + c.toNat % 64 - 0x80)
            = c.toNat := by omega
        rw [e, Char.ofNat_toNat]
      · by_cases h3 : c.toNat < 0x10000
        · rw [show ((utf8EncodeChar c).flatMap pctByte : JStr) ++ rest
              = '%' :: hexUpper ((0xe0 + c.toNat / 4096) / 16) ::
                hexUpper ((0xe0 + c.toNat / 4096) % 16) ::
                (pctByte (0x80 + c.toNat / 64 % 64) ++ pctByte (0x80 + c.toNat % 64) ++ rest)
              from by
            unfold utf8EncodeChar; rw [if_neg h1, if_neg h2, if_pos h3]; simp [pctByte]]
          rw [decURI_cons_pct (0xe0 + c.toNat / 4096) (by omega)
            (Char.ofNat ((0xe0 + c.toNat / 4096 - 0xe0) * 4096 +
              (0x80 + c.toNat / 64 % 64 - 0x80) * 64 + (0x80 + c.toNat % 64 - 0x80)))
            6 (pctByte (0x80 + c.toNat / 64 % 64) ++ pctByte (0x80 + c.toNat % 64) ++ rest)
            (decURIStep_enc3 (0xe0 + c.toNat / 4096) (0x80 + c.toNat / 64 % 64)
              (0x80 + c.toNat % 64) (by constructor <;> omega)
              (by unfold utf8Lo utf8Hi; constructor <;> (split_ifs <;> omega))
              (by omega) (by constructor <;> omega) rest)]
          rw [show ((pctByte (0x80 + c.toNat / 64 % 64) ++ pctByte (0x80 + c.toNat % 64) ++
              rest : JStr)).drop 6 = rest from by simp [pctByte]]
          have e : (0xe0 + c.toNat / 4096 - 0xe0) * 4096 +
              (0x80 + c.toNat / 64 % 64 - 0x80) * 64 + (0x80 + c.toNat % 64 - 0x80)
              = c.toNat := by omega
          rw [e, Char.ofNat_toNat]
        · rw [show ((utf8EncodeChar c).flatMap pctByte : JStr) ++ rest
              = '%' :: hexUpper ((0xf0 + c.toNat / 262144) / 16) ::
                hexUpper ((0xf0 + c.toNat / 262144) % 16) ::
                (pctByte (0x80 + c.toNat / 4096 % 64) ++ pctByte (0x80 + c.toNat / 64 % 64) ++
                  pctByte (0x80 + c.toNat % 64) ++ rest) from by
            unfold utf8EncodeChar; rw [if_neg h1, if_neg h2, if_neg h3]; simp [pctByte]]
          rw [decURI_cons_pct (0xf0 + c.toNat / 262144) (by omega)
            (Char.ofNat ((0xf0 + c.toNat / 262144 - 0xf0) * 262144 +
              (0x80 + c.toNat / 4096 % 64 - 0x80) * 4096 +
              (0x80 + c.toNat / 64 % 64 - 0x80) * 64 + (0x80 + c.toNat % 64 - 0x80)))
            9 (pctByte (0x80 + c.toNat / 4096 % 64) ++ pctByte (0x80 + c.toNat / 64 % 64) ++
              pctByte (0x80 + c.toNat % 64) ++ rest)
            (decURIStep_enc4 (0xf0 + c.toNat / 262144) (0x80 + c.toNat / 4096 % 64)
              (0x80 + c.toNat / 64 % 64) (0x80 + c.toNat % 64)
              (by constructor <;> omega)
              (by unfold utf8Lo utf8Hi; constructor <;> (split_ifs <;> omega))
              (by omega) (by constructor <;> omega) (by constructor <;> omega) rest)]
          rw [show ((pctByte (0x80 + c.toNat / 4096 % 64) ++ pctByte (0x80 + c.toNat / 64 % 64)
              ++ pctByte (0x80 + c.toNat % 64) ++ rest : JStr)).drop 9 = rest from by
            simp [pctByte]]
          have e : (0xf0 + c.toNat / 262144 - 0xf0) * 262144 +
              (0x80 + c.toNat / 4096 % 64 - 0x80) * 4096 +
              (0x80 + c.toNat / 64 % 64 - 0x80) * 64 + (0x80 + c.toNat % 64 - 0x80)
              = c.toNat := by omega
          rw [e, Char.ofNat_toNat]

theorem decURI_encodeURIComponent (s : JStr) :
    decodeURIComponentOpt (encodeURIComponent s) = some s := by
  induction s with
  | nil => simp [encodeURIComponent, decodeURIComponentOpt]
  | cons c rest ih =>
    show decodeURIComponentOpt (encURIChar c ++ encodeURIComponent rest) = _
    rw [decURI_encChar, ih]
    rfl

/-! ### JSON: values, `JSON.parse`, `JSON.stringify`

Numbers: `JSON.parse` converts a numeric token to a double and
`JSON.stringify` prints a double in its shortest form; the composite
token-to-canonical-token map is abstracted as a parameter `cn`.  A parsed
number stores `cn tok`; printing emits the stored token.  Nonfinite parse
results (overflowing tokens) stringify as `null`, which is why `cn` may also
return the token `null`.  Objects keep fields in insertion order with the
last duplicate key winning in place, as JS property assignment does.
`\uXXXX` escapes of surrogate code points are rejected by this model (JS
builds UTF-16 surrogates there; scalar-value strings cannot represent the
lone ones, and `JSON.stringify` never emits such escapes, so round-trips are
unaffected). -/

/-- A JSON value; number tokens are kept as canonicalized text. -/
inductive JVal where
  | jnull
  | jbool (b : Bool)
  | jnum (tok : JStr)
  | jstr (s : JStr)
  | jarr (elems : List JVal)
  | jobj (fields : List (JStr × JVal))

/-- JSON insignificant whitespace. -/
def isJsonWs (c : Char) : Bool := c = ' ' || c = '\t' || c = '\n' || c = '\r'

/-- Whitespace skipping between JSON tokens. -/
def skipJWs (s : JStr) : JStr := s.dropWhile isJsonWs

/-- Single-character JSON string escapes. -/
def jsonUnescape (e : Char) : Option Char :=
  if e = '"' then some '"'
  else if e = '\\' then some '\\'
  else if e = '/' then some '/'
  else if e = 'b' then some (Char.ofNat 8)
  else if e = 'f' then some (Char.ofNat 12)
  else if e = 'n' then some '\n'
  else if e = 'r' then some '\r'
  else if e = 't' then some '\t'
  else none

/-- Body of a JSON string after the opening quote: content and remainder
after the closing quote.  Unescaped control characters are rejected, as are
`\uXXXX` escapes of surrogate code points (see the section comment). -/
def parseStrBody : JStr → Option (JStr × JStr)
  | '"' :: rest => some ([], rest)
  | '\\' :: 'u' :: a :: b :: c :: d :: rest =>
    match hexDigitVal a, hexDigitVal b, hexDigitVal c, hexDigitVal d with
    | some va, some vb, some vc, some vd =>
      if 0xd800 ≤ ((va * 16 + vb) * 16 + vc) * 16 + vd ∧
          ((va * 16 + vb) * 16 + vc) * 16 + vd ≤ 0xdfff then none
      else (parseStrBody rest).map (fun p =>
        (Char.ofNat (((va * 16 + vb) * 16 + vc) * 16 + vd) :: p.1, p.2))
    | _, _, _, _ => none
  | '\\' :: e :: rest =>
    match jsonUnescape e with
    | some ch => (parseStrBody rest).map (fun p => (ch :: p.1, p.2))
    | none => none
  | c :: rest =>
    if c.toNat < 0x20 then none
    else (parseStrBody rest).map (fun p => (c :: p.1, p.2))
  | [] => none

/-- Longest digit run at the front. -/
def takeDigits : JStr → JStr × JStr
  | c :: rest =>
    if '0' ≤ c ∧ c ≤ '9' then
      ((takeDigits rest).1.cons c, (takeDigits rest).2)
    else ([], c :: rest)
  | [] => ([], [])

/-- Optional leading minus sign of a JSON number. -/
def splitSign : JStr → JStr × JStr
  | [] => ([], [])
  | c :: r => if c = '-' then ([c], r) else ([], c :: r)

/-- Integer part of a JSON number: `0`, or a nonzero digit then digits. -/
def parseIntDigits : JStr → Option (JStr × JStr)
  | [] => none
  | c :: r =>
    if c = '0' then some ([c], r)
    else if '1' ≤ c ∧ c ≤ '9' then some (c :: (takeDigits r).1, (takeDigits r).2)
    else none

/-- Optional fraction part of a JSON number. -/
def parseFrac : JStr → Option (JStr × JStr)
  | [] => some ([], [])
  | c :: r =>
    if c = '.' then
      if (takeDigits r).1 = [] then none
      else some (c :: (takeDigits r).1, (takeDigits r).2)
    else some ([], c :: r)

/-- Optional exponent part of a JSON number. -/
def parseExp : JStr → Option (JStr × JStr)
  | [] => some ([], [])
  | c :: r =>
    if c = 'e' ∨ c = 'E' then
      match r with
      | [] => none
      | c2 :: r2 =>
        if c2 = '+' ∨ c2 = '-' then
          if (takeDigits r2).1 = [] then none
          else some (c :: c2 :: (takeDigits r2).1, (takeDigits r2).2)
        else
          if (takeDigits (c2 :: r2)).1 = [] then none
          else some (c :: (takeDigits (c2 :: r2)).1, (takeDigits (c2 :: r2)).2)
    else some ([], c :: r)

/-- A JSON number token at the front of the input: the token text and the
remainder. -/
def parseNumTok (s : JStr) : Option (JStr × JStr) :=
  match parseIntDigits (splitSign s).2 with
  | some (ip, s2) =>
    match parseFrac s2 with
    | some (fp, s3) =>
      match parseExp s3 with
      | some (ep, s4) => some ((splitSign s).1 ++ ip ++ fp ++ ep, s4)
      | none => none
    | none => none
  | none => none

/-- Recognizer for a complete JSON number token. -/
def isNumTok (t : JStr) : Bool := parseNumTok t == some (t, [])

/-- In-place insert-or-replace of an object property (JS `obj[k] = v`:
an existing key keeps its position, a new key is appended). -/
def objSet : List (JStr × JVal) → JStr → JVal → List (JStr × JVal)
  | [], k, v => [(k, v)]
  | (k0, v0) :: rest, k, v =>
    if k0 = k then (k0, v) :: rest else (k0, v0) :: objSet rest k v

/-- Object built from parsed members by successive property assignment. -/
def objFold (ms : List (JStr × JVal)) : List (JStr × JVal) :=
  ms.foldl (fun acc kv => objSet acc kv.1 kv.2) []

/-- First value stored under a key. -/
def objLookup : List (JStr × JVal) → JStr → Option JVal
  | [], _ => none
  | (k0, v0) :: rest, k => if k0 = k then some v0 else objLookup rest k

/-- Digit predicate of the number-start dispatch in the value parser. -/
def isDigitChar (c : Char) : Bool := '0' ≤ c && c ≤ '9'

mutual

/-- JSON value parser (fuel-indexed; every fuel step consumes at least one
character, so fuel `length + 1` never exhausts spuriously). -/
def parseJVal (cn : JStr → JStr) : Nat → JStr → Option (JVal × JStr)
  | 0, _ => none
  | fuel + 1, s =>
    match skipJWs s with
    | 'n' :: 'u' :: 'l' :: 'l' :: r => some (.jnull, r)
    | 't' :: 'r' :: 'u' :: 'e' :: r => some (.jbool true, r)
    | 'f' :: 'a' :: 'l' :: 's' :: 'e' :: r => some (.jbool false, r)
    | '"' :: r => (parseStrBody r).map (fun p => (.jstr p.1, p.2))
    | '[' :: r =>
      match skipJWs r with
      | ']' :: r2 => some (.jarr [], r2)
      | r2 => (parseElems cn fuel r2).map (fun p => (.jarr p.1, p.2))
    | '\x7b' :: r =>
      match skipJWs r with
      | '\x7d' :: r2 => some (.jobj [], r2)
      | r2 => (parseMembers cn fuel r2).map (fun p => (.jobj (objFold p.1), p.2))
    | c :: r =>
      if c = '-' ∨ isDigitChar c then
        (parseNumTok (c :: r)).map (fun p => (.jnum (cn p.1), p.2))
      else none
    | [] => none

/-- One or more comma-separated array elements up to the closing bracket. -/
def parseElems (cn : JStr → JStr) : Nat → JStr → Option (List JVal × JStr)
  | 0, _ => none
  | fuel + 1, s =>
    match parseJVal cn fuel s with
    | some (v, r) =>
      match skipJWs r with
      | ',' :: r2 => (parseElems cn fuel r2).map (fun p => (v :: p.1, p.2))
      | ']' :: r2 => some ([v], r2)
      | _ => none
    | none => none

/-- One or more comma-separated object members up to the closing brace. -/
def parseMembers (cn : JStr → JStr) : Nat → JStr → Option (List (JStr × JVal) × JStr)
  | 0, _ => none
  | fuel + 1, s =>
    match skipJWs s with
    | '"' :: r =>
      match parseStrBody r with
      | some (key, r1) =>
        match skipJWs r1 with
        | ':' :: r2 =>
          match parseJVal cn fuel r2 with
          | some (v, r3) =>
            match skipJWs r3 with
            | ',' :: r4 => (parseMembers cn fuel r4).map (fun p => ((key, v) :: p.1, p.2))
            | '\x7d' :: r4 => some ([(key, v)], r4)
            | _ => none
          | none => none
        | _ => none
      | none => none
    | _ => none

end

/-- Model of `JSON.parse` (throwing modelled as `none`). -/
def jsonParse (cn : JStr → JStr) (s : JStr) : Option JVal :=
  match parseJVal cn (s.length + 1) s with
  | some (v, r) => if skipJWs r = [] then some v else none
  | none => none

/-- Lower-case hexadecimal digit of a value below sixteen. -/
def toHexLower (n : Nat) : Char :=
  if n < 10 then Char.ofNat (48 + n) else Char.ofNat (97 + (n - 10))

/-- JSON escaping of one character (`JSON.stringify`'s QuoteJSONString). -/
def escapeJChar (c : Char) : JStr :=
  if c = '"' then ['\\', '"']
  else if c = '\\' then ['\\', '\\']
  else if c.toNat = 8 then ['\\', 'b']
  else if c.toNat = 9 then ['\\', 't']
  else if c.toNat = 10 then ['\\', 'n']
  else if c.toNat = 12 then ['\\', 'f']
  else if c.toNat = 13 then ['\\', 'r']
  else if c.toNat < 0x20 then
    ['\\', 'u', '0', '0', toHexLower (c.toNat / 16), toHexLower (c.toNat % 16)]
  else [c]

/-- A JSON string literal: quote, escaped content, quote. -/
def quoteJStr (s : JStr) : JStr := '"' :: (s.flatMap escapeJChar ++ ['"'])

mutual

/-- Model of `JSON.stringify` (no spacing argument: compact output). -/
def stringifyJVal : JVal → JStr
  | .jnull => ['n', 'u', 'l', 'l']
  | .jbool true => ['t', 'r', 'u', 'e']
  | .jbool false => ['f', 'a', 'l', 's', 'e']
  | .jnum t => t
  | .jstr s => quoteJStr s
  | .jarr es => '[' :: (stringifyElems es ++ [']'])
  | .jobj ms => '\x7b' :: (stringifyMembers ms ++ ['\x7d'])

/-- Comma-joined rendering of array elements. -/
def stringifyElems : List JVal → JStr
  | [] => []
  | e :: es => stringifyJVal e ++ stringifyElemSep es

/-- Comma prefix before each later array element. -/
def stringifyElemSep : List JVal → JStr
  | [] => []
  | e :: es => ',' :: (stringifyJVal e ++ stringifyElemSep es)

/-- Comma-joined rendering of object members. -/
def stringifyMembers : List (JStr × JVal) → JStr
  | [] => []
  | (k, v) :: ms => quoteJStr k ++ ':' :: (stringifyJVal v ++ stringifyMemberSep ms)

/-- Comma prefix before each later object member. -/
def stringifyMemberSep : List (JStr × JVal) → JStr
  | [] => []
  | (k, v) :: ms => ',' :: (quoteJStr k ++ ':' :: (stringifyJVal v ++ stringifyMemberSep ms))

end

/-- Hypotheses on the abstract number canonicalizer `cn`: a canonical token
reparses to itself and is a fixed point, or the value was nonfinite and the
canonical form is the token `null` (see the section comment). -/
def CnOk (cn : JStr → JStr) : Prop :=
  ∀ t, (isNumTok (cn t) = true ∧ cn (cn t) = cn t) ∨ cn t = js "null"

mutual

/-- The value produced by reparsing printed output: number tokens pass
through `cn` again, and a printed `null` token reads back as the null value. -/
def renorm (cn : JStr → JStr) : JVal → JVal
  | .jnum t => if t = js "null" then .jnull else .jnum (cn t)
  | .jarr es => .jarr (renormList cn es)
  | .jobj ms => .jobj (renormFields cn ms)
  | v => v

/-- Pointwise `renorm` on array elements. -/
def renormList (cn : JStr → JStr) : List JVal → List JVal
  | [] => []
  | v :: rest => renorm cn v :: renormList cn rest

/-- Pointwise `renorm` on object member values. -/
def renormFields (cn : JStr → JStr) : List (JStr × JVal) → List (JStr × JVal)
  | [] => []
  | (k, v) :: rest => (k, renorm cn v) :: renormFields cn rest

end

mutual

/-- Every number token in the value is canonical for `cn` (or `null`). -/
def numsOk (cn : JStr → JStr) : JVal → Bool
  | .jnum t => (isNumTok t && (cn t == t)) || t == js "null"
  | .jarr es => numsOkList cn es
  | .jobj ms => numsOkFields cn ms
  | _ => true

/-- `numsOk` over array elements. -/
def numsOkList (cn : JStr → JStr) : List JVal → Bool
  | [] => true
  | v :: rest => numsOk cn v && numsOkList cn rest

/-- `numsOk` over object member values. -/
def numsOkFields (cn : JStr → JStr) : List (JStr × JVal) → Bool
  | [] => true
  | (_, v) :: rest => numsOk cn v && numsOkFields cn rest

end

/-- No later field shares this key. -/
def keyAbsent (k : JStr) : List (JStr × JVal) → Bool
  | [] => true
  | (k0, _) :: rest => !(k0 = k : Bool) && keyAbsent k rest

mutual

/-- Object keys are pairwise distinct, recursively. -/
def keysOk : JVal → Bool
  | .jarr es => keysOkList es
  | .jobj ms => keysOkFields ms
  | _ => true

/-- `keysOk` over array elements. -/
def keysOkList : List JVal → Bool
  | [] => true
  | v :: rest => keysOk v && keysOkList rest

/-- Distinctness of keys plus `keysOk` of values over object members. -/
def keysOkFields : List (JStr × JVal) → Bool
  | [] => true
  | (k, v) :: rest => keyAbsent k rest && keysOk v && keysOkFields rest

end

/-! ### Number-token lemmas: a complete token absorbs a delimited remainder -/

/-- A remainder that cannot extend a number token: empty, or starting with a
character that is no digit and none of `.`, `e`, `E` (every JSON delimiter
qualifies). -/
def numDelim : JStr → Bool
  | [] => true
  | c :: _ => !((('0' ≤ c && c ≤ '9') : Bool) || c = '.' || c = 'e' || c = 'E')

theorem takeDigits_numDelim {rest : JStr} (h : numDelim rest = true) :
    takeDigits rest = ([], rest) := by
  cases rest with
  | nil => rfl
  | cons c r =>
    simp only [numDelim, Bool.not_eq_true', Bool.or_eq_false_iff,
      decide_eq_false_iff_not, Bool.and_eq_false_iff, Bool.and_eq_true,
      decide_eq_true_eq] at h
    simp only [takeDigits]
    rw [if_neg]
    intro hc
    rcases h.1.1.1 with h1 | h1
    · exact absurd hc.1 (by simpa using h1)
    · exact absurd hc.2 (by simpa using h1)

theorem takeDigits_append (x rest : JStr) (hrest : numDelim rest = true) :
    takeDigits (x ++ rest) = ((takeDigits x).1, (takeDigits x).2 ++ rest) := by
  induction x with
  | nil =>
    simp only [List.nil_append, takeDigits]
    rw [takeDigits_numDelim hrest]
  | cons c r ih =>
    by_cases hc : '0' ≤ c ∧ c ≤ '9'
    · simp only [List.cons_append, takeDigits, if_pos hc, List.append_eq, ih]
    · simp only [List.cons_append, takeDigits, if_neg hc, List.append_eq]

theorem splitSign_append (c : Char) (x1 rest : JStr) :
    splitSign (c :: x1 ++ rest) = ((splitSign (c :: x1)).1, (splitSign (c :: x1)).2 ++ rest) := by
  by_cases hc : c = '-' <;> simp [splitSign, hc]

theorem parseIntDigits_append {x ip s2 : JStr} (h : parseIntDigits x = some (ip, s2))
    (rest : JStr) (hrest : numDelim rest = true) :
    parseIntDigits (x ++ rest) = some (ip, s2 ++ rest) := by
  cases x with
  | nil => exact absurd h (by simp [parseIntDigits])
  | cons c r =>
    have hred : parseIntDigits (c :: r ++ rest)
        = (if c = '0' then some ([c], r ++ rest)
           else if '1' ≤ c ∧ c ≤ '9' then
             some (c :: (takeDigits (r ++ rest)).1, (takeDigits (r ++ rest)).2)
           else none) := rfl
    have hred0 : parseIntDigits (c :: r)
        = (if c = '0' then some ([c], r)
           else if '1' ≤ c ∧ c ≤ '9' then
             some (c :: (takeDigits r).1, (takeDigits r).2)
           else none) := rfl
    rw [hred0] at h
    rw [hred]
    by_cases h0 : c = '0'
    · rw [if_pos h0] at h ⊢
      simp only [Option.some.injEq, Prod.mk.injEq] at h
      simp [← h.1, ← h.2]
    · rw [if_neg h0] at h ⊢
      by_cases h19 : '1' ≤ c ∧ c ≤ '9'
      · rw [if_pos h19] at h ⊢
        simp only [Option.some.injEq, Prod.mk.injEq] at h
        rw [takeDigits_append r rest hrest]
        simp [← h.1, ← h.2]
      · rw [if_neg h19] at h
        exact absurd h (by simp)

theorem parseFrac_append {x fp s3 : JStr} (h : parseFrac x = some (fp, s3))
    (rest : JStr) (hrest : numDelim rest = true) :
    parseFrac (x ++ rest) = some (fp, s3 ++ rest) := by
  cases x with
  | nil =>
    simp only [parseFrac, Option.some.injEq, Prod.mk.injEq] at h
    rcases rest with _ | ⟨c, r⟩
    · simp [parseFrac, ← h.1, ← h.2]
    · simp only [numDelim, Bool.not_eq_true', Bool.or_eq_false_iff,
        decide_eq_false_iff_not] at hrest
      have hred : parseFrac ([] ++ c :: r)
          = (if c = '.' then
               if (takeDigits r).1 = [] then none
               else some (c :: (takeDigits r).1, (takeDigits r).2)
             else some ([], c :: r)) := rfl
      rw [hred, if_neg hrest.1.1.2]
      simp [← h.1, ← h.2]
  | cons c r =>
    have hred : parseFrac (c :: r ++ rest)
        = (if c = '.' then
             if (takeDigits (r ++ rest)).1 = [] then none
             else some (c :: (takeDigits (r ++ rest)).1, (takeDigits (r ++ rest)).2)
           else some ([], c :: (r ++ rest))) := rfl
    have hred0 : parseFrac (c :: r)
        = (if c = '.' then
             if (takeDigits r).1 = [] then none
             else some (c :: (takeDigits r).1, (takeDigits r).2)
           else some ([], c :: r)) := rfl
    rw [hred0] at h
    rw [hred]
    by_cases hdot : c = '.'
    · rw [if_pos hdot] at h ⊢
      by_cases hds : (takeDigits r).1 = []
      · rw [if_pos hds] at h
        exact absurd h (by simp)
      · rw [if_neg hds] at h
        simp only [Option.some.injEq, Prod.mk.injEq] at h
        rw [takeDigits_append r rest hrest, if_neg (by simpa using hds)]
        simp [← h.1, ← h.2]
    · rw [if_neg hdot] at h ⊢
      simp only [Option.some.injEq, Prod.mk.injEq] at h
      simp [← h.1, ← h.2]

theorem parseExp_append {x ep s4 : JStr} (h : parseExp x = some (ep, s4))
    (rest : JStr) (hrest : numDelim rest = true) :
    parseExp (x ++ rest) = some (ep, s4 ++ rest) := by
  cases x with
  | nil =>
    simp only [parseExp, Option.some.injEq, Prod.mk.injEq] at h
    rcases rest with _ | ⟨c, r⟩
    · simp [parseExp, ← h.1, ← h.2]
    · simp only [numDelim, Bool.not_eq_true', Bool.or_eq_false_iff,
        decide_eq_false_iff_not] at hrest
      have hred : parseExp ([] ++ c :: r)
          = (if c = 'e' ∨ c = 'E' then
               match r with
               | [] => none
               | c2 :: r2 =>
                 if c2 = '+' ∨ c2 = '-' then
                   if (takeDigits r2).1 = [] then none
                   else some (c :: c2 :: (takeDigits r2).1, (takeDigits r2).2)
                 else
                   if (takeDigits (c2 :: r2)).1 = [] then none
                   else some (c :: (takeDigits (c2 :: r2)).1, (takeDigits (c2 :: r2)).2)
             else some ([], c :: r)) := rfl
      rw [hred, if_neg (by
        intro hor
        rcases hor with h1 | h1
        · exact hrest.1.2 h1
        · exact hrest.2 h1)]
      simp [← h.1, ← h.2]
  | cons c r =>
    have hred : parseExp (c :: r ++ rest)
        = (if c = 'e' ∨ c = 'E' then
             match r ++ rest with
             | [] => none
             | c2 :: r2 =>
               if c2 = '+' ∨ c2 = '-' then
                 if (takeDigits r2).1 = [] then none
                 else some (c :: c2 :: (takeDigits r2).1, (takeDigits r2).2)
               else
                 if (takeDigits (c2 :: r2)).1 = [] then none
                 else some (c :: (takeDigits (c2 :: r2)).1, (takeDigits (c2 :: r2)).2)
           else some ([], c :: (r ++ rest))) := rfl
    have hred0 : parseExp (c :: r)
        = (if c = 'e' ∨ c = 'E' then
             match r with
             | [] => none
             | c2 :: r2 =>
               if c2 = '+' ∨ c2 = '-' then
                 if (takeDigits r2).1 = [] then none
                 else some (c :: c2 :: (takeDigits r2).1, (takeDigits r2).2)
               else
                 if (takeDigits (c2 :: r2)).1 = [] then none
                 else some (c :: (takeDigits (c2 :: r2)).1, (takeDigits (c2 :: r2)).2)
           else some ([], c :: r)) := rfl
    rw [hred0] at h
    rw [hred]
    by_cases he : c = 'e' ∨ c = 'E'
    · rw [if_pos he] at h ⊢
      cases r with
      | nil =>
        exact absurd h (by simp)
      | cons c2 r2 =>
        simp only [List.cons_append]
        dsimp only at h ⊢
        by_cases hsg : c2 = '+' ∨ c2 = '-'
        · rw [if_pos hsg] at h ⊢
          by_cases hds : (takeDigits r2).1 = []
          · rw [if_pos hds] at h
            exact absurd h (by simp)
          · rw [if_neg hds] at h
            simp only [Option.some.injEq, Prod.mk.injEq] at h
            rw [takeDigits_append r2 rest hrest, if_neg (by simpa using hds)]
            simp [← h.1, ← h.2]
        · rw [if_neg hsg] at h ⊢
          by_cases hds : (takeDigits (c2 :: r2)).1 = []
          · rw [if_pos hds] at h
            exact absurd h (by simp)
          · rw [if_neg hds] at h
            simp only [Option.some.injEq, Prod.mk.injEq] at h
            have htd := takeDigits_append (c2 :: r2) rest hrest
            rw [List.cons_append] at htd
            rw [htd, if_neg (by simpa using hds)]
            simp [← h.1, ← h.2]
    · rw [if_neg he] at h ⊢
      simp only [Option.some.injEq, Prod.mk.injEq] at h
      simp [← h.1, ← h.2]

theorem parseNumTok_ne_nil : parseNumTok [] = none := by
  simp [parseNumTok, splitSign, parseIntDigits]

theorem parseNumTok_append {t : JStr} (h : parseNumTok t = some (t, []))
    (rest : JStr) (hrest : numDelim rest = true) :
    parseNumTok (t ++ rest) = some (t, rest) := by
  cases t with
  | nil => exact absurd h (by simp [parseNumTok_ne_nil])
  | cons c t1 =>
    unfold parseNumTok at h ⊢
    rw [splitSign_append]
    rcases hint : parseIntDigits (splitSign (c :: t1)).2 with _ | ⟨ip, s2⟩
    · rw [hint] at h
      exact absurd h (by simp)
    · rw [hint] at h
      rw [parseIntDigits_append hint rest hrest]
      dsimp only at h ⊢
      rcases hfrac : parseFrac s2 with _ | ⟨fp, s3⟩
      · rw [hfrac] at h
        exact absurd h (by simp)
      · rw [hfrac] at h
        rw [parseFrac_append hfrac rest hrest]
        dsimp only at h ⊢
        rcases hexp : parseExp s3 with _ | ⟨ep, s4⟩
        · rw [hexp] at h
          exact absurd h (by simp)
        · rw [hexp] at h
          rw [parseExp_append hexp rest hrest]
          dsimp only at h ⊢
          simp only [Option.some.injEq, Prod.mk.injEq] at h ⊢
          refine ⟨h.1, ?_⟩
          rw [h.2]
          rfl

theorem numTok_head {t : JStr} (h : isNumTok t = true) :
    ∃ c t1, t = c :: t1 ∧ (c = '-' ∨ isDigitChar c = true) := by
  rw [isNumTok, beq_iff_eq] at h
  cases t with
  | nil => exact absurd h (by simp [parseNumTok_ne_nil])
  | cons c t1 =>
    refine ⟨c, t1, rfl, ?_⟩
    by_cases hc : c = '-'
    · exact Or.inl hc
    · right
      unfold parseNumTok at h
      have hsig : splitSign (c :: t1) = ([], c :: t1) := by simp [splitSign, hc]
      rw [hsig] at h
      simp only at h
      rcases hint : parseIntDigits (c :: t1) with _ | ⟨ip, s2⟩
      · rw [hint] at h
        exact absurd h (by simp)
      · have hcase : c = '0' ∨ ('1' ≤ c ∧ c ≤ '9') := by
          by_contra hn
          push_neg at hn
          have hred : parseIntDigits (c :: t1)
              = (if c = '0' then some ([c], t1)
                 else if '1' ≤ c ∧ c ≤ '9' then
                   some (c :: (takeDigits t1).1, (takeDigits t1).2)
                 else none) := rfl
          rw [hred, if_neg hn.1,
            if_neg (fun hand => absurd (hn.2 hand.1) (not_lt.mpr hand.2))] at hint
          exact absurd hint (by simp)
        unfold isDigitChar
        rcases hcase with h0 | h19
        · subst h0; decide
        · simp only [Bool.and_eq_true, decide_eq_true_eq]
          constructor
          · calc ('0' : Char) ≤ '1' := by decide
              _ ≤ c := h19.1
          · exact h19.2

/-! ### JSON roundtrip: supporting lemmas -/

theorem hexDigitVal_toHexLower_fin : ∀ n : Fin 16,
    hexDigitVal (toHexLower n.val) = some n.val := by decide

theorem parseStrBody_escape (c : Char) (r : JStr) :
    parseStrBody (escapeJChar c ++ r) = (parseStrBody r).map (fun p => (c :: p.1, p.2)) := by
  by_cases h1 : c = '"'
  · subst h1; rfl
  · by_cases h2 : c = '\\'
    · subst h2; rfl
    · by_cases h3 : c.toNat = 8
      · rw [show escapeJChar c = ['\\', 'b'] from by unfold escapeJChar; simp [h1, h2, h3]]
        show parseStrBody ('\\' :: 'b' :: r) = _
        rw [show parseStrBody ('\\' :: 'b' :: r)
            = (parseStrBody r).map (fun p => (Char.ofNat 8 :: p.1, p.2)) from rfl]
        rw [show Char.ofNat 8 = c from by rw [← h3, Char.ofNat_toNat]]
      · by_cases h4 : c.toNat = 9
        · rw [show escapeJChar c = ['\\', 't'] from by unfold escapeJChar; simp [h1, h2, h3, h4]]
          show parseStrBody ('\\' :: 't' :: r) = (parseStrBody r).map (fun p => (c :: p.1, p.2))
          rw [show parseStrBody ('\\' :: 't' :: r)
              = (parseStrBody r).map (fun p => ('\t' :: p.1, p.2)) from rfl]
          rw [show ('\t' : Char) = c from by
            have h9 : ('\t' : Char) = Char.ofNat 9 := by decide
            rw [h9, ← h4, Char.ofNat_toNat]]
        · by_cases h5 : c.toNat = 10
          · rw [show escapeJChar c = ['\\', 'n'] from by
              unfold escapeJChar; simp [h1, h2, h3, h4, h5]]
            show parseStrBody ('\\' :: 'n' :: r) = (parseStrBody r).map (fun p => (c :: p.1, p.2))
            rw [show parseStrBody ('\\' :: 'n' :: r)
                = (parseStrBody r).map (fun p => ('\n' :: p.1, p.2)) from rfl]
            rw [show ('\n' : Char) = c from by
              have h10 : ('\n' : Char) = Char.ofNat 10 := by decide
              rw [h10, ← h5, Char.ofNat_toNat]]
          · by_cases h6 : c.toNat = 12
            · rw [show escapeJChar c = ['\\', 'f'] from by
                unfold escapeJChar; simp [h1, h2, h3, h4, h5, h6]]
              show parseStrBody ('\\' :: 'f' :: r) = (parseStrBody r).map (fun p => (c :: p.1, p.2))
              rw [show parseStrBody ('\\' :: 'f' :: r)
                  = (parseStrBody r).map (fun p => (Char.ofNat 12 :: p.1, p.2)) from rfl]
              rw [show Char.ofNat 12 = c from by rw [← h6, Char.ofNat_toNat]]
            · by_cases h7 : c.toNat = 13
              · rw [show escapeJChar c = ['\\', 'r'] from by
                  unfold escapeJChar; simp [h1, h2, h3, h4, h5, h6, h7]]
                show parseStrBody ('\\' :: 'r' :: r) = (parseStrBody r).map (fun p => (c :: p.1, p.2))
                rw [show parseStrBody ('\\' :: 'r' :: r)
                    = (parseStrBody r).map (fun p => ('\r' :: p.1, p.2)) from rfl]
                rw [show ('\r' : Char) = c from by
                  have h13 : ('\r' : Char) = Char.ofNat 13 := by decide
                  rw [h13, ← h7, Char.ofNat_toNat]]
              · by_cases h8 : c.toNat < 0x20
                · rw [show escapeJChar c = ['\\', 'u', '0', '0',
                      toHexLower (c.toNat / 16), toHexLower (c.toNat % 16)] from by
                    unfold escapeJChar; simp [h1, h2, h3, h4, h5, h6, h7, h8]]
                  show parseStrBody ('\\' :: 'u' :: '0' :: '0' ::
                    toHexLower (c.toNat / 16) :: toHexLower (c.toNat % 16) :: r) = _
                  rw [show parseStrBody ('\\' :: 'u' :: '0' :: '0' ::
                      toHexLower (c.toNat / 16) :: toHexLower (c.toNat % 16) :: r)
                      = (match hexDigitVal '0', hexDigitVal '0',
                          hexDigitVal (toHexLower (c.toNat / 16)),
                          hexDigitVal (toHexLower (c.toNat % 16)) with
                        | some va, some vb, some vc, some vd =>
                          if 0xd800 ≤ ((va * 16 + vb) * 16 + vc) * 16 + vd ∧
                              ((va * 16 + vb) * 16 + vc) * 16 + vd ≤ 0xdfff then none
                          else (parseStrBody r).map (fun p =>
                            (Char.ofNat (((va * 16 + vb) * 16 + vc) * 16 + vd) :: p.1, p.2))
                        | _, _, _, _ => none) from rfl]
                  rw [show hexDigitVal '0' = some 0 from by decide,
                    hexDigitVal_toHexLower_fin ⟨c.toNat / 16, by omega⟩,
                    hexDigitVal_toHexLower_fin ⟨c.toNat % 16, by omega⟩]
                  dsimp only
                  rw [if_neg (by omega)]
                  have e : ((0 * 16 + 0) * 16 + c.toNat / 16) * 16 + c.toNat % 16
                      = c.toNat := by omega
                  rw [e, Char.ofNat_toNat]
                · rw [show escapeJChar c = [c] from by
                    unfold escapeJChar; simp [h1, h2, h3, h4, h5, h6, h7, h8]]
                  rw [List.singleton_append, parseStrBody.eq_def]
                  split
                  · rename_i rest1 heq
                    exact absurd (List.cons.inj heq).1 h1
                  · rename_i a b cc d rest2 heq
                    exact absurd (List.cons.inj heq).1 h2
                  · rename_i e1 rest3 heq
                    exact absurd (List.cons.inj heq).1 h2
                  · rename_i c4 rest4 heq
                    obtain ⟨hc4, hr4⟩ := List.cons.inj heq
                    subst hc4
                    subst hr4
                    rw [if_neg h8]
                  · rename_i heq
                    exact absurd heq (by simp)

theorem parseStrBody_flatMap (s : JStr) (rest : JStr) :
    parseStrBody (s.flatMap escapeJChar ++ '"' :: rest) = some (s, rest) := by
  induction s with
  | nil => rfl
  | cons c cs ih =>
    rw [List.flatMap_cons, List.append_assoc, parseStrBody_escape, ih]
    rfl

theorem keyAbsent_renormFields (cn : JStr → JStr) (k : JStr) (ms : List (JStr × JVal)) :
    keyAbsent k (renormFields cn ms) = keyAbsent k ms := by
  induction ms with
  | nil => rfl
  | cons kv rest ih =>
    obtain ⟨k0, v0⟩ := kv
    simp only [renormFields, keyAbsent, ih]

theorem objSet_append {acc : List (JStr × JVal)} {k : JStr}
    (habs : keyAbsent k acc = true) (v : JVal) : objSet acc k v = acc ++ [(k, v)] := by
  induction acc with
  | nil => rfl
  | cons kv rest ih =>
    obtain ⟨k0, v0⟩ := kv
    simp only [keyAbsent, Bool.and_eq_true, Bool.not_eq_true', decide_eq_false_iff_not] at habs
    simp only [objSet, if_neg habs.1, List.cons_append, ih habs.2]

/-- Distinctness of the keys of a raw member list. -/
def fieldsKeysDistinct : List (JStr × JVal) → Bool
  | [] => true
  | (k, _) :: rest => keyAbsent k rest && fieldsKeysDistinct rest

theorem keyAbsent_not_mem {k : JStr} {l : List (JStr × JVal)} (h : keyAbsent k l = true) :
    ∀ v, (k, v) ∈ l → False := by
  induction l with
  | nil => intro v hv; simp at hv
  | cons kv rest ih =>
    obtain ⟨k0, v0⟩ := kv
    simp only [keyAbsent, Bool.and_eq_true, Bool.not_eq_true',
      decide_eq_false_iff_not] at h
    intro v hv
    rcases List.mem_cons.mp hv with hx | hx
    · exact h.1 (congrArg Prod.fst hx).symm
    · exact ih h.2 v hx

theorem keyAbsent_append {k : JStr} {l1 l2 : List (JStr × JVal)}
    (h1 : keyAbsent k l1 = true) (h2 : keyAbsent k l2 = true) :
    keyAbsent k (l1 ++ l2) = true := by
  induction l1 with
  | nil => exact h2
  | cons kv rest ih =>
    obtain ⟨k0, v0⟩ := kv
    simp only [keyAbsent, Bool.and_eq_true] at h1 ⊢
    exact ⟨h1.1, ih h1.2⟩

theorem foldl_objSet_append (l : List (JStr × JVal)) :
    ∀ acc, fieldsKeysDistinct l = true →
    (∀ k v, (k, v) ∈ l → keyAbsent k acc = true) →
    l.foldl (fun acc kv => objSet acc kv.1 kv.2) acc = acc ++ l := by
  induction l with
  | nil => intro acc _ _; simp
  | cons kv rest ih =>
    intro acc hdist hacc
    obtain ⟨k, v⟩ := kv
    simp only [fieldsKeysDistinct, Bool.and_eq_true] at hdist
    simp only [List.foldl_cons]
    rw [objSet_append (hacc k v (by simp)) v]
    rw [ih (acc ++ [(k, v)]) hdist.2 (fun k2 v2 hm => ?_)]
    · simp
    · refine keyAbsent_append (hacc k2 v2 (by simp [hm])) ?_
      have hne : ¬ k = k2 := fun hk => keyAbsent_not_mem hdist.1 v2 (hk ▸ hm)
      simp [keyAbsent, hne]

theorem objFold_distinct {l : List (JStr × JVal)} (h : fieldsKeysDistinct l = true) :
    objFold l = l := by
  unfold objFold
  rw [foldl_objSet_append l [] h (fun k v _ => rfl)]
  simp

theorem fieldsKeysDistinct_renorm (cn : JStr → JStr) (ms : List (JStr × JVal)) :
    fieldsKeysDistinct (renormFields cn ms) = fieldsKeysDistinct ms := by
  induction ms with
  | nil => rfl
  | cons kv rest ih =>
    obtain ⟨k, v⟩ := kv
    simp only [renormFields, fieldsKeysDistinct, keyAbsent_renormFields, ih]

theorem keysOkFields_distinct {ms : List (JStr × JVal)} (h : keysOkFields ms = true) :
    fieldsKeysDistinct ms = true := by
  induction ms with
  | nil => rfl
  | cons kv rest ih =>
    obtain ⟨k, v⟩ := kv
    simp only [keysOkFields, Bool.and_eq_true] at h
    simp only [fieldsKeysDistinct, Bool.and_eq_true]
    exact ⟨h.1.1, ih h.2⟩

/-! ### JSON roundtrip: parsing printed output -/

theorem numHead_facts {c : Char} (hg : c = '-' ∨ isDigitChar c = true) :
    isJsonWs c = false ∧ c ≠ 'n' ∧ c ≠ 't' ∧ c ≠ 'f' ∧ c ≠ '"' ∧ c ≠ '[' ∧
    c ≠ '\x7b' ∧ c ≠ ']' ∧ c ≠ '\x7d' := by
  rcases hg with hg | hg
  · subst hg; refine ⟨by decide, ?_, ?_, ?_, ?_, ?_, ?_, ?_, ?_⟩ <;> decide
  · have h09 : '0' ≤ c ∧ c ≤ '9' := by simpa [isDigitChar] using hg
    constructor
    · unfold isJsonWs
      simp only [Bool.or_eq_false_iff, decide_eq_false_iff_not]
      refine ⟨⟨⟨?_, ?_⟩, ?_⟩, ?_⟩ <;> (intro h; subst h; exact absurd h09 (by decide))
    · refine ⟨?_, ?_, ?_, ?_, ?_, ?_, ?_, ?_⟩ <;>
        (intro h; subst h; exact absurd h09 (by decide))

theorem skipJWs_not_ws {c : Char} (h : isJsonWs c = false) (t : JStr) :
    skipJWs (c :: t) = c :: t := by
  unfold skipJWs
  rw [List.dropWhile_cons_of_neg (by simp [h])]

theorem stringify_head (cn : JStr → JStr) (v : JVal) (hnum : numsOk cn v = true) :
    ∃ c t, stringifyJVal v = c :: t ∧ isJsonWs c = false ∧ c ≠ ']' ∧ c ≠ '\x7d' := by
  have hmk : ∀ (c : Char) (t : JStr), isJsonWs c = false → c ≠ ']' → c ≠ '\x7d' →
      ∃ c0 t0, (c :: t : JStr) = c0 :: t0 ∧ isJsonWs c0 = false ∧
        c0 ≠ ']' ∧ c0 ≠ '\x7d' :=
    fun c t h1 h2 h3 => ⟨c, t, rfl, h1, h2, h3⟩
  cases v with
  | jnull => exact hmk 'n' _ (by decide) (by decide) (by decide)
  | jbool b =>
    cases b with
    | true => exact hmk 't' _ (by decide) (by decide) (by decide)
    | false => exact hmk 'f' _ (by decide) (by decide) (by decide)
  | jstr s => exact hmk '"' _ (by decide) (by decide) (by decide)
  | jarr es => exact hmk '[' _ (by decide) (by decide) (by decide)
  | jobj ms => exact hmk '\x7b' _ (by decide) (by decide) (by decide)
  | jnum t =>
    simp only [numsOk, Bool.or_eq_true, Bool.and_eq_true, beq_iff_eq] at hnum
    rcases hnum with ⟨htok, -⟩ | hnull
    · obtain ⟨c, t1, hteq, hc⟩ := numTok_head htok
      obtain ⟨hws, -, -, -, -, -, -, hbr, hbc⟩ := numHead_facts hc
      exact ⟨c, t1, hteq, hws, hbr, hbc⟩
    · subst hnull
      exact hmk 'n' _ (by decide) (by decide) (by decide)

theorem skipJWs_stringify (cn : JStr → JStr) (v : JVal) (hnum : numsOk cn v = true)
    (x : JStr) : skipJWs (stringifyJVal v ++ x) = stringifyJVal v ++ x := by
  obtain ⟨c, t, heq, hws, -, -⟩ := stringify_head cn v hnum
  rw [heq, List.cons_append, skipJWs_not_ws hws]

theorem parseJVal_step (cn : JStr → JStr) (fuel : Nat) (s : JStr) :
    parseJVal cn (fuel + 1) s
      = (match skipJWs s with
        | 'n' :: 'u' :: 'l' :: 'l' :: r => some (.jnull, r)
        | 't' :: 'r' :: 'u' :: 'e' :: r => some (.jbool true, r)
        | 'f' :: 'a' :: 'l' :: 's' :: 'e' :: r => some (.jbool false, r)
        | '"' :: r => (parseStrBody r).map (fun p => (.jstr p.1, p.2))
        | '[' :: r =>
          match skipJWs r with
          | ']' :: r2 => some (.jarr [], r2)
          | r2 => (parseElems cn fuel r2).map (fun p => (.jarr p.1, p.2))
        | '\x7b' :: r =>
          match skipJWs r with
          | '\x7d' :: r2 => some (.jobj [], r2)
          | r2 => (parseMembers cn fuel r2).map (fun p => (.jobj (objFold p.1), p.2))
        | c :: r =>
          if c = '-' ∨ isDigitChar c then
            (parseNumTok (c :: r)).map (fun p => (.jnum (cn p.1), p.2))
          else none
        | [] => none) := rfl

theorem parseElems_step (cn : JStr → JStr) (fuel : Nat) (s : JStr) :
    parseElems cn (fuel + 1) s
      = (match parseJVal cn fuel s with
        | some (v, r) =>
          match skipJWs r with
          | ',' :: r2 => (parseElems cn fuel r2).map (fun p => (v :: p.1, p.2))
          | ']' :: r2 => some ([v], r2)
          | _ => none
        | none => none) := rfl

theorem parseMembers_step (cn : JStr → JStr) (fuel : Nat) (s : JStr) :
    parseMembers cn (fuel + 1) s
      = (match skipJWs s with
        | '"' :: r =>
          match parseStrBody r with
          | some (key, r1) =>
            match skipJWs r1 with
            | ':' :: r2 =>
              match parseJVal cn fuel r2 with
              | some (v, r3) =>
                match skipJWs r3 with
                | ',' :: r4 => (parseMembers cn fuel r4).map (fun p => ((key, v) :: p.1, p.2))
                | '\x7d' :: r4 => some ([(key, v)], r4)
                | _ => none
              | none => none
            | _ => none
          | none => none
        | _ => none) := rfl

theorem parseJVal_to_num (cn : JStr → JStr) (fuel : Nat) (c : Char) (t : JStr)
    (hws : isJsonWs c = false) (hn : c ≠ 'n') (ht : c ≠ 't') (hf : c ≠ 'f')
    (hq : c ≠ '"') (hbk : c ≠ '[') (hbc : c ≠ '\x7b')
    (hg : c = '-' ∨ isDigitChar c = true) :
    parseJVal cn (fuel + 1) (c :: t)
      = (parseNumTok (c :: t)).map (fun p => (JVal.jnum (cn p.1), p.2)) := by
  rw [parseJVal_step, skipJWs_not_ws hws]
  simp [hn, ht, hf, hq, hbk, hbc, hg]

theorem parseJVal_num (cn : JStr → JStr) (fuel : Nat) (t rest : JStr)
    (htok : isNumTok t = true) (hrest : numDelim rest = true) :
    parseJVal cn (fuel + 1) (t ++ rest) = some (.jnum (cn t), rest) := by
  obtain ⟨c, t1, hteq, hc⟩ := numTok_head htok
  obtain ⟨hws, hn, ht, hf, hq, hbk, hbc, -, -⟩ := numHead_facts hc
  subst hteq
  rw [List.cons_append, parseJVal_to_num cn fuel c (t1 ++ rest) hws hn ht hf hq hbk hbc hc]
  have happ := parseNumTok_append (by rwa [isNumTok, beq_iff_eq] at htok) rest hrest
  rw [List.cons_append] at happ
  rw [happ]
  rfl

theorem parseJVal_to_arr (cn : JStr → JStr) (fuel : Nat) (c : Char) (t : JStr)
    (hws : isJsonWs c = false) (hbr : c ≠ ']') :
    parseJVal cn (fuel + 1) ('[' :: (c :: t))
      = (parseElems cn fuel (c :: t)).map (fun p => (JVal.jarr p.1, p.2)) := by
  rw [parseJVal_step]
  rw [show skipJWs ('[' :: (c :: t)) = '[' :: (c :: t) from skipJWs_not_ws (by decide) _]
  simp only
  rw [skipJWs_not_ws hws]
  simp [hbr]

theorem parseJVal_to_obj (cn : JStr → JStr) (fuel : Nat) (c : Char) (t : JStr)
    (hws : isJsonWs c = false) (hbc : c ≠ '\x7d') :
    parseJVal cn (fuel + 1) ('\x7b' :: (c :: t))
      = (parseMembers cn fuel (c :: t)).map (fun p => (JVal.jobj (objFold p.1), p.2)) := by
  rw [parseJVal_step]
  rw [show skipJWs ('\x7b' :: (c :: t)) = '\x7b' :: (c :: t) from skipJWs_not_ws (by decide) _]
  simp only
  rw [skipJWs_not_ws hws]
  simp [hbc]

theorem skipJWs_quote (t : JStr) : skipJWs ('"' :: t) = '"' :: t :=
  skipJWs_not_ws (by decide) t

theorem skipJWs_colon (t : JStr) : skipJWs (':' :: t) = ':' :: t :=
  skipJWs_not_ws (by decide) t

theorem skipJWs_comma (t : JStr) : skipJWs (',' :: t) = ',' :: t :=
  skipJWs_not_ws (by decide) t

theorem skipJWs_rbracket (t : JStr) : skipJWs (']' :: t) = ']' :: t :=
  skipJWs_not_ws (by decide) t

theorem skipJWs_rbrace (t : JStr) : skipJWs ('\x7d' :: t) = '\x7d' :: t :=
  skipJWs_not_ws (by decide) t

theorem numDelim_elemSep (es : List JVal) (rest : JStr) :
    numDelim (stringifyElemSep es ++ ']' :: rest) = true := by
  cases es <;> rfl

theorem numDelim_memberSep (ms : List (JStr × JVal)) (rest : JStr) :
    numDelim (stringifyMemberSep ms ++ '\x7d' :: rest) = true := by
  cases ms <;> rfl

theorem numTok_ne_null {t : JStr} (h : isNumTok t = true) : t ≠ js "null" := by
  intro hn
  rw [hn] at h
  exact absurd h (by decide)

mutual

/-- Parsing the compact rendering of a value yields its `cn`-renormalisation. -/
theorem rt_val (cn : JStr → JStr) (v : JVal) (fuel : Nat) (rest : JStr)
    (hnum : numsOk cn v = true) (hkeys : keysOk v = true)
    (hfuel : (stringifyJVal v).length < fuel) (hrest : numDelim rest = true) :
    parseJVal cn fuel (stringifyJVal v ++ rest) = some (renorm cn v, rest) := by
  cases fuel with
  | zero => exact absurd hfuel (Nat.not_lt_zero _)
  | succ f =>
    cases v with
    | jnull => rfl
    | jbool b => cases b <;> rfl
    | jstr s =>
      show parseJVal cn (f + 1) ('"' :: (s.flatMap escapeJChar ++ ['"']) ++ rest)
        = some (.jstr s, rest)
      rw [List.cons_append, List.append_assoc, List.singleton_append, parseJVal_step,
        skipJWs_quote]
      simp only [parseStrBody_flatMap, Option.map_some']
    | jnum t =>
      simp only [numsOk, Bool.or_eq_true, Bool.and_eq_true, beq_iff_eq] at hnum
      rcases hnum with ⟨htok, -⟩ | hnull
      · have hstep := parseJVal_num cn f t rest htok hrest
        rw [show stringifyJVal (.jnum t) = t from rfl, hstep]
        simp [renorm, numTok_ne_null htok]
      · subst hnull
        rfl
    | jarr es =>
      cases es with
      | nil => rfl
      | cons e es1 =>
        simp only [numsOk, numsOkList, Bool.and_eq_true] at hnum
        simp only [keysOk, keysOkList, Bool.and_eq_true] at hkeys
        obtain ⟨c, t, heq, hws, hbr, -⟩ := stringify_head cn e hnum.1
        have hshape : stringifyElems (e :: es1) ++ ']' :: rest
            = c :: (t ++ stringifyElemSep es1 ++ ']' :: rest) := by
          simp [stringifyElems, heq]
        have hlen : (stringifyElems (e :: es1)).length + 1 < f := by
          simp only [stringifyJVal, List.length_cons, List.length_append,
            List.length_singleton] at hfuel
          omega
        have harg : stringifyJVal (.jarr (e :: es1)) ++ rest
            = '[' :: (c :: (t ++ stringifyElemSep es1 ++ ']' :: rest)) := by
          rw [← hshape]
          simp [stringifyJVal]
        rw [harg, parseJVal_to_arr cn f c _ hws hbr, ← hshape,
          rt_elems cn e es1 f rest hnum.1 hnum.2 hkeys.1 hkeys.2 hlen]
        simp [renorm]
    | jobj ms =>
      cases ms with
      | nil => rfl
      | cons kv ms1 =>
        obtain ⟨k, v0⟩ := kv
        simp only [numsOk, numsOkFields, Bool.and_eq_true] at hnum
        simp only [keysOk, keysOkFields, Bool.and_eq_true] at hkeys
        have hshape : stringifyMembers ((k, v0) :: ms1) ++ '\x7d' :: rest
            = '"' :: (k.flatMap escapeJChar
                ++ ('"' :: ':' :: (stringifyJVal v0
                    ++ (stringifyMemberSep ms1 ++ '\x7d' :: rest)))) := by
          simp [stringifyMembers, quoteJStr]
        have hlen : (stringifyMembers ((k, v0) :: ms1)).length + 1 < f := by
          simp only [stringifyJVal, List.length_cons, List.length_append,
            List.length_singleton] at hfuel
          omega
        have harg : stringifyJVal (.jobj ((k, v0) :: ms1)) ++ rest
            = '\x7b' :: ('"' :: (k.flatMap escapeJChar
                ++ ('"' :: ':' :: (stringifyJVal v0
                    ++ (stringifyMemberSep ms1 ++ '\x7d' :: rest))))) := by
          rw [← hshape]
          simp [stringifyJVal]
        have hdist : fieldsKeysDistinct (renormFields cn ((k, v0) :: ms1)) = true := by
          rw [fieldsKeysDistinct_renorm]
          exact keysOkFields_distinct (by simp [keysOkFields, hkeys.1.1, hkeys.1.2, hkeys.2])
        rw [harg, parseJVal_to_obj cn f '"' _ (by decide) (by decide), ← hshape,
          rt_members cn k v0 ms1 f rest hnum.1 hnum.2 hkeys.1.2 hkeys.1.1 hkeys.2 hlen]
        simp [renorm, objFold_distinct hdist]
termination_by fuel

/-- Parsing the rendered tail of a nonempty array yields the renormalised
elements and consumes the closing bracket. -/
theorem rt_elems (cn : JStr → JStr) (e : JVal) (es : List JVal) (fuel : Nat)
    (rest : JStr) (hn1 : numsOk cn e = true) (hn2 : numsOkList cn es = true)
    (hk1 : keysOk e = true) (hk2 : keysOkList es = true)
    (hfuel : (stringifyElems (e :: es)).length + 1 < fuel) :
    parseElems cn fuel (stringifyElems (e :: es) ++ ']' :: rest)
      = some (renormList cn (e :: es), rest) := by
  cases fuel with
  | zero => exact absurd hfuel (Nat.not_lt_zero _)
  | succ f =>
    have hlen : (stringifyJVal e).length < f := by
      simp only [stringifyElems, List.length_append] at hfuel
      omega
    have hvalstep := rt_val cn e f (stringifyElemSep es ++ ']' :: rest) hn1 hk1 hlen
      (numDelim_elemSep es rest)
    have hshape : stringifyElems (e :: es) ++ ']' :: rest
        = stringifyJVal e ++ (stringifyElemSep es ++ ']' :: rest) := by
      simp [stringifyElems]
    rw [parseElems_step, hshape]
    simp only [hvalstep]
    cases es with
    | nil => rfl
    | cons x xs =>
      simp only [numsOkList, Bool.and_eq_true] at hn2
      simp only [keysOkList, Bool.and_eq_true] at hk2
      have hsep : stringifyElemSep (x :: xs) ++ ']' :: rest
          = ',' :: (stringifyElems (x :: xs) ++ ']' :: rest) := by
        simp [stringifyElemSep, stringifyElems]
      have hlen2 : (stringifyElems (x :: xs)).length + 1 < f := by
        simp only [stringifyElems, stringifyElemSep, List.length_append,
          List.length_cons] at hfuel ⊢
        omega
      rw [hsep, skipJWs_comma]
      simp only [rt_elems cn x xs f rest hn2.1 hn2.2 hk2.1 hk2.2 hlen2,
        Option.map_some']
      rfl
termination_by fuel

/-- Parsing the rendered tail of a nonempty object yields the renormalised
members and consumes the closing brace. -/
theorem rt_members (cn : JStr → JStr) (k : JStr) (v : JVal)
    (ms : List (JStr × JVal)) (fuel : Nat) (rest : JStr)
    (hn1 : numsOk cn v = true) (hn2 : numsOkFields cn ms = true)
    (hk1 : keysOk v = true) (hk2 : keyAbsent k ms = true)
    (hk3 : keysOkFields ms = true)
    (hfuel : (stringifyMembers ((k, v) :: ms)).length + 1 < fuel) :
    parseMembers cn fuel (stringifyMembers ((k, v) :: ms) ++ '\x7d' :: rest)
      = some (renormFields cn ((k, v) :: ms), rest) := by
  cases fuel with
  | zero => exact absurd hfuel (Nat.not_lt_zero _)
  | succ f =>
    have hlen : (stringifyJVal v).length < f := by
      simp only [stringifyMembers, quoteJStr, List.length_append, List.length_cons,
        List.length_singleton] at hfuel
      omega
    have hvalstep := rt_val cn v f (stringifyMemberSep ms ++ '\x7d' :: rest) hn1 hk1 hlen
      (numDelim_memberSep ms rest)
    have hshape : stringifyMembers ((k, v) :: ms) ++ '\x7d' :: rest
        = '"' :: (k.flatMap escapeJChar
            ++ ('"' :: ':' :: (stringifyJVal v
                ++ (stringifyMemberSep ms ++ '\x7d' :: rest)))) := by
      simp [stringifyMembers, quoteJStr]
    rw [parseMembers_step, hshape, skipJWs_quote]
    simp only [show ∀ r : JStr, parseStrBody (k.flatMap escapeJChar ++ '"' :: r)
        = some (k, r) from fun r => parseStrBody_flatMap k r]
    rw [skipJWs_colon]
    simp only [hvalstep]
    cases ms with
    | nil => rfl
    | cons kv2 ms2 =>
      obtain ⟨k2, v2⟩ := kv2
      simp only [numsOkFields, Bool.and_eq_true] at hn2
      simp only [keysOkFields, Bool.and_eq_true] at hk3
      have hsep : stringifyMemberSep ((k2, v2) :: ms2) ++ '\x7d' :: rest
          = ',' :: (stringifyMembers ((k2, v2) :: ms2) ++ '\x7d' :: rest) := by
        simp [stringifyMemberSep, stringifyMembers]
      have hlen2 : (stringifyMembers ((k2, v2) :: ms2)).length + 1 < f := by
        simp only [stringifyMembers, stringifyMemberSep, quoteJStr,
          List.length_append, List.length_cons, List.length_singleton] at hfuel ⊢
        omega
      rw [hsep, skipJWs_comma]
      simp only [rt_members cn k2 v2 ms2 f rest hn2.1 hn2.2 hk3.1.2 hk3.1.1 hk3.2 hlen2,
        Option.map_some']
      rfl
termination_by fuel

end

/-! ### Invariants of parser output -/

/-- `keysOk` of every member value of a raw member list (keys may repeat). -/
def valsOk : List (JStr × JVal) → Bool
  | [] => true
  | (_, v) :: rest => keysOk v && valsOk rest

theorem keyAbsent_objSet {k0 k : JStr} {l : List (JStr × JVal)}
    (h : keyAbsent k0 l = true) (hne : k0 ≠ k) (v : JVal) :
    keyAbsent k0 (objSet l k v) = true := by
  induction l with
  | nil => simp [objSet, keyAbsent, Ne.symm hne]
  | cons kv rest ih =>
    obtain ⟨k1, v1⟩ := kv
    simp only [keyAbsent, Bool.and_eq_true, Bool.not_eq_true',
      decide_eq_false_iff_not] at h
    by_cases hk : k1 = k
    · subst hk; simp [objSet, keyAbsent, h.1, h.2]
    · simp [objSet, hk, keyAbsent, h.1, ih h.2]

theorem objSet_invs (cn : JStr → JStr) {l : List (JStr × JVal)} (k : JStr) (v : JVal)
    (h1 : numsOkFields cn l = true) (h2 : valsOk l = true)
    (h3 : fieldsKeysDistinct l = true)
    (hv1 : numsOk cn v = true) (hv2 : keysOk v = true) :
    numsOkFields cn (objSet l k v) = true ∧ valsOk (objSet l k v) = true ∧
      fieldsKeysDistinct (objSet l k v) = true := by
  induction l with
  | nil => simp [objSet, numsOkFields, valsOk, fieldsKeysDistinct, keyAbsent, hv1, hv2]
  | cons kv rest ih =>
    obtain ⟨k1, v1⟩ := kv
    simp only [numsOkFields, Bool.and_eq_true] at h1
    simp only [valsOk, Bool.and_eq_true] at h2
    simp only [fieldsKeysDistinct, Bool.and_eq_true] at h3
    by_cases hk : k1 = k
    · subst hk
      simp [objSet, numsOkFields, valsOk, fieldsKeysDistinct,
        h1.2, h2.2, h3.1, h3.2, hv1, hv2]
    · obtain ⟨ih1, ih2, ih3⟩ := ih h1.2 h2.2 h3.2
      simp [objSet, hk, numsOkFields, valsOk, fieldsKeysDistinct, h1.1, h2.1,
        ih1, ih2, ih3, keyAbsent_objSet h3.1 hk v]

theorem objFold_invs_aux (cn : JStr → JStr) :
    ∀ (l : List (JStr × JVal)) (acc : List (JStr × JVal)),
    numsOkFields cn l = true → valsOk l = true →
    numsOkFields cn acc = true → valsOk acc = true → fieldsKeysDistinct acc = true →
    numsOkFields cn (l.foldl (fun acc kv => objSet acc kv.1 kv.2) acc) = true ∧
      valsOk (l.foldl (fun acc kv => objSet acc kv.1 kv.2) acc) = true ∧
      fieldsKeysDistinct (l.foldl (fun acc kv => objSet acc kv.1 kv.2) acc) = true := by
  intro l
  induction l with
  | nil => intro acc _ _ a b c; exact ⟨a, b, c⟩
  | cons kv rest ih =>
    intro acc h1 h2 a b c
    obtain ⟨k, v⟩ := kv
    simp only [numsOkFields, Bool.and_eq_true] at h1
    simp only [valsOk, Bool.and_eq_true] at h2
    simp only [List.foldl_cons]
    obtain ⟨a1, b1, c1⟩ := objSet_invs cn k v a b c h1.1 h2.1
    exact ih (objSet acc k v) h1.2 h2.2 a1 b1 c1

theorem objFold_invs (cn : JStr → JStr) (l : List (JStr × JVal))
    (h1 : numsOkFields cn l = true) (h2 : valsOk l = true) :
    numsOkFields cn (objFold l) = true ∧ valsOk (objFold l) = true ∧
      fieldsKeysDistinct (objFold l) = true :=
  objFold_invs_aux cn l [] h1 h2 rfl rfl rfl

theorem keysOkFields_of {ms : List (JStr × JVal)} (h1 : valsOk ms = true)
    (h2 : fieldsKeysDistinct ms = true) : keysOkFields ms = true := by
  induction ms with
  | nil => rfl
  | cons kv rest ih =>
    obtain ⟨k, v⟩ := kv
    simp only [valsOk, Bool.and_eq_true] at h1
    simp only [fieldsKeysDistinct, Bool.and_eq_true] at h2
    simp [keysOkFields, h2.1, h1.1, ih h1.2 h2.2]

mutual

/-- Every value the parser produces has canonical number tokens and distinct
object keys. -/
theorem inv_val (cn : JStr → JStr) (hcn : CnOk cn) (fuel : Nat) (s : JStr)
    (v : JVal) (r : JStr) (h : parseJVal cn fuel s = some (v, r)) :
    numsOk cn v = true ∧ keysOk v = true := by
  cases fuel with
  | zero => exact Option.noConfusion h
  | succ f =>
    rw [parseJVal_step] at h
    split at h
    · obtain ⟨hv, -⟩ := Prod.mk.injEq .. ▸ Option.some.injEq .. ▸ h
      subst hv; exact ⟨rfl, rfl⟩
    · obtain ⟨hv, -⟩ := Prod.mk.injEq .. ▸ Option.some.injEq .. ▸ h
      subst hv; exact ⟨rfl, rfl⟩
    · obtain ⟨hv, -⟩ := Prod.mk.injEq .. ▸ Option.some.injEq .. ▸ h
      subst hv; exact ⟨rfl, rfl⟩
    · rw [Option.map_eq_some'] at h
      obtain ⟨p, -, heq⟩ := h
      obtain ⟨hv, -⟩ := Prod.mk.injEq .. ▸ heq
      subst hv; exact ⟨rfl, rfl⟩
    · split at h
      · obtain ⟨hv, -⟩ := Prod.mk.injEq .. ▸ Option.some.injEq .. ▸ h
        subst hv; exact ⟨rfl, rfl⟩
      · rw [Option.map_eq_some'] at h
        obtain ⟨p, hp, heq⟩ := h
        obtain ⟨hv, -⟩ := Prod.mk.injEq .. ▸ heq
        subst hv
        exact inv_elems cn hcn f _ p.1 p.2 hp
    · split at h
      · obtain ⟨hv, -⟩ := Prod.mk.injEq .. ▸ Option.some.injEq .. ▸ h
        subst hv; exact ⟨rfl, rfl⟩
      · rw [Option.map_eq_some'] at h
        obtain ⟨p, hp, heq⟩ := h
        obtain ⟨hv, -⟩ := Prod.mk.injEq .. ▸ heq
        subst hv
        obtain ⟨hn, hvv⟩ := inv_members cn hcn f _ p.1 p.2 hp
        obtain ⟨a1, b1, c1⟩ := objFold_invs cn p.1 hn hvv
        exact ⟨a1, keysOkFields_of b1 c1⟩
    · split at h
      · rw [Option.map_eq_some'] at h
        obtain ⟨p, -, heq⟩ := h
        obtain ⟨hv, -⟩ := Prod.mk.injEq .. ▸ heq
        subst hv
        refine ⟨?_, rfl⟩
        rcases hcn p.1 with ⟨ht, hfix⟩ | hb
        · simp [numsOk, ht, hfix]
        · simp [numsOk, hb]
      · exact Option.noConfusion h
    · exact Option.noConfusion h

/-- Element lists the parser produces satisfy the same invariants. -/
theorem inv_elems (cn : JStr → JStr) (hcn : CnOk cn) (fuel : Nat) (s : JStr)
    (l : List JVal) (r : JStr) (h : parseElems cn fuel s = some (l, r)) :
    numsOkList cn l = true ∧ keysOkList l = true := by
  cases fuel with
  | zero => exact Option.noConfusion h
  | succ f =>
    rw [parseElems_step] at h
    split at h
    · rename_i v r1 hval
      split at h
      · rw [Option.map_eq_some'] at h
        obtain ⟨p, hp, heq⟩ := h
        obtain ⟨hl, -⟩ := Prod.mk.injEq .. ▸ heq
        subst hl
        obtain ⟨a1, b1⟩ := inv_val cn hcn f _ v r1 hval
        obtain ⟨a2, b2⟩ := inv_elems cn hcn f _ p.1 p.2 hp
        simp [numsOkList, keysOkList, a1, b1, a2, b2]
      · obtain ⟨hl, -⟩ := Prod.mk.injEq .. ▸ Option.some.injEq .. ▸ h
        subst hl
        obtain ⟨a1, b1⟩ := inv_val cn hcn f _ v r1 hval
        simp [numsOkList, keysOkList, a1, b1]
      · exact Option.noConfusion h
    · exact Option.noConfusion h

/-- Member lists the parser produces satisfy the same invariants (keys may
still repeat; distinctness appears only after `objFold`). -/
theorem inv_members (cn : JStr → JStr) (hcn : CnOk cn) (fuel : Nat) (s : JStr)
    (ms : List (JStr × JVal)) (r : JStr)
    (h : parseMembers cn fuel s = some (ms, r)) :
    numsOkFields cn ms = true ∧ valsOk ms = true := by
  cases fuel with
  | zero => exact Option.noConfusion h
  | succ f =>
    rw [parseMembers_step] at h
    split at h
    · split at h
      · split at h
        · rename_i hkeyr key r1 hstr r2 hcolon
          split at h
          · rename_i v r3 hval
            split at h
            · rw [Option.map_eq_some'] at h
              obtain ⟨p, hp, heq⟩ := h
              obtain ⟨hl, -⟩ := Prod.mk.injEq .. ▸ heq
              subst hl
              obtain ⟨a1, b1⟩ := inv_val cn hcn f _ v r3 hval
              obtain ⟨a2, b2⟩ := inv_members cn hcn f _ p.1 p.2 hp
              simp [numsOkFields, valsOk, a1, b1, a2, b2]
            · obtain ⟨hl, -⟩ := Prod.mk.injEq .. ▸ Option.some.injEq .. ▸ h
              subst hl
              obtain ⟨a1, b1⟩ := inv_val cn hcn f _ v r3 hval
              simp [numsOkFields, valsOk, a1, b1]
            · exact Option.noConfusion h
          · exact Option.noConfusion h
        · exact Option.noConfusion h
      · exact Option.noConfusion h
    · exact Option.noConfusion h

end

mutual

/-- Reparse renormalisation does not change the printed form. -/
theorem stringify_renorm (cn : JStr → JStr) (v : JVal) (h : numsOk cn v = true) :
    stringifyJVal (renorm cn v) = stringifyJVal v := by
  cases v with
  | jnull => rfl
  | jbool b => rfl
  | jstr s => rfl
  | jnum t =>
    by_cases ht : t = js "null"
    · subst ht; rfl
    · simp only [numsOk, Bool.or_eq_true, Bool.and_eq_true, beq_iff_eq] at h
      rcases h with ⟨-, hfix⟩ | hnull
      · simp [renorm, ht, stringifyJVal, hfix]
      · exact absurd hnull ht
  | jarr es =>
    have h1 : numsOkList cn es = true := by simpa [numsOk] using h
    simp [renorm, stringifyJVal, (stringify_renorm_list cn es h1).1]
  | jobj ms =>
    have h1 : numsOkFields cn ms = true := by simpa [numsOk] using h
    simp [renorm, stringifyJVal, (stringify_renorm_fields cn ms h1).1]

/-- `stringify_renorm` over array element lists. -/
theorem stringify_renorm_list (cn : JStr → JStr) (es : List JVal)
    (h : numsOkList cn es = true) :
    stringifyElems (renormList cn es) = stringifyElems es ∧
      stringifyElemSep (renormList cn es) = stringifyElemSep es := by
  cases es with
  | nil => exact ⟨rfl, rfl⟩
  | cons e es1 =>
    simp only [numsOkList, Bool.and_eq_true] at h
    obtain ⟨ih1, ih2⟩ := stringify_renorm_list cn es1 h.2
    have hv := stringify_renorm cn e h.1
    constructor
    · simp [renormList, stringifyElems, hv, ih2]
    · simp [renormList, stringifyElemSep, hv, ih2]

/-- `stringify_renorm` over object member lists. -/
theorem stringify_renorm_fields (cn : JStr → JStr) (ms : List (JStr × JVal))
    (h : numsOkFields cn ms = true) :
    stringifyMembers (renormFields cn ms) = stringifyMembers ms ∧
      stringifyMemberSep (renormFields cn ms) = stringifyMemberSep ms := by
  cases ms with
  | nil => exact ⟨rfl, rfl⟩
  | cons kv ms1 =>
    obtain ⟨k, v⟩ := kv
    simp only [numsOkFields, Bool.and_eq_true] at h
    obtain ⟨ih1, ih2⟩ := stringify_renorm_fields cn ms1 h.2
    have hv := stringify_renorm cn v h.1
    constructor
    · simp [renormFields, stringifyMembers, hv, ih2]
    · simp [renormFields, stringifyMemberSep, hv, ih2]

end

/-- Top-level roundtrip: parsing printed output succeeds and yields the
renormalised value. -/
theorem jsonParse_stringify (cn : JStr → JStr) (v : JVal)
    (hnum : numsOk cn v = true) (hkeys : keysOk v = true) :
    jsonParse cn (stringifyJVal v) = some (renorm cn v) := by
  unfold jsonParse
  have h := rt_val cn v ((stringifyJVal v).length + 1) [] hnum hkeys
    (Nat.lt_succ_self _) rfl
  rw [List.append_nil] at h
  rw [h]
  rfl

/-! ### Embedding of the source functions

Exceptions are modelled as `Option.none` at every point where the JS code can
throw; a surrounding `try` turns the `none` back into the `catch` branch's
value. The module runs in strict mode (Cloudflare Pages functions are ES
modules), so assigning a property to a primitive throws `TypeError`. -/

/-- Model of `String.prototype.startsWith`. -/
def jsStartsWith : JStr → JStr → Bool
  | _, [] => true
  | [], _ :: _ => false
  | c :: s, d :: p => c = d && jsStartsWith s p

/-- Falsiness of a parsed JSON value under JS coercion; a number is falsy
exactly when it is zero, whose canonical token (the form the number parser
stores) is the single digit `0`. -/
def jsFalsyJV : JVal → Bool
  | .jnull => true
  | .jbool b => !b
  | .jnum t => t == js "0"
  | .jstr s => s.isEmpty
  | _ => false

/-- Reading `nodeConfig.ps || ''` and then calling `.startsWith` on it:
an absent member is `undefined` hence `''`, a falsy member is `''`, a truthy
string is itself, and a truthy non-string has no `startsWith` method, so the
call throws (`none`). -/
def psString : Option JVal → Option JStr
  | none => some []
  | some v =>
    if jsFalsyJV v then some []
    else
      match v with
      | .jstr s => some s
      | _ => none

/-- The shared `atob` + byte copy + `TextDecoder('utf-8')` + `JSON.parse`
chain of both vmess branches; `none` where `atob` or `JSON.parse` throws. -/
def decodeVmessPayload (cn : JStr → JStr) (b64Part : JStr) : Option JVal :=
  (atobBytes b64Part).bind (fun bs => jsonParse cn (textDecodeUtf8 bs))

/-- Re-encoding of a vmess payload:
`'vmess://' + btoa(unescape(encodeURIComponent(JSON.stringify(v))))`. -/
def encodeVmessPayload (v : JVal) : JStr :=
  js "vmess://" ++ btoaBytes (utf8Encode (stringifyJVal v))

/-- The inner `appendToFragment` helper of `prependNodeName`. Its
`decodeURIComponent` call is not guarded by any `try`, so a malformed
fragment makes the whole call throw (`none`). -/
def appendToFragment (baseLink namePfx : JStr) : Option JStr :=
  match lastSplit '#' baseLink with
  | some (base, frag) =>
    (decodeURIComponentOpt frag).map (fun originalName =>
      if jsStartsWith originalName namePfx then baseLink
      else
        base ++ '#' :: encodeURIComponent
          (if originalName.isEmpty then namePfx
           else namePfx ++ js " - " ++ originalName))
  | none =>
    if jsStartsWith [] namePfx then some baseLink
    else some (baseLink ++ '#' :: encodeURIComponent namePfx)

/-- The vmess `try` body of `prependNodeName` (lines 428–444): `none` models
a thrown exception — bad base64, bad JSON, member access on `null`, a string
method or a strict-mode property assignment on a primitive. An array accepts
the `ps` assignment but `JSON.stringify` drops the non-index property. -/
def prependVmessBody (cn : JStr → JStr) (link pfx : JStr) : Option JStr :=
  (decodeVmessPayload cn (link.drop 8)).bind (fun nodeConfig =>
    match nodeConfig with
    | .jobj fields =>
      (psString (objLookup fields (js "ps"))).map (fun originalPs =>
        if jsStartsWith originalPs pfx then encodeVmessPayload (.jobj fields)
        else
          encodeVmessPayload (.jobj (objSet fields (js "ps")
            (.jstr (if originalPs.isEmpty then pfx
                    else pfx ++ js " - " ++ originalPs)))))
    | .jarr es => some (encodeVmessPayload (.jarr es))
    | .jnull => none
    | v =>
      if jsStartsWith [] pfx then some (encodeVmessPayload v) else none)

/-- Model of `prependNodeName` (lines 415–450): the vmess branch falls back
to `appendToFragment` on failure, every other scheme goes there directly,
and a failure inside `appendToFragment` itself propagates (`none`). -/
def prependNodeName (cn : JStr → JStr) (link pfx : JStr) : Option JStr :=
  if pfx.isEmpty then some link
  else if jsStartsWith link (js "vmess://") then
    match prependVmessBody cn link pfx with
    | some res => some res
    | none => appendToFragment link pfx
  else appendToFragment link pfx

/-- Model of `normalizeVmessLink` (lines 455–470): decode, re-serialise
compactly, re-encode; any failure returns the original link. -/
def normalizeVmessLink (cn : JStr → JStr) (link : JStr) : JStr :=
  if jsStartsWith link (js "vmess://") then
    match decodeVmessPayload cn (link.drop 8) with
    | some v => encodeVmessPayload v
    | none => link
  else link

/-- The alternatives of the anchored scheme regexp `nodeRegex`. -/
def nodeProtoList : List JStr :=
  [js "ss", js "ssr", js "vmess", js "vless", js "trojan", js "hysteria",
   js "hysteria2", js "hy", js "hy2", js "tuic", js "anytls", js "socks5"]

/-- Model of `nodeRegex.test`: one of the listed schemes at the start,
followed by the literal separator (case-sensitive, no flag). -/
def nodeRegexTest (line : JStr) : Bool :=
  nodeProtoList.any (fun p => jsStartsWith line (p ++ js "://"))

/-- JS line terminators, the characters an unflagged `.` cannot match. -/
def isLineTermChar (c : Char) : Bool :=
  c.toNat = 10 || c.toNat = 13 || c.toNat = 0x2028 || c.toNat = 0x2029

/-- The protocol extraction `nodeLink.match(/^(.*?):\/\//)` followed by
`.toLowerCase()`: empty when the regexp fails — no separator at all, or a
line terminator before the first one. -/
def protoOf (link : JStr) : JStr :=
  match schemeSplit link with
  | some (before, _) =>
    if before.any isLineTermChar then [] else lowerAscii before
  | none => []

/-- Rule lines: `exclude.trim().split('\n').map(r => r.trim()).filter(Boolean)`. -/
def ruleLines (ex : JStr) : List JStr :=
  ((splitNl (jsTrim ex)).map jsTrim).filter (fun r => !r.isEmpty)

/-- Classification test `r.toLowerCase().startsWith('keep:')`. -/
def isKeepRule (r : JStr) : Bool := jsStartsWith (lowerAscii r) (js "keep:")

/-- Protocol-name parsing `content.split(',').map(p => p.trim().toLowerCase())`. -/
def protoNames (s : JStr) : List JStr :=
  (splitOnC ',' s).map (fun p => lowerAscii (jsTrim p))

/-- The allow-list protocol set, accumulated over the keep rules
(a JS `Set` of strings: only membership is used). -/
def keepProtoSet (keepRules : List JStr) : List JStr :=
  keepRules.foldl (fun acc rule =>
    let content := jsTrim (rule.drop 5)
    if jsStartsWith (lowerAscii content) (js "proto:") then
      acc ++ protoNames (content.drop 6)
    else acc) []

/-- The allow-list name-regex parts: contents of the keep rules that are not
protocol rules, in rule order. -/
def keepNameParts (keepRules : List JStr) : List JStr :=
  keepRules.foldl (fun acc rule =>
    let content := jsTrim (rule.drop 5)
    if jsStartsWith (lowerAscii content) (js "proto:") then acc
    else acc ++ [content]) []

/-- The deny-list protocol set, accumulated over all rules. -/
def denyProtoSet (rules : List JStr) : List JStr :=
  rules.foldl (fun acc rule =>
    if jsStartsWith (lowerAscii rule) (js "proto:") then
      acc ++ protoNames (rule.drop 6)
    else acc) []

/-- The deny-list name-regex parts: all non-protocol rules, in order. -/
def denyNameParts (rules : List JStr) : List JStr :=
  rules.foldl (fun acc rule =>
    if jsStartsWith (lowerAscii rule) (js "proto:") then acc
    else acc ++ [rule]) []

/-- Building `parts.length > 0 ? new RegExp(parts.join('|'), 'i') : null`.
The abstract `rc` gives the compiled case-insensitive test of a pattern, or
`none` where the constructor throws `SyntaxError`: the outer `none` is that
throw, the inner `none` the absent regex. -/
def regexOf (rc : JStr → Option (JStr → Bool)) (parts : List JStr) :
    Option (Option (JStr → Bool)) :=
  match parts with
  | [] => some none
  | _ => (rc (joinWithC '|' parts)).map some

/-- The guarded fragment-name test shared by both filter closures: an absent
hash fails the test and the inner `try` swallows `decodeURIComponent`
errors. -/
def fragNameTest (test : JStr → Bool) (link : JStr) : Bool :=
  match lastSplit '#' link with
  | some (_, frag) =>
    match decodeURIComponentOpt frag with
    | some name => test name
    | none => false
  | none => false

/-- Name-regex test against a possibly-null regex. -/
def matchesName (nr : Option (JStr → Bool)) (link : JStr) : Bool :=
  match nr with
  | some test => fragNameTest test link
  | none => false

/-- The exclude-rule filter block (lines 503–571): `none` models a thrown
`SyntaxError` from `new RegExp` escaping to the per-sub `catch`. -/
def applyExclude (rc : JStr → Option (JStr → Bool)) (ex : JStr)
    (nodes : List JStr) : Option (List JStr) :=
  if ex.isEmpty || (jsTrim ex).isEmpty then some nodes
  else
    let rules := ruleLines ex
    let keepRules := rules.filter isKeepRule
    if keepRules.isEmpty then
      (regexOf rc (denyNameParts rules)).map (fun nr =>
        nodes.filter (fun link =>
          !((denyProtoSet rules).contains (protoOf link) || matchesName nr link)))
    else
      (regexOf rc (keepNameParts keepRules)).map (fun nr =>
        nodes.filter (fun link =>
          (keepProtoSet keepRules).contains (protoOf link) || matchesName nr link))

/-- The base64 heuristic applied to each fetched body (lines 491–499): if a
whitespace-stripped copy is longer than twenty characters and wholly in the
base64 alphabet, a successful decode replaces the text by the decoded bytes
read as UTF-8; any failure leaves the original body. -/
def decodeSubBody (body : JStr) : JStr :=
  let cleaned := body.filter (fun c => !isJsWs c)
  if decide (20 < cleaned.length) && cleaned.all isB64TestChar then
    match atobBytes cleaned with
    | some bs => textDecodeUtf8 bs
    | none => body
  else body

/-- Line extraction from a decoded body (lines 500–501). -/
def subLines (text : JStr) : List JStr :=
  ((splitNl (replaceCrLf text)).map jsTrim).filter nodeRegexTest

/-- The fields of a stored subscription entry used by the aggregator. -/
structure Sub where
  url : JStr
  name : JStr
  enabled : Bool
  exclude : JStr

/-- The settings fields used here, after the spread over the defaults. -/
structure Config where
  mytoken : JStr
  profileToken : JStr
  prependSubName : Bool

/-- The values these fields take from `defaultSettings` when absent. -/
def defaultConfig : Config :=
  { mytoken := js "auto", profileToken := js "profiles", prependSubName := true }

/-- Model of `prependNodeName` mapped over a node list; a thrown exception
anywhere aborts the whole `map` (`none`). -/
def mapPrependAll (cn : JStr → JStr) (pfx : JStr) : List JStr → Option (List JStr)
  | [] => some []
  | n :: rest =>
    (prependNodeName cn n pfx).bind (fun n1 =>
      (mapPrependAll cn pfx rest).map (fun r => n1 :: r))

/-- Outcome of one subscription fetch: a transport error or timeout, a
response with non-ok status, or a body. -/
inductive Fetched where
  | err : Fetched
  | notOk : Fetched
  | ok (body : JStr) : Fetched

/-- Processing of one fetched body inside the per-sub `try` (lines 490–573):
`none` is an exception reaching the per-sub `catch`. -/
def processOkBody (cn : JStr → JStr) (rc : JStr → Option (JStr → Bool))
    (cfg : Config) (sub : Sub) (body : JStr) : Option JStr :=
  (applyExclude rc sub.exclude (subLines (decodeSubBody body))).bind
    (fun validNodes =>
      if cfg.prependSubName && !sub.name.isEmpty then
        (mapPrependAll cn sub.name validNodes).map joinNl
      else some (joinNl validNodes))

/-- One entry of `subPromises` (lines 483–574): every failure path — a
rejected fetch, a non-ok status, or an exception inside the `try` — yields
the empty string. -/
def processHttpSub (cn : JStr → JStr) (rc : JStr → Option (JStr → Bool))
    (cfg : Config) (sub : Sub) (f : Fetched) : JStr :=
  match f with
  | .err => []
  | .notOk => []
  | .ok body =>
    match processOkBody cn rc cfg sub body with
    | some s => s
    | none => []

/-- The split test of the `misubs.filter` callback (line 472). -/
def isHttpSub (s : Sub) : Bool := jsStartsWith (lowerAscii s.url) (js "http")

/-- The string `manualNodesContent` accumulated by that callback's side
effect: each non-HTTP url followed by a newline, in order. -/
def manualContent (misubs : List Sub) : JStr :=
  (misubs.filter (fun s => !isHttpSub s)).flatMap (fun s => s.url ++ ['\n'])

/-- The manual-node name tag (line 480). -/
def manualPfx : JStr := js "手动节点"

/-- Model of `processedManualNodes` (lines 476–481): `none` when one of its
unguarded `prependNodeName` calls throws. -/
def processedManualNodes (cn : JStr → JStr) (cfg : Config)
    (misubs : List Sub) : Option JStr :=
  let lines := (((splitNl (manualContent misubs)).map jsTrim).filter
    nodeRegexTest).map (normalizeVmessLink cn)
  if cfg.prependSubName then (mapPrependAll cn manualPfx lines).map joinNl
  else some (joinNl lines)

/-- Model of `generateCombinedNodeList` (lines 452–585), the fetch outcome of
each HTTP source supplied as data. `none` models an exception escaping the
whole function, which only the manual-node `prependNodeName` calls can
raise: every per-source failure is caught inside. -/
def generateCombinedNodeList (cn : JStr → JStr) (rc : JStr → Option (JStr → Bool))
    (cfg : Config) (misubs : List Sub) (fetchR : Sub → Fetched)
    (prependedContent : JStr) : Option JStr :=
  (processedManualNodes cn cfg misubs).map (fun manualStr =>
    let subContents := (misubs.filter isHttpSub).map
      (fun s => processHttpSub cn rc cfg s (fetchR s))
    let combined := manualStr ++ '\n' :: joinNl subContents
    let uniq := joinNl (dedupFirst
      (((splitNl combined).map jsTrim).filter (fun l => !l.isEmpty)))
    if prependedContent.isEmpty then uniq
    else prependedContent ++ '\n' :: uniq)

/-- The synthetic remaining-quota node the handler prepends (line 700). -/
def fakeNodeString (name : JStr) : JStr :=
  js "trojan://00000000-0000-0000-0000-000000000000@127.0.0.1:443#"
    ++ encodeURIComponent name

/-- The fields of a stored profile used by scope resolution. -/
structure Profile where
  id : JStr
  customId : JStr
  name : JStr
  enabled : Bool

/-- The profile-lookup predicate
`(p.customId && p.customId === profileIdentifier) || p.id === profileIdentifier`. -/
def profMatches (pid : JStr) (p : Profile) : Bool :=
  (!p.customId.isEmpty && p.customId == pid) || p.id == pid

/-- Path parsing
`url.pathname.replace(/^\/sub\//, '/').split('/').filter(Boolean)`. -/
def parsePathSegs (pathname : JStr) : List JStr :=
  let p1 := if jsStartsWith pathname (js "/sub/") then '/' :: pathname.drop 5
            else pathname
  (splitOnC '/' p1).filter (fun s => !s.isEmpty)

/-- Truth of `!(!token || token !== expected)`: the token is present,
non-empty and equal to the expected value. -/
def tokenOk (tok : Option JStr) (expected : JStr) : Bool :=
  match tok with
  | some t => !t.isEmpty && t == expected
  | none => false

/-- Outcome of token and profile resolution: the two error responses, the
profile scope, or the all-enabled scope. -/
inductive ScopeResult where
  | err403 : ScopeResult
  | err404 : ScopeResult
  | okProfile (p : Profile) : ScopeResult
  | okAll : ScopeResult

/-- Token and profile resolution of `handleMisubRequest` (lines 602–647). -/
def resolveScope (cfg : Config) (profiles : List Profile) (pathname : JStr)
    (queryToken : Option JStr) : ScopeResult :=
  let segs := parsePathSegs pathname
  let token : Option JStr := match segs with | t :: _ => some t | [] => queryToken
  let pid : Option JStr := match segs with | _ :: p :: _ => some p | _ => none
  match pid with
  | some pid =>
    if tokenOk token cfg.profileToken then
      match profiles.find? (profMatches pid) with
      | some p => if p.enabled then .okProfile p else .err404
      | none => .err404
    else .err403
  | none =>
    if tokenOk token cfg.mytoken then .okAll else .err403

/-- Substring occurrence, the JS regexp test of a plain literal pattern. -/
def hasSub : JStr → JStr → Bool
  | [], sub => sub.isEmpty
  | c :: rest, sub => jsStartsWith (c :: rest) sub || hasSub rest sub

/-- Case-insensitive alternation-of-literals regexp test: the semantics of
`new RegExp(parts.join('|'), 'i').test` when every part is a literal without
metacharacters and without a pipe (sufficient for the concrete patterns used
in the statements below). -/
def litAltTest (pat : JStr) (name : JStr) : Bool :=
  (splitOnC '|' pat).any (fun lit => hasSub (lowerAscii name) (lowerAscii lit))

/-- A concrete regex collaborator built from `litAltTest`; its constructor
never throws. -/
def litAltRc : JStr → Option (JStr → Bool) := fun pat => some (litAltTest pat)

/-- SPEC-SIDE definition, written from the specification's words rather than
the source: in allow-list mode the name regex is OR-joined from the contents
of ALL name rules — every rule that is not a protocol rule, with a leading
keep marker stripped for classification only — not only from the
keep-prefixed rules. -/
def specAllowNameParts (rules : List JStr) : List JStr :=
  rules.foldl (fun acc rule =>
    let content := if isKeepRule rule then jsTrim (rule.drop 5) else rule
    if jsStartsWith (lowerAscii content) (js "proto:") then acc
    else acc ++ [content]) []

/-- SPEC-SIDE allow-list filter assembled from `specAllowNameParts`; the
protocol-keep set is unchanged from the source reading. -/
def specAllowFilter (rc : JStr → Option (JStr → Bool)) (ex : JStr)
    (nodes : List JStr) : Option (List JStr) :=
  let rules := ruleLines ex
  let keepRules := rules.filter isKeepRule
  (regexOf rc (specAllowNameParts rules)).map (fun nr =>
    nodes.filter (fun link =>
      (keepProtoSet keepRules).contains (protoOf link) || matchesName nr link))

/-! ### Support lemmas about the embedded functions -/

theorem jsStartsWith_nil_right (s : JStr) : jsStartsWith s [] = true := by
  cases s <;> rfl

theorem jsStartsWith_refl_append (p x : JStr) : jsStartsWith (p ++ x) p = true := by
  induction p with
  | nil => exact jsStartsWith_nil_right x
  | cons c p1 ih => simp [jsStartsWith, ih]

theorem jsStartsWith_ne_nil {s p : JStr} (hp : p ≠ []) (h : jsStartsWith s p = true) :
    s ≠ [] := by
  cases s with
  | nil =>
    cases p with
    | nil => exact absurd rfl hp
    | cons d p1 => exact absurd h (by simp [jsStartsWith])
  | cons c s1 => simp

theorem hexUpper_ne_hash_fin : ∀ n : Fin 16, hexUpper n.val ≠ '#' := by decide

theorem encURI_not_hash (s : JStr) : '#' ∉ encodeURIComponent s := by
  intro h
  obtain ⟨c, -, hc2⟩ := List.mem_flatMap.mp h
  unfold encURIChar at hc2
  split at hc2
  · rename_i hr
    simp only [List.mem_singleton] at hc2
    subst hc2
    exact absurd hr (by decide)
  · obtain ⟨b, hb, hb2⟩ := List.mem_flatMap.mp hc2
    have hlt := utf8EncodeChar_lt c b hb
    simp only [pctByte, List.mem_cons, List.not_mem_nil, or_false] at hb2
    rcases hb2 with h1 | h1 | h1
    · exact absurd h1.symm (by decide)
    · exact hexUpper_ne_hash_fin ⟨b / 16, by omega⟩ h1.symm
    · exact hexUpper_ne_hash_fin ⟨b % 16, by omega⟩ h1.symm

theorem lastSplit_eq_none {d : Char} {s : JStr} : lastSplit d s = none ↔ d ∉ s := by
  induction s with
  | nil => simp [lastSplit]
  | cons c rest ih =>
    simp only [lastSplit]
    cases hls : lastSplit d rest with
    | some p =>
      have hmem : d ∈ rest := by
        by_contra hn
        rw [ih.mpr hn] at hls
        exact Option.noConfusion hls
      simp [hmem]
    | none =>
      have hnm : d ∉ rest := ih.mp hls
      by_cases hc : c = d
      · simp [hc]
      · simp [hc, hnm, Ne.symm hc]

theorem lastSplit_append {d : Char} {t : JStr} (h : d ∉ t) (x : JStr) :
    lastSplit d (x ++ d :: t) = some (x, t) := by
  induction x with
  | nil => simp [lastSplit, lastSplit_eq_none.mpr h]
  | cons c r ih => simp [lastSplit, ih]

/-- Trimmed non-blank lines of a string, the per-line pipeline of the final
merge step. -/
def fLines (s : JStr) : List JStr :=
  ((splitNl s).map jsTrim).filter (fun l => !l.isEmpty)

theorem fLines_append (a b : JStr) : fLines (a ++ '\n' :: b) = fLines a ++ fLines b := by
  simp [fLines, splitNl, splitOnC_append]

theorem fLines_joinNl (l : List JStr) : fLines (joinNl l) = (l.map fLines).flatten := by
  induction l with
  | nil => rfl
  | cons x rest ih =>
    cases rest with
    | nil => simp [joinNl, joinWithC]
    | cons y r2 =>
      rw [show joinNl (x :: y :: r2) = x ++ '\n' :: joinNl (y :: r2) from rfl,
        fLines_append, ih]
      simp

theorem splitNl_joinNl {l : List JStr} (hne : l ≠ []) (hnl : ∀ x ∈ l, '\n' ∉ x) :
    splitNl (joinNl l) = l := by
  induction l with
  | nil => exact absurd rfl hne
  | cons x rest ih =>
    cases rest with
    | nil =>
      rw [show joinNl [x] = x from rfl, splitNl, splitOnC_not_mem (hnl x (by simp))]
    | cons y r2 =>
      rw [show joinNl (x :: y :: r2) = x ++ '\n' :: joinNl (y :: r2) from rfl,
        splitNl, splitOnC_append, show splitOnC '\n' x = [x] from
          splitOnC_not_mem (hnl x (by simp))]
      rw [show splitOnC '\n' (joinNl (y :: r2)) = splitNl (joinNl (y :: r2)) from rfl,
        ih (by simp) (fun z hz => hnl z (by simp [hz]))]
      rfl

theorem fLines_mem {s x : JStr} (h : x ∈ fLines s) :
    x ≠ [] ∧ jsTrim x = x ∧ '\n' ∉ x := by
  simp only [fLines, List.mem_filter, List.mem_map] at h
  obtain ⟨⟨y, hy, hxy⟩, hne⟩ := h
  subst hxy
  refine ⟨by simpa using hne, jsTrim_idem y, ?_⟩
  intro hmem
  exact splitOnC_pieces_not_mem '\n' s y hy (jsTrim_mem hmem)

theorem dedupFirstAux_sub : ∀ (l seen : List JStr) (x : JStr),
    x ∈ dedupFirstAux seen l → x ∈ l := by
  intro l
  induction l with
  | nil => intro seen x h; simp [dedupFirstAux] at h
  | cons y rest ih =>
    intro seen x h
    simp only [dedupFirstAux] at h
    split at h
    · exact List.mem_cons_of_mem y (ih seen x h)
    · rcases List.mem_cons.mp h with h1 | h1
      · simp [h1]
      · exact List.mem_cons_of_mem y (ih (y :: seen) x h1)

theorem dedupFirst_sub {l : List JStr} {x : JStr} (h : x ∈ dedupFirst l) : x ∈ l :=
  dedupFirstAux_sub l [] x h

theorem keysOkFields_split {ms : List (JStr × JVal)} (h : keysOkFields ms = true) :
    valsOk ms = true ∧ fieldsKeysDistinct ms = true := by
  induction ms with
  | nil => exact ⟨rfl, rfl⟩
  | cons kv rest ih =>
    obtain ⟨k, v⟩ := kv
    simp only [keysOkFields, Bool.and_eq_true] at h
    obtain ⟨ih1, ih2⟩ := ih h.2
    exact ⟨by simp [valsOk, h.1.2, ih1], by simp [fieldsKeysDistinct, h.1.1, ih2]⟩

theorem objLookup_objSet_self (l : List (JStr × JVal)) (k : JStr) (v : JVal) :
    objLookup (objSet l k v) k = some v := by
  induction l with
  | nil => simp [objSet, objLookup]
  | cons kv rest ih =>
    obtain ⟨k0, v0⟩ := kv
    by_cases hk : k0 = k
    · simp [objSet, hk, objLookup]
    · simp [objSet, hk, objLookup, ih]

theorem objLookup_renormFields (cn : JStr → JStr) (l : List (JStr × JVal)) (k : JStr) :
    objLookup (renormFields cn l) k = (objLookup l k).map (renorm cn) := by
  induction l with
  | nil => rfl
  | cons kv rest ih =>
    obtain ⟨k0, v0⟩ := kv
    by_cases hk : k0 = k
    · simp [renormFields, objLookup, hk]
    · simp [renormFields, objLookup, hk, ih]

theorem inv_parse {cn : JStr → JStr} (hcn : CnOk cn) {s : JStr} {v : JVal}
    (h : jsonParse cn s = some v) : numsOk cn v = true ∧ keysOk v = true := by
  unfold jsonParse at h
  split at h
  · rename_i v1 r hp
    split at h
    · obtain hv := Option.some.injEq .. ▸ h
      subst hv
      exact inv_val cn hcn _ _ _ _ hp
    · exact Option.noConfusion h
  · exact Option.noConfusion h

theorem stringify_not_bom {cn : JStr → JStr} {v : JVal} (hnum : numsOk cn v = true) :
    ∀ c0, (stringifyJVal v).head? = some c0 → c0 ≠ '﻿' := by
  intro c0 hc0
  cases v with
  | jnull => simp [stringifyJVal] at hc0; subst hc0; decide
  | jbool b => cases b <;> (simp [stringifyJVal] at hc0; subst hc0; decide)
  | jstr s => simp [stringifyJVal, quoteJStr] at hc0; subst hc0; decide
  | jarr es => simp [stringifyJVal] at hc0; subst hc0; decide
  | jobj ms => simp [stringifyJVal] at hc0; subst hc0; decide
  | jnum t =>
    simp only [numsOk, Bool.or_eq_true, Bool.and_eq_true, beq_iff_eq] at hnum
    rcases hnum with ⟨htok, -⟩ | hnull
    · obtain ⟨c, t1, hteq, hc⟩ := numTok_head htok
      rw [show stringifyJVal (.jnum t) = t from rfl, hteq] at hc0
      simp only [List.head?_cons, Option.some.injEq] at hc0
      rw [← hc0]
      rcases hc with hc | hc
      · subst hc; decide
      · have h09 : '0' ≤ c ∧ c ≤ '9' := by simpa [isDigitChar] using hc
        intro hb; subst hb; exact absurd h09 (by decide)
    · subst hnull
      simp [stringifyJVal, js] at hc0
      subst hc0; decide

theorem decode_encode_vmess {cn : JStr → JStr} {v : JVal}
    (hnum : numsOk cn v = true) (hkeys : keysOk v = true) :
    decodeVmessPayload cn (btoaBytes (utf8Encode (stringifyJVal v)))
      = some (renorm cn v) := by
  unfold decodeVmessPayload
  rw [atobBytes_btoaBytes _ (utf8Encode_lt _)]
  show jsonParse cn (textDecodeUtf8 (utf8Encode (stringifyJVal v))) = some (renorm cn v)
  rw [textDecode_utf8Encode _ (stringify_not_bom hnum)]
  exact jsonParse_stringify cn v hnum hkeys

theorem encode_drop8 (x : List Char) : (js "vmess://" ++ x).drop 8 = x := rfl

theorem encodeVmess_startsWith (v : JVal) :
    jsStartsWith (encodeVmessPayload v) (js "vmess://") = true :=
  jsStartsWith_refl_append (js "vmess://") _

theorem jsStartsWith_self (p : JStr) : jsStartsWith p p = true := by
  have h := jsStartsWith_refl_append p []
  rwa [List.append_nil] at h

theorem startsWith_append_of {s p : JStr} (h : jsStartsWith s p = true) (x : JStr) :
    jsStartsWith (s ++ x) p = true := by
  induction p generalizing s with
  | nil => exact jsStartsWith_nil_right _
  | cons d p1 ih =>
    cases s with
    | nil => exact absurd h (by simp [jsStartsWith])
    | cons c s1 =>
      simp only [jsStartsWith, Bool.and_eq_true, decide_eq_true_eq] at h
      simp [jsStartsWith, h.1, ih h.2]

theorem startsWith_ex_append {s p : JStr} (h : jsStartsWith s p = true) :
    ∃ x, s = p ++ x := by
  induction p generalizing s with
  | nil => exact ⟨s, rfl⟩
  | cons d p1 ih =>
    cases s with
    | nil => exact absurd h (by simp [jsStartsWith])
    | cons c s1 =>
      simp only [jsStartsWith, Bool.and_eq_true, decide_eq_true_eq] at h
      obtain ⟨x, hx⟩ := ih h.2
      exact ⟨x, by simp [h.1, hx]⟩

theorem startsWith_append_hash {p : JStr} (hnp : '#' ∉ p) :
    ∀ {link : JStr}, jsStartsWith link p = false → ∀ t,
    jsStartsWith (link ++ '#' :: t) p = false := by
  induction p with
  | nil => intro link h t; exact absurd (jsStartsWith_nil_right link) (by simp [h])
  | cons d p1 ih =>
    intro link h t
    have hd : d ≠ '#' := fun he => hnp (by simp [he])
    cases link with
    | nil =>
      simp only [List.nil_append, jsStartsWith, Bool.and_eq_false_iff]
      left
      simp [Ne.symm hd]
    | cons c l1 =>
      simp only [jsStartsWith, Bool.and_eq_false_iff] at h
      rcases h with h | h
      · simp only [List.cons_append, jsStartsWith, h, Bool.false_and]
      · simp only [List.cons_append, jsStartsWith, Bool.and_eq_false_iff]
        right
        exact ih (fun hm => hnp (by simp [hm])) h t

theorem lastSplit_startsWith {p link base frag : JStr}
    (h : jsStartsWith link p = true) (hnp : '#' ∉ p)
    (hls : lastSplit '#' link = some (base, frag)) :
    jsStartsWith base p = true := by
  induction p generalizing link base frag with
  | nil => exact jsStartsWith_nil_right base
  | cons d p1 ih =>
    cases link with
    | nil => exact absurd h (by simp [jsStartsWith])
    | cons c l1 =>
      simp only [jsStartsWith, Bool.and_eq_true, decide_eq_true_eq] at h
      simp only [lastSplit] at hls
      cases hrec : lastSplit '#' l1 with
      | some q =>
        rw [hrec] at hls
        simp only [Option.some.injEq, Prod.mk.injEq] at hls
        obtain ⟨hb, -⟩ := hls
        rw [← hb]
        simp only [jsStartsWith, Bool.and_eq_true, decide_eq_true_eq]
        exact ⟨h.1, ih h.2 (fun hm => hnp (by simp [hm])) (by rw [hrec])⟩
      | none =>
        rw [hrec] at hls
        have hcd : c = '#' := by
          by_contra hcne
          rw [if_neg hcne] at hls
          exact Option.noConfusion hls
        rw [h.1] at hcd
        exact absurd (by simp [hcd] : '#' ∈ d :: p1) hnp

theorem vm_no_hash : '#' ∉ js "vmess://" := by decide

theorem atob_hash_none {s : JStr} (h : '#' ∈ s) : atobBytes s = none :=
  atobBytes_none_of_bad h (by decide) (by decide) (by decide)

theorem jsStartsWith_nil_left {pfx : JStr} (hp : pfx ≠ []) :
    jsStartsWith [] pfx = false := by
  cases pfx with
  | nil => exact absurd rfl hp
  | cons c p => rfl

theorem appendToFragment_enc (base newName pfx : JStr)
    (hsw : jsStartsWith newName pfx = true) :
    appendToFragment (base ++ '#' :: encodeURIComponent newName) pfx
      = some (base ++ '#' :: encodeURIComponent newName) := by
  unfold appendToFragment
  rw [lastSplit_append (encURI_not_hash newName) base]
  simp [decURI_encodeURIComponent, hsw]

theorem appendToFragment_some {link pfx res : JStr} (hp : pfx ≠ [])
    (h : appendToFragment link pfx = some res) :
    appendToFragment res pfx = some res ∧
    (res = link ∨ ∃ base newName,
      res = base ++ '#' :: encodeURIComponent newName ∧
      (base = link ∧ '#' ∉ link ∨ ∃ frag, lastSplit '#' link = some (base, frag))) := by
  unfold appendToFragment at h
  cases hls : lastSplit '#' link with
  | none =>
    rw [hls] at h
    dsimp only at h
    rw [jsStartsWith_nil_left hp] at h
    simp only [Bool.false_eq_true, if_false, Option.some.injEq] at h
    subst h
    exact ⟨appendToFragment_enc link pfx pfx (jsStartsWith_self pfx),
      Or.inr ⟨link, pfx, rfl, Or.inl ⟨rfl, lastSplit_eq_none.mp hls⟩⟩⟩
  | some bf =>
    obtain ⟨base, frag⟩ := bf
    rw [hls] at h
    dsimp only at h
    cases hdec : decodeURIComponentOpt frag with
    | none => rw [hdec] at h; exact Option.noConfusion h
    | some name =>
      rw [hdec] at h
      simp only [Option.map_some', Option.some.injEq] at h
      by_cases hsw : jsStartsWith name pfx = true
      · rw [if_pos hsw] at h
        subst h
        constructor
        · unfold appendToFragment
          rw [hls]
          dsimp only
          rw [hdec]
          simp [hsw]
        · exact Or.inl rfl
      · rw [if_neg hsw] at h
        subst h
        have hnn : jsStartsWith
            (if name.isEmpty = true then pfx else pfx ++ js " - " ++ name) pfx = true := by
          by_cases hne : name.isEmpty = true
          · simp [hne, jsStartsWith_self]
          · simp only [hne, Bool.false_eq_true, if_false]
            rw [List.append_assoc]
            exact jsStartsWith_refl_append pfx _
        exact ⟨appendToFragment_enc base _ pfx hnn,
          Or.inr ⟨base, _, rfl, Or.inr ⟨frag, rfl⟩⟩⟩

theorem psString_some {pv : Option JVal} {s : JStr} (h : psString pv = some s)
    (hs : s ≠ []) : pv = some (.jstr s) ∧ s.isEmpty = false := by
  cases pv with
  | none =>
    simp only [psString, Option.some.injEq] at h
    exact absurd h.symm hs
  | some v =>
    simp only [psString] at h
    split at h
    · simp only [Option.some.injEq] at h
      exact absurd h.symm hs
    · rename_i hfal
      cases v with
      | jstr s0 =>
        simp only [Option.some.injEq] at h
        subst h
        refine ⟨rfl, ?_⟩
        simpa [jsFalsyJV] using hfal
      | jnull => exact Option.noConfusion h
      | jbool b => exact Option.noConfusion h
      | jnum t => exact Option.noConfusion h
      | jarr es => exact Option.noConfusion h
      | jobj ms => exact Option.noConfusion h

theorem encodeVmess_renorm {cn : JStr → JStr} {v : JVal} (hnum : numsOk cn v = true) :
    encodeVmessPayload (renorm cn v) = encodeVmessPayload v := by
  unfold encodeVmessPayload
  rw [stringify_renorm cn v hnum]

theorem prependVmessBody_hash_none (cn : JStr → JStr) {res : JStr} (pfx : JStr)
    (hsh : '#' ∈ res.drop 8) : prependVmessBody cn res pfx = none := by
  unfold prependVmessBody decodeVmessPayload
  rw [atob_hash_none hsh]
  rfl

theorem decodeVmess_inv {cn : JStr → JStr} (hcn : CnOk cn) {s : JStr} {v : JVal}
    (h : decodeVmessPayload cn s = some v) : numsOk cn v = true ∧ keysOk v = true := by
  unfold decodeVmessPayload at h
  cases ha : atobBytes s with
  | none => rw [ha] at h; exact Option.noConfusion h
  | some bs =>
    rw [ha] at h
    exact inv_parse hcn h

theorem prependVmessBody_some {cn : JStr → JStr} (hcn : CnOk cn)
    {link pfx res : JStr} (hp : pfx ≠ [])
    (h : prependVmessBody cn link pfx = some res) :
    ∃ v2, res = encodeVmessPayload v2 ∧ numsOk cn v2 = true ∧ keysOk v2 = true ∧
      ((∃ F s, v2 = .jobj F ∧ objLookup F (js "ps") = some (.jstr s) ∧
        s.isEmpty = false ∧ jsStartsWith s pfx = true) ∨ ∃ es, v2 = .jarr es) := by
  unfold prependVmessBody at h
  cases hd : decodeVmessPayload cn (link.drop 8) with
  | none => rw [hd] at h; exact Option.noConfusion h
  | some nodeConfig =>
    rw [hd] at h
    obtain ⟨hn0, hk0⟩ := decodeVmess_inv hcn hd
    cases nodeConfig with
    | jnull => exact Option.noConfusion h
    | jbool b =>
      simp only [Option.some_bind] at h
      rw [jsStartsWith_nil_left hp] at h
      exact absurd h (by simp)
    | jnum t =>
      simp only [Option.some_bind] at h
      rw [jsStartsWith_nil_left hp] at h
      exact absurd h (by simp)
    | jstr s =>
      simp only [Option.some_bind] at h
      rw [jsStartsWith_nil_left hp] at h
      exact absurd h (by simp)
    | jarr es =>
      simp only [Option.some_bind, Option.some.injEq] at h
      exact ⟨.jarr es, h.symm, hn0, hk0, Or.inr ⟨es, rfl⟩⟩
    | jobj fields =>
      simp only [Option.some_bind] at h
      rw [Option.map_eq_some'] at h
      obtain ⟨originalPs, hps, hres⟩ := h
      by_cases hsw : jsStartsWith originalPs pfx = true
      · rw [if_pos hsw] at hres
        have hone : originalPs ≠ [] := jsStartsWith_ne_nil hp hsw
        obtain ⟨hpv, hfal⟩ := psString_some hps hone
        exact ⟨.jobj fields, hres.symm, hn0, hk0,
          Or.inl ⟨fields, originalPs, rfl, hpv, hfal, hsw⟩⟩
      · rw [if_neg hsw] at hres
        have hnF : numsOkFields cn fields = true := by simpa [numsOk] using hn0
        have hkF : keysOkFields fields = true := by simpa [keysOk] using hk0
        obtain ⟨hvF, hdF⟩ := keysOkFields_split hkF
        obtain ⟨a1, b1, c1⟩ := objSet_invs cn (js "ps")
          (.jstr (if originalPs.isEmpty then pfx else pfx ++ js " - " ++ originalPs))
          hnF hvF hdF rfl rfl
        have hnn : jsStartsWith
            (if originalPs.isEmpty = true then pfx
             else pfx ++ js " - " ++ originalPs) pfx = true := by
          by_cases hne : originalPs.isEmpty = true
          · simp [hne, jsStartsWith_self]
          · simp only [hne, Bool.false_eq_true, if_false]
            rw [List.append_assoc]
            exact jsStartsWith_refl_append pfx _
        have hne2 : (if originalPs.isEmpty = true then pfx
            else pfx ++ js " - " ++ originalPs).isEmpty = false := by
          have := jsStartsWith_ne_nil hp hnn
          cases he : (if originalPs.isEmpty = true then pfx
            else pfx ++ js " - " ++ originalPs) with
          | nil => exact absurd he this
          | cons a b => rfl
        refine ⟨_, hres.symm, by simpa [numsOk] using a1,
          by simpa [keysOk] using keysOkFields_of b1 c1, Or.inl ⟨_, _, rfl, ?_, hne2, hnn⟩⟩
        exact objLookup_objSet_self fields (js "ps") _

theorem prependVmessBody_again {cn : JStr → JStr} {pfx : JStr}
    {v2 : JVal} (hnum : numsOk cn v2 = true) (hkeys : keysOk v2 = true)
    (hok : (∃ F s, v2 = .jobj F ∧ objLookup F (js "ps") = some (.jstr s) ∧
      s.isEmpty = false ∧ jsStartsWith s pfx = true) ∨ ∃ es, v2 = .jarr es) :
    prependVmessBody cn (encodeVmessPayload v2) pfx = some (encodeVmessPayload v2) := by
  unfold prependVmessBody
  rw [show (encodeVmessPayload v2).drop 8
    = btoaBytes (utf8Encode (stringifyJVal v2)) from rfl,
    decode_encode_vmess hnum hkeys]
  rcases hok with ⟨F, s, hv2, hlook, hemp, hsw⟩ | ⟨es, hv2⟩
  · subst hv2
    show (psString (objLookup (renormFields cn F) (js "ps"))).map _
      = some (encodeVmessPayload (.jobj F))
    rw [objLookup_renormFields, hlook]
    rw [show (some (JVal.jstr s)).map (renorm cn) = some (JVal.jstr s) from rfl]
    rw [show psString (some (JVal.jstr s)) = some s from by
      simp [psString, jsFalsyJV, hemp]]
    simp only [Option.map_some', hsw, if_true]
    rw [show encodeVmessPayload (.jobj (renormFields cn F))
      = encodeVmessPayload (.jobj F) from encodeVmess_renorm hnum]
  · subst hv2
    show some (encodeVmessPayload (.jarr (renormList cn es)))
      = some (encodeVmessPayload (.jarr es))
    rw [show encodeVmessPayload (.jarr (renormList cn es))
      = encodeVmessPayload (.jarr es) from encodeVmess_renorm hnum]

theorem lastSplit_eq {d : Char} : ∀ {s a b : JStr}, lastSplit d s = some (a, b) →
    s = a ++ d :: b := by
  intro s
  induction s with
  | nil => intro a b h; exact Option.noConfusion h
  | cons c rest ih =>
    intro a b h
    simp only [lastSplit] at h
    cases hr : lastSplit d rest with
    | some p =>
      obtain ⟨p1, p2⟩ := p
      rw [hr] at h
      simp only [Option.some.injEq, Prod.mk.injEq] at h
      obtain ⟨ha, hb⟩ := h
      rw [← ha, ← hb, List.cons_append]
      exact congrArg (fun t => c :: t) (ih hr)
    | none =>
      rw [hr] at h
      by_cases hc : c = d
      · rw [if_pos hc] at h
        simp only [Option.some.injEq, Prod.mk.injEq] at h
        obtain ⟨ha, hb⟩ := h
        rw [← ha, ← hb, hc]
        rfl
      · rw [if_neg hc] at h
        exact Option.noConfusion h

theorem isEmpty_false_of_ne_nil {α : Type} {l : List α} (hp : l ≠ []) :
    l.isEmpty = false := by
  cases l with
  | nil => exact absurd rfl hp
  | cons c p => rfl

theorem prependNodeName_stable {cn : JStr → JStr} (hcn : CnOk cn)
    {link pfx res : JStr} (hp : pfx ≠ [])
    (h : prependNodeName cn link pfx = some res) :
    prependNodeName cn res pfx = some res := by
  have hpe : pfx.isEmpty = false := isEmpty_false_of_ne_nil hp
  unfold prependNodeName at h
  rw [hpe] at h
  simp only [Bool.false_eq_true, if_false] at h
  by_cases hv : jsStartsWith link (js "vmess://") = true
  · rw [if_pos hv] at h
    cases hb : prependVmessBody cn link pfx with
    | some r0 =>
      rw [hb] at h
      simp only [Option.some.injEq] at h
      subst h
      obtain ⟨v2, hv2, hn2, hk2, hok⟩ := prependVmessBody_some hcn hp hb
      subst hv2
      unfold prependNodeName
      rw [hpe]
      simp only [Bool.false_eq_true, if_false, encodeVmess_startsWith, if_true,
        prependVmessBody_again hn2 hk2 hok]
    | none =>
      rw [hb] at h
      dsimp only at h
      obtain ⟨hres_fix, hcases⟩ := appendToFragment_some hp h
      rcases hcases with rfl | ⟨base, newName, rfl, hbc⟩
      · unfold prependNodeName
        rw [hpe]
        simp only [Bool.false_eq_true, if_false, hv, if_true, hb]
        exact h
      · have hvmbase : jsStartsWith base (js "vmess://") = true := by
          rcases hbc with ⟨rfl, -⟩ | ⟨frag, hls⟩
          · exact hv
          · exact lastSplit_startsWith hv vm_no_hash hls
        obtain ⟨base', rfl⟩ := startsWith_ex_append hvmbase
        have hres_vm : jsStartsWith
            ((js "vmess://" ++ base') ++ '#' :: encodeURIComponent newName)
            (js "vmess://") = true := startsWith_append_of hvmbase _
        have hsh : '#' ∈
            ((js "vmess://" ++ base') ++ '#' :: encodeURIComponent newName).drop 8 := by
          rw [List.append_assoc, encode_drop8]
          simp
        unfold prependNodeName
        rw [hpe]
        simp only [Bool.false_eq_true, if_false, hres_vm, if_true,
          prependVmessBody_hash_none cn pfx hsh]
        exact hres_fix
  · have hv2 : jsStartsWith link (js "vmess://") = false := by simpa using hv
    rw [hv2] at h
    simp only [Bool.false_eq_true, if_false] at h
    obtain ⟨hres_fix, hcases⟩ := appendToFragment_some hp h
    rcases hcases with rfl | ⟨base, newName, rfl, hbc⟩
    · unfold prependNodeName
      rw [hpe, hv2]
      simp only [Bool.false_eq_true, if_false]
      exact h
    · have hvmbase : jsStartsWith base (js "vmess://") = false := by
        rcases hbc with ⟨rfl, -⟩ | ⟨frag, hls⟩
        · exact hv2
        · by_contra hbt
          have hbt2 : jsStartsWith base (js "vmess://") = true := by simpa using hbt
          have := startsWith_append_of hbt2 ('#' :: frag)
          rw [← lastSplit_eq hls] at this
          rw [this] at hv2
          exact Bool.noConfusion hv2
      have hres_nvm := startsWith_append_hash vm_no_hash hvmbase (encodeURIComponent newName)
      unfold prependNodeName
      rw [hpe, hres_nvm]
      simp only [Bool.false_eq_true, if_false]
      exact hres_fix

/-- A concrete number canonicalizer for the witnesses: every token maps to
the canonical zero token. -/
def cn0 : JStr → JStr := fun _ => js "0"

theorem cn0_ok : CnOk cn0 := by
  intro t
  left
  constructor
  · show isNumTok (js "0") = true
    decide
  · rfl

theorem parsePathSegs_ne_nil {pathname x : JStr} (h : x ∈ parsePathSegs pathname) :
    x ≠ [] := by
  unfold parsePathSegs at h
  rw [List.mem_filter] at h
  intro he
  rw [he] at h
  exact absurd h.2 (by decide)

theorem b64_not_jsWs {c : Char} (h : isB64TestChar c = true) : isJsWs c = false := by
  simp only [isB64TestChar, isB64AlphaChar, Bool.or_eq_true, Bool.and_eq_true,
    decide_eq_true_eq] at h
  rcases h with ((((h | h) | h) | h) | h) | h
  · unfold isJsWs
    simp only [Bool.or_eq_false_iff, Bool.and_eq_false_iff, decide_eq_false_iff_not,
      not_le]
    omega
  · unfold isJsWs
    simp only [Bool.or_eq_false_iff, Bool.and_eq_false_iff, decide_eq_false_iff_not,
      not_le]
    omega
  · unfold isJsWs
    simp only [Bool.or_eq_false_iff, Bool.and_eq_false_iff, decide_eq_false_iff_not,
      not_le]
    omega
  · subst h; decide
  · subst h; decide
  · subst h; decide

/-! ### Claim theorems -/

/-- C8: for every node line and non-empty prefix, applying the name prefixer
twice equals applying it once (composition in the exception monad), and a
line of a fragment scheme whose decoded display name already starts with the
prefix is returned unchanged. -/
theorem claim_C8 (cn : JStr → JStr) (hcn : CnOk cn) (link pfx : JStr)
    (hp : pfx ≠ []) :
    (prependNodeName cn link pfx).bind (fun l2 => prependNodeName cn l2 pfx)
      = prependNodeName cn link pfx
    ∧ (∀ base frag name, jsStartsWith link (js "vmess://") = false →
        lastSplit '#' link = some (base, frag) →
        decodeURIComponentOpt frag = some name →
        jsStartsWith name pfx = true →
        prependNodeName cn link pfx = some link) := by
  constructor
  · cases h : prependNodeName cn link pfx with
    | none => rfl
    | some res =>
      simp only [Option.some_bind]
      exact prependNodeName_stable hcn hp h
  · intro base frag name hnv hls hdec hsw
    unfold prependNodeName
    rw [isEmpty_false_of_ne_nil hp, hnv]
    simp only [Bool.false_eq_true, if_false]
    unfold appendToFragment
    rw [hls]
    dsimp only
    rw [hdec]
    simp [hsw]

/-- Witness for C8 at a concrete line and prefix. -/
theorem claim_C8_witness :
    CnOk cn0 ∧ js "p" ≠ [] ∧
    ((prependNodeName cn0 (js "trojan://h") (js "p")).bind
        (fun l2 => prependNodeName cn0 l2 (js "p"))
      = prependNodeName cn0 (js "trojan://h") (js "p")) := by
  have hp : js "p" ≠ [] := by decide
  exact ⟨cn0_ok, hp, (claim_C8 cn0 cn0_ok (js "trojan://h") (js "p") hp).1⟩

/-- C9: normalisation of an encoded vmess node is idempotent, and on every
line of any other scheme it is the identity. -/
theorem claim_C9 (cn : JStr → JStr) (hcn : CnOk cn) (link : JStr) :
    normalizeVmessLink cn (normalizeVmessLink cn link) = normalizeVmessLink cn link
    ∧ (jsStartsWith link (js "vmess://") = false →
        normalizeVmessLink cn link = link) := by
  constructor
  · by_cases hv : jsStartsWith link (js "vmess://") = true
    · cases hd : decodeVmessPayload cn (link.drop 8) with
      | none =>
        have h1 : normalizeVmessLink cn link = link := by
          unfold normalizeVmessLink
          rw [hv, hd]
          simp
        rw [h1, h1]
      | some v =>
        obtain ⟨hn1, hk1⟩ := decodeVmess_inv hcn hd
        have h1 : normalizeVmessLink cn link = encodeVmessPayload v := by
          unfold normalizeVmessLink
          rw [hv, hd]
          simp
        rw [h1]
        unfold normalizeVmessLink
        rw [encodeVmess_startsWith v]
        rw [show (encodeVmessPayload v).drop 8
          = btoaBytes (utf8Encode (stringifyJVal v)) from rfl,
          decode_encode_vmess hn1 hk1]
        simp only [if_true]
        exact encodeVmess_renorm hn1
    · have hv2 : jsStartsWith link (js "vmess://") = false := by simpa using hv
      have h1 : normalizeVmessLink cn link = link := by
        unfold normalizeVmessLink
        rw [hv2]
        simp
      rw [h1, h1]
  · intro hv
    unfold normalizeVmessLink
    rw [hv]
    simp

/-- Witness for C9 at a concrete canonicalizer and line. -/
theorem claim_C9_witness :
    CnOk cn0 ∧
    normalizeVmessLink cn0 (normalizeVmessLink cn0 (js "trojan://h"))
      = normalizeVmessLink cn0 (js "trojan://h") :=
  ⟨cn0_ok, (claim_C9 cn0 cn0_ok (js "trojan://h")).1⟩

/-- C6 (amended): the name prefixer cannot raise past the call UNLESS the
fragment fallback's own percent-decoding fails: whenever the fragment of the
line (if any) percent-decodes, the call returns a value. The original claim,
that no decode failure ever raises past the call, is refuted by the
counterexample below: the fallback's `decodeURIComponent` sits outside every
`try`. -/
theorem claim_C6 (cn : JStr → JStr) (link pfx : JStr)
    (hfrag : ∀ base frag, lastSplit '#' link = some (base, frag) →
      decodeURIComponentOpt frag ≠ none) :
    prependNodeName cn link pfx ≠ none := by
  unfold prependNodeName
  by_cases hpe : pfx.isEmpty = true
  · simp [hpe]
  · rw [if_neg hpe]
    have happ : appendToFragment link pfx ≠ none := by
      unfold appendToFragment
      cases hls : lastSplit '#' link with
      | none =>
        dsimp only
        split <;> simp
      | some bf =>
        obtain ⟨base, frag⟩ := bf
        dsimp only
        cases hdec : decodeURIComponentOpt frag with
        | none => exact absurd hdec (hfrag base frag hls)
        | some name => simp
    split
    · split
      · simp
      · exact happ
    · exact happ

/-- Witness for C6 at a concrete line with no fragment. -/
theorem claim_C6_witness :
    prependNodeName cn0 (js "trojan://h") (js "p") ≠ none :=
  claim_C6 cn0 (js "trojan://h") (js "p") (by
    intro base frag h
    rw [show lastSplit '#' (js "trojan://h") = none from by decide] at h
    exact Option.noConfusion h)

/-- Counterexample to C6 as stated: a non-vmess line whose fragment is a lone
percent sign makes the fallback's unguarded `decodeURIComponent` throw, and
the exception propagates out of the call. -/
theorem claim_C6_counterexample :
    prependNodeName cn0 (js "ss://a#%") (js "p") = none := by
  have hdec : decodeURIComponentOpt ['%'] = none := by
    rw [decodeURIComponentOpt.eq_def]
    rfl
  show appendToFragment (js "ss://a#%") (js "p") = none
  unfold appendToFragment
  rw [show lastSplit '#' (js "ss://a#%") = some (js "ss://a", js "%") from rfl]
  dsimp only
  rw [show (js "%") = ['%'] from rfl, hdec]
  rfl

/-- C3: with a profile identifier in the path, a token different from the
configured profile token yields the 403 error; with the correct token, an
unmatched identifier or a disabled matching profile yields the 404 error,
and an enabled match resolves to its profile scope. -/
theorem claim_C3 (cfg : Config) (profiles : List Profile) (pathname : JStr)
    (qt : Option JStr) (t pid : JStr) (rest : List JStr)
    (hsegs : parsePathSegs pathname = t :: pid :: rest) :
    (t ≠ cfg.profileToken → resolveScope cfg profiles pathname qt = .err403) ∧
    (t = cfg.profileToken →
      ((profiles.find? (profMatches pid) = none →
          resolveScope cfg profiles pathname qt = .err404) ∧
       (∀ p, profiles.find? (profMatches pid) = some p → p.enabled = false →
          resolveScope cfg profiles pathname qt = .err404) ∧
       (∀ p, profiles.find? (profMatches pid) = some p → p.enabled = true →
          resolveScope cfg profiles pathname qt = .okProfile p))) := by
  have htne : t ≠ [] := parsePathSegs_ne_nil (by rw [hsegs]; simp)
  have hrs : resolveScope cfg profiles pathname qt
      = (if tokenOk (some t) cfg.profileToken = true then
          match profiles.find? (profMatches pid) with
          | some p => if p.enabled = true then .okProfile p else .err404
          | none => .err404
        else .err403) := by
    unfold resolveScope
    rw [hsegs]
  constructor
  · intro hne
    rw [hrs, if_neg]
    simp only [tokenOk, Bool.and_eq_true, beq_iff_eq, not_and]
    intro _
    exact hne
  · intro heq
    have htne2 : cfg.profileToken ≠ [] := heq ▸ htne
    have htok : tokenOk (some t) cfg.profileToken = true := by
      simp [tokenOk, isEmpty_false_of_ne_nil htne2, heq]
    refine ⟨?_, ?_, ?_⟩
    · intro hf
      rw [hrs, if_pos htok, hf]
    · intro p hf hdis
      rw [hrs, if_pos htok, hf]
      simp [hdis]
    · intro p hf hen
      rw [hrs, if_pos htok, hf]
      simp [hen]

/-- Witness for C3 at a concrete path with the default profile token and an
empty profile list. -/
theorem claim_C3_witness :
    parsePathSegs (js "/profiles/abc") = [js "profiles", js "abc"] ∧
    resolveScope defaultConfig [] (js "/profiles/abc") none = .err404 := by
  have hsegs : parsePathSegs (js "/profiles/abc")
      = js "profiles" :: js "abc" :: [] := by decide
  exact ⟨hsegs, ((claim_C3 defaultConfig [] (js "/profiles/abc") none
    (js "profiles") (js "abc") [] hsegs).2 rfl).1 rfl⟩

/-- C5: a body that is the base64 encoding of UTF-8 text and is longer than
twenty characters decodes back to that text, and a body whose compacted copy
fails the length or alphabet test is passed through unchanged. -/
theorem claim_C5 :
    (∀ s : JStr, 20 < (btoaBytes (utf8Encode s)).length →
      (∀ c0, s.head? = some c0 → c0 ≠ '﻿') →
      decodeSubBody (btoaBytes (utf8Encode s)) = s) ∧
    (∀ body : JStr,
      (body.filter (fun c => !isJsWs c)).length ≤ 20 ∨
        (body.filter (fun c => !isJsWs c)).all isB64TestChar = false →
      decodeSubBody body = body) := by
  constructor
  · intro s hlen hbom
    have hmem : ∀ c ∈ btoaBytes (utf8Encode s), isB64TestChar c = true := by
      intro c hc
      rcases btoaBytes_mem (utf8Encode s) (utf8Encode_lt s) c hc with h | h
      · simp [isB64TestChar, h]
      · simp [isB64TestChar, h]
    have hfil : (btoaBytes (utf8Encode s)).filter (fun c => !isJsWs c)
        = btoaBytes (utf8Encode s) := by
      rw [List.filter_eq_self]
      intro c hc
      simp [b64_not_jsWs (hmem c hc)]
    unfold decodeSubBody
    rw [hfil, if_pos]
    · rw [atobBytes_btoaBytes _ (utf8Encode_lt s)]
      exact textDecode_utf8Encode s hbom
    · simp only [Bool.and_eq_true, decide_eq_true_eq, List.all_eq_true]
      exact ⟨hlen, hmem⟩
  · intro body hcond
    unfold decodeSubBody
    rw [if_neg]
    simp only [Bool.and_eq_true, decide_eq_true_eq, not_and]
    intro hlen
    rcases hcond with h | h
    · omega
    · intro hall
      rw [hall] at h
      exact Bool.noConfusion h

/-- Witness for C5: a concrete long base64 body decodes back, and a concrete
short body passes through. -/
theorem claim_C5_witness :
    (20 < (btoaBytes (utf8Encode (js "aaaaaaaaaaaaaaaaaa"))).length ∧
      decodeSubBody (btoaBytes (utf8Encode (js "aaaaaaaaaaaaaaaaaa")))
        = js "aaaaaaaaaaaaaaaaaa") ∧
    ((js "hi").filter (fun c => !isJsWs c) = js "hi" ∧
      decodeSubBody (js "hi") = js "hi") := by
  refine ⟨⟨by decide, claim_C5.1 (js "aaaaaaaaaaaaaaaaaa") (by decide) ?_⟩,
    by decide, claim_C5.2 (js "hi") (Or.inl (by decide))⟩
  intro c0 h
  rw [show (js "aaaaaaaaaaaaaaaaaa").head? = some 'a' from rfl] at h
  simp only [Option.some.injEq] at h
  rw [← h]
  decide

theorem ruleLines_nil_of_trim {ex : JStr} (h : jsTrim ex = []) : ruleLines ex = [] := by
  unfold ruleLines
  rw [h]
  rfl

theorem trim_ne_nil_of_rules {ex : JStr} (h : ruleLines ex ≠ []) :
    (jsTrim ex).isEmpty = false := by
  cases he : jsTrim ex with
  | nil => exact absurd (ruleLines_nil_of_trim he) h
  | cons a b => rfl

theorem ex_ne_nil_of_rules {ex : JStr} (h : ruleLines ex ≠ []) : ex.isEmpty = false := by
  cases he : ex with
  | nil =>
    subst he
    exact absurd rfl h
  | cons a b => rfl

theorem applyExclude_keep (rc : JStr → Option (JStr → Bool)) (ex : JStr)
    (nodes : List JStr) (nr : Option (JStr → Bool))
    (hk : (ruleLines ex).filter isKeepRule ≠ [])
    (hrc : regexOf rc (keepNameParts ((ruleLines ex).filter isKeepRule)) = some nr) :
    applyExclude rc ex nodes = some (nodes.filter (fun link =>
      (keepProtoSet ((ruleLines ex).filter isKeepRule)).contains (protoOf link)
        || matchesName nr link)) := by
  have hrne : ruleLines ex ≠ [] := by
    intro he
    rw [he] at hk
    exact hk rfl
  simp only [applyExclude, ex_ne_nil_of_rules hrne, trim_ne_nil_of_rules hrne,
    Bool.or_self, Bool.false_eq_true, if_false, isEmpty_false_of_ne_nil hk, hrc,
    Option.map_some']

theorem applyExclude_deny (rc : JStr → Option (JStr → Bool)) (ex : JStr)
    (nodes : List JStr) (nr : Option (JStr → Bool))
    (hrne : ruleLines ex ≠ [])
    (hk : (ruleLines ex).filter isKeepRule = [])
    (hrc : regexOf rc (denyNameParts (ruleLines ex)) = some nr) :
    applyExclude rc ex nodes = some (nodes.filter (fun link =>
      !((denyProtoSet (ruleLines ex)).contains (protoOf link)
        || matchesName nr link))) := by
  simp only [applyExclude, ex_ne_nil_of_rules hrne, trim_ne_nil_of_rules hrne,
    Bool.or_self, Bool.false_eq_true, if_false, hk, List.isEmpty_nil, if_true, hrc,
    Option.map_some']

/-- C1 (amended): in allow-list mode the combined name regex is OR-joined
from the contents of the KEEP rules only — a non-keep rule contributes
neither a protocol nor a name pattern — and a line is kept exactly when its
lower-cased scheme is in the protocol-keep set or its decoded fragment name
matches that regex. The spec's reading, that all name rules feed the regex,
is refuted by the counterexample below. -/
theorem claim_C1 (rc : JStr → Option (JStr → Bool)) (ex : JStr)
    (nodes : List JStr) (nr : Option (JStr → Bool))
    (hk : (ruleLines ex).filter isKeepRule ≠ [])
    (hrc : regexOf rc (keepNameParts ((ruleLines ex).filter isKeepRule)) = some nr) :
    applyExclude rc ex nodes = some (nodes.filter (fun link =>
      (keepProtoSet ((ruleLines ex).filter isKeepRule)).contains (protoOf link)
        || matchesName nr link)) :=
  applyExclude_keep rc ex nodes nr hk hrc

/-- Witness for C1 at a concrete keep rule. -/
theorem claim_C1_witness :
    (ruleLines (js "keep:aaa")).filter isKeepRule ≠ [] ∧
    applyExclude litAltRc (js "keep:aaa") [js "ss://h"]
      = some ([js "ss://h"].filter (fun link =>
          (keepProtoSet ((ruleLines (js "keep:aaa")).filter isKeepRule)).contains
            (protoOf link)
          || matchesName (some (litAltTest (js "aaa"))) link)) :=
  ⟨by decide, claim_C1 litAltRc (js "keep:aaa") [js "ss://h"]
    (some (litAltTest (js "aaa"))) (by decide) rfl⟩

/-- Counterexample to C1 as stated: with the rules `keep:aaa` and `bbb`, the
source builds the allow regex from `aaa` alone and drops a trojan node named
`bbb`, while the spec's reading OR-joins `aaa|bbb` and keeps it. -/
theorem claim_C1_counterexample :
    applyExclude litAltRc (js "keep:aaa\nbbb") [js "trojan://h#bbb"] = some []
    ∧ specAllowFilter litAltRc (js "keep:aaa\nbbb") [js "trojan://h#bbb"]
      = some [js "trojan://h#bbb"] := by
  have hdec : decodeURIComponentOpt (js "bbb") = some (js "bbb") := by
    have h2 := decURI_encodeURIComponent (js "bbb")
    rwa [show encodeURIComponent (js "bbb") = js "bbb" from rfl] at h2
  have hls : lastSplit '#' (js "trojan://h#bbb")
      = some (js "trojan://h", js "bbb") := by decide
  have hproto : (keepProtoSet ((ruleLines (js "keep:aaa\nbbb")).filter
      isKeepRule)).contains (protoOf (js "trojan://h#bbb")) = false := by decide
  constructor
  · have hmn : matchesName (some (litAltTest (js "aaa"))) (js "trojan://h#bbb")
        = false := by
      unfold matchesName fragNameTest
      rw [hls]
      dsimp only
      rw [hdec]
      decide
    rw [applyExclude_keep litAltRc (js "keep:aaa\nbbb") [js "trojan://h#bbb"]
      (some (litAltTest (js "aaa"))) (by decide) rfl]
    simp only [List.filter_cons, List.filter_nil, hproto, hmn, Bool.or_self,
      Bool.false_eq_true, if_false]
  · have hmn : matchesName (some (litAltTest (js "aaa|bbb"))) (js "trojan://h#bbb")
        = true := by
      unfold matchesName fragNameTest
      rw [hls]
      dsimp only
      rw [hdec]
      decide
    simp only [specAllowFilter]
    rw [show regexOf litAltRc (specAllowNameParts (ruleLines (js "keep:aaa\nbbb")))
      = some (some (litAltTest (js "aaa|bbb"))) from rfl]
    have hproto2 : (keepProtoSet ((ruleLines (js "keep:aaa\nbbb")).filter
        isKeepRule)).contains (protoOf (js "trojan://h#bbb")) = false := hproto
    simp only [Option.map_some', Option.some.injEq, List.filter_cons, List.filter_nil,
      hproto2, hmn, Bool.or_true, if_true]

/-- C7: in deny-list mode — a non-empty rule set without keep rules — a line
is dropped exactly when its lower-cased scheme is in the protocol-exclude
set or its decoded fragment name matches the OR-joined regex; in particular,
the rule text of a bare protocol exclusion for the two shadowsocks schemes
removes exactly the lines of those two schemes. -/
theorem claim_C7 (rc : JStr → Option (JStr → Bool)) (nodes : List JStr) :
    (∀ ex nr, ruleLines ex ≠ [] →
      (ruleLines ex).filter isKeepRule = [] →
      regexOf rc (denyNameParts (ruleLines ex)) = some nr →
      applyExclude rc ex nodes = some (nodes.filter (fun link =>
        !((denyProtoSet (ruleLines ex)).contains (protoOf link)
          || matchesName nr link)))) ∧
    applyExclude rc (js "proto:ss,ssr") nodes
      = some (nodes.filter (fun link =>
          !(protoOf link == js "ss" || protoOf link == js "ssr"))) := by
  constructor
  · intro ex nr h1 h2 h3
    exact applyExclude_deny rc ex nodes nr h1 h2 h3
  · rw [applyExclude_deny rc (js "proto:ss,ssr") nodes none (by decide) (by decide) rfl]
    rw [List.filter_congr]
    intro x hx
    rw [show denyProtoSet (ruleLines (js "proto:ss,ssr"))
      = [js "ss", js "ssr"] from by decide]
    simp only [List.contains, List.elem, matchesName, Bool.or_false]
    cases protoOf x == js "ss" <;> cases protoOf x == js "ssr" <;> rfl

/-- Witness for C7 at a concrete deny rule set and node list. -/
theorem claim_C7_witness :
    ruleLines (js "proto:ss,ssr\nbad") ≠ [] ∧
    applyExclude litAltRc (js "proto:ss,ssr\nbad") [js "trojan://h"]
      = some ([js "trojan://h"].filter (fun link =>
          !((denyProtoSet (ruleLines (js "proto:ss,ssr\nbad"))).contains (protoOf link)
            || matchesName (some (litAltTest (js "bad"))) link))) ∧
    applyExclude litAltRc (js "proto:ss,ssr") [js "ss://h", js "trojan://h"]
      = some ([js "ss://h", js "trojan://h"].filter (fun link =>
          !(protoOf link == js "ss" || protoOf link == js "ssr"))) :=
  ⟨by decide,
    (claim_C7 litAltRc [js "trojan://h"]).1 (js "proto:ss,ssr\nbad")
      (some (litAltTest (js "bad"))) (by decide) (by decide) rfl,
    (claim_C7 litAltRc [js "ss://h", js "trojan://h"]).2⟩

theorem fLines_nil : fLines [] = [] := rfl

theorem joinNl_ne_nil {l : List JStr} (hne : l ≠ []) (hx : ∀ x ∈ l, x ≠ []) :
    joinNl l ≠ [] := by
  cases l with
  | nil => exact absurd rfl hne
  | cons x rest =>
    cases rest with
    | nil => exact hx x (by simp)
    | cons y r2 =>
      show x ++ '\n' :: joinNl (y :: r2) ≠ []
      simp

theorem gen_lines {cn : JStr → JStr} {rc : JStr → Option (JStr → Bool)}
    {cfg : Config} {misubs : List Sub} {fetchR : Sub → Fetched} {out : JStr}
    (h : generateCombinedNodeList cn rc cfg misubs fetchR [] = some out) :
    ∃ m, processedManualNodes cn cfg misubs = some m ∧
      out = joinNl (dedupFirst (fLines m ++
        ((misubs.filter isHttpSub).map
          (fun s => fLines (processHttpSub cn rc cfg s (fetchR s)))).flatten)) := by
  unfold generateCombinedNodeList at h
  cases hm : processedManualNodes cn cfg misubs with
  | none => rw [hm] at h; exact Option.noConfusion h
  | some m =>
    rw [hm] at h
    simp only [Option.map_some', Option.some.injEq] at h
    refine ⟨m, rfl, ?_⟩
    rw [← h]
    show joinNl (dedupFirst (((splitNl (m ++ '\n' :: joinNl
        ((misubs.filter isHttpSub).map
          (fun s => processHttpSub cn rc cfg s (fetchR s))))).map jsTrim).filter
        (fun l => !l.isEmpty))) = _
    rw [show ∀ X : JStr, ((splitNl X).map jsTrim).filter (fun l => !l.isEmpty)
      = fLines X from fun X => rfl, fLines_append, fLines_joinNl, List.map_map]
    rfl

/-- C10 (implicit): when no summary node is prepended, every line of the
aggregated output is non-empty and equal to its own trim. -/
theorem claim_C10 (cn : JStr → JStr) (rc : JStr → Option (JStr → Bool))
    (cfg : Config) (misubs : List Sub) (fetchR : Sub → Fetched) (out : JStr)
    (h : generateCombinedNodeList cn rc cfg misubs fetchR [] = some out) :
    ∀ l ∈ outputLines out, l ≠ [] ∧ jsTrim l = l := by
  obtain ⟨m, hm, hout⟩ := gen_lines h
  have hmemL : ∀ x ∈ fLines m ++
      ((misubs.filter isHttpSub).map
        (fun s => fLines (processHttpSub cn rc cfg s (fetchR s)))).flatten,
      x ≠ [] ∧ jsTrim x = x ∧ '\n' ∉ x := by
    intro x hx
    rcases List.mem_append.mp hx with h1 | h1
    · exact fLines_mem h1
    · obtain ⟨l2, hl2, hx2⟩ := List.mem_flatten.mp h1
      obtain ⟨s2, hs2, hls⟩ := List.mem_map.mp hl2
      rw [← hls] at hx2
      exact fLines_mem hx2
  have hmemD : ∀ x ∈ dedupFirst (fLines m ++
      ((misubs.filter isHttpSub).map
        (fun s => fLines (processHttpSub cn rc cfg s (fetchR s)))).flatten),
      x ≠ [] ∧ jsTrim x = x ∧ '\n' ∉ x :=
    fun x hx => hmemL x (dedupFirst_sub hx)
  by_cases hD : dedupFirst (fLines m ++
      ((misubs.filter isHttpSub).map
        (fun s => fLines (processHttpSub cn rc cfg s (fetchR s)))).flatten) = []
  · rw [hout, hD]
    intro l hl
    exact absurd hl (by simp [outputLines, joinNl, joinWithC])
  · have hne : joinNl (dedupFirst (fLines m ++
        ((misubs.filter isHttpSub).map
          (fun s => fLines (processHttpSub cn rc cfg s (fetchR s)))).flatten)) ≠ [] :=
      joinNl_ne_nil hD (fun x hx => (hmemD x hx).1)
    rw [hout]
    unfold outputLines
    rw [if_neg hne, splitNl_joinNl hD (fun x hx => (hmemD x hx).2.2)]
    intro l hl
    exact ⟨(hmemD l hl).1, (hmemD l hl).2.1⟩

/-- C2 (amended): with no summary node prepended, the output lines are
pairwise distinct and are exactly the first-seen deduplication of the
trimmed non-blank lines of the manual block followed by each HTTP source's
processed lines in source order; the prepended summary node, added after
deduplication, can duplicate a body line (see the counterexample). -/
theorem claim_C2 (cn : JStr → JStr) (rc : JStr → Option (JStr → Bool))
    (cfg : Config) (misubs : List Sub) (fetchR : Sub → Fetched) (out : JStr)
    (h : generateCombinedNodeList cn rc cfg misubs fetchR [] = some out) :
    (outputLines out).Nodup ∧
    ∃ m, processedManualNodes cn cfg misubs = some m ∧
      outputLines out = dedupFirst (fLines m ++
        ((misubs.filter isHttpSub).map
          (fun s => fLines (processHttpSub cn rc cfg s (fetchR s)))).flatten) := by
  obtain ⟨m, hm, hout⟩ := gen_lines h
  have hmemD : ∀ x ∈ dedupFirst (fLines m ++
      ((misubs.filter isHttpSub).map
        (fun s => fLines (processHttpSub cn rc cfg s (fetchR s)))).flatten),
      x ≠ [] ∧ jsTrim x = x ∧ '\n' ∉ x := by
    intro x hx
    have hx2 := dedupFirst_sub hx
    rcases List.mem_append.mp hx2 with h1 | h1
    · exact fLines_mem h1
    · obtain ⟨l2, hl2, hx3⟩ := List.mem_flatten.mp h1
      obtain ⟨s2, hs2, hls⟩ := List.mem_map.mp hl2
      rw [← hls] at hx3
      exact fLines_mem hx3
  have hlines : outputLines out = dedupFirst (fLines m ++
      ((misubs.filter isHttpSub).map
        (fun s => fLines (processHttpSub cn rc cfg s (fetchR s)))).flatten) := by
    by_cases hD : dedupFirst (fLines m ++
        ((misubs.filter isHttpSub).map
          (fun s => fLines (processHttpSub cn rc cfg s (fetchR s)))).flatten) = []
    · rw [hout, hD]
      rfl
    · have hne := joinNl_ne_nil hD (fun x hx => (hmemD x hx).1)
      rw [hout]
      unfold outputLines
      rw [if_neg hne, splitNl_joinNl hD (fun x hx => (hmemD x hx).2.2)]
  refine ⟨?_, m, hm, hlines⟩
  rw [hlines]
  exact dedupFirst_nodup _

/-- C4: a source whose fetch rejects or returns a non-ok status contributes
no lines, and the whole aggregation equals the one computed without that
source; no per-source failure aborts the batch. -/
theorem claim_C4 (cn : JStr → JStr) (rc : JStr → Option (JStr → Bool))
    (cfg : Config) (l1 l2 : List Sub) (s0 : Sub) (fetchR : Sub → Fetched)
    (pc : JStr) (hhttp : isHttpSub s0 = true)
    (hfail : fetchR s0 = .err ∨ fetchR s0 = .notOk) :
    generateCombinedNodeList cn rc cfg (l1 ++ s0 :: l2) fetchR pc
      = generateCombinedNodeList cn rc cfg (l1 ++ l2) fetchR pc := by
  have hz : processHttpSub cn rc cfg s0 (fetchR s0) = [] := by
    rcases hfail with hf | hf <;> rw [hf] <;> rfl
  have hman : processedManualNodes cn cfg (l1 ++ s0 :: l2)
      = processedManualNodes cn cfg (l1 ++ l2) := by
    unfold processedManualNodes manualContent
    rw [List.filter_append, List.filter_append,
      show (s0 :: l2).filter (fun s => !isHttpSub s)
        = l2.filter (fun s => !isHttpSub s) from by simp [hhttp]]
  have hsub : fLines (joinNl (((l1 ++ s0 :: l2).filter isHttpSub).map
        (fun s => processHttpSub cn rc cfg s (fetchR s))))
      = fLines (joinNl (((l1 ++ l2).filter isHttpSub).map
        (fun s => processHttpSub cn rc cfg s (fetchR s)))) := by
    rw [fLines_joinNl, fLines_joinNl, List.filter_append, List.filter_append,
      show (s0 :: l2).filter isHttpSub = s0 :: l2.filter isHttpSub from by simp [hhttp]]
    simp only [List.map_append, List.map_cons, List.map_map, List.flatten_append,
      List.flatten_cons, hz]
    rw [show fLines [] = [] from rfl]
    simp
  unfold generateCombinedNodeList
  rw [hman]
  cases hm : processedManualNodes cn cfg (l1 ++ l2) with
  | none => rfl
  | some m =>
    simp only [Option.map_some', Option.some.injEq]
    have hfl : fLines (m ++ '\n' :: joinNl (((l1 ++ s0 :: l2).filter isHttpSub).map
          (fun s => processHttpSub cn rc cfg s (fetchR s))))
        = fLines (m ++ '\n' :: joinNl (((l1 ++ l2).filter isHttpSub).map
          (fun s => processHttpSub cn rc cfg s (fetchR s)))) := by
      rw [fLines_append, fLines_append, hsub]
    show (if pc.isEmpty = true then joinNl (dedupFirst (((splitNl (m ++ '\n' :: joinNl
        (((l1 ++ s0 :: l2).filter isHttpSub).map
          (fun s => processHttpSub cn rc cfg s (fetchR s))))).map jsTrim).filter
        (fun l => !l.isEmpty)))
      else pc ++ '\n' :: joinNl (dedupFirst (((splitNl (m ++ '\n' :: joinNl
        (((l1 ++ s0 :: l2).filter isHttpSub).map
          (fun s => processHttpSub cn rc cfg s (fetchR s))))).map jsTrim).filter
        (fun l => !l.isEmpty)))) = _
    rw [show ∀ X : JStr, ((splitNl X).map jsTrim).filter (fun l => !l.isEmpty)
      = fLines X from fun X => rfl, hfl]
    rfl

/-- A concrete regex collaborator whose constructor always throws; the
witnesses below never reach it. -/
def rcNone : JStr → Option (JStr → Bool) := fun _ => none

/-- A concrete configuration with name prefixing disabled. -/
def cfgNoPrep : Config :=
  { mytoken := js "auto", profileToken := js "profiles", prependSubName := false }

/-- A concrete manual subscription entry. -/
def subManual : Sub :=
  { url := js "trojan://h", name := js "n", enabled := true, exclude := [] }

/-- A concrete HTTP subscription entry. -/
def subHttp : Sub :=
  { url := js "http://x", name := js "n", enabled := true, exclude := [] }

/-- A concrete manual entry whose url equals the synthetic quota node. -/
def subDup : Sub :=
  { url := fakeNodeString (js "quota"), name := js "n", enabled := true, exclude := [] }

/-- Witness for C10 at a concrete aggregation with one manual node. -/
theorem claim_C10_witness :
    generateCombinedNodeList cn0 rcNone cfgNoPrep [subManual] (fun _ => Fetched.err) []
      = some (js "trojan://h") ∧
    ∀ l ∈ outputLines (js "trojan://h"), l ≠ [] ∧ jsTrim l = l :=
  ⟨rfl, claim_C10 cn0 rcNone cfgNoPrep [subManual] (fun _ => Fetched.err)
    (js "trojan://h") rfl⟩

/-- Witness for C2 at the same concrete aggregation. -/
theorem claim_C2_witness :
    generateCombinedNodeList cn0 rcNone cfgNoPrep [subManual] (fun _ => Fetched.err) []
      = some (js "trojan://h") ∧
    (outputLines (js "trojan://h")).Nodup :=
  ⟨rfl, (claim_C2 cn0 rcNone cfgNoPrep [subManual] (fun _ => Fetched.err)
    (js "trojan://h") rfl).1⟩

/-- Counterexample to C2 as stated: a manual node byte-identical to the
prepended synthetic quota node appears twice in the final output, because
deduplication runs before the summary line is prepended. -/
theorem claim_C2_counterexample :
    generateCombinedNodeList cn0 rcNone cfgNoPrep [subDup] (fun _ => Fetched.err)
        (fakeNodeString (js "quota"))
      = some (fakeNodeString (js "quota") ++ '\n' :: fakeNodeString (js "quota"))
    ∧ ¬ (outputLines (fakeNodeString (js "quota")
        ++ '\n' :: fakeNodeString (js "quota"))).Nodup := by
  exact ⟨rfl, by decide⟩

/-- Witness for C4 at a concrete failing HTTP source. -/
theorem claim_C4_witness :
    isHttpSub subHttp = true ∧
    generateCombinedNodeList cn0 rcNone cfgNoPrep ([] ++ subHttp :: []) (fun _ => Fetched.err) []
      = generateCombinedNodeList cn0 rcNone cfgNoPrep ([] ++ []) (fun _ => Fetched.err) [] :=
  ⟨by decide, claim_C4 cn0 rcNone cfgNoPrep [] [] subHttp (fun _ => Fetched.err) []
    (by decide) (Or.inl rfl)⟩

end MiSub
